import Mathlib

/-!
Verification of the sliding-brick-puzzle state-space search engine
(`sliding_brick_puzzle.c`, `breadth_first_search.c`, `depth_first_search.c`,
`a_star_search.c`, `utilities/state_hash_table.c`,
`utilities/bfs_fifo_queue.c`, `utilities/dfs_filo_stack.c`).

A board is shallowly embedded as a list of rows of integer cell labels
(the C `int **board_state`), with the board height, width and highest
block number threaded explicitly (the C keeps them in globals set at
load time).  C `int` values are modelled as `Int`: all arithmetic the
engine performs stays far below any overflow boundary.  Fallible or
unbounded C control flow (search loops, checked array accesses) is
modelled with explicit fuel and `Option`.
-/

namespace SBP

/-- A board: list of rows, each row a list of integer cell labels. -/
abbrev Board := List (List Int)

/-- Read one cell (`input_state[i][j]`).  All reads the C engine performs
are bounds-guarded, so the default value is never observable under the
well-formedness assumptions used below. -/
def cell (b : Board) (i j : Nat) : Int :=
  (b.getD i []).getD j 0

/-- Row-major list of all cell coordinates, mirroring the C nested
`for (i...) for (j...)` scans. -/
def cellIndices (H W : Nat) : List (Nat × Nat) :=
  (List.range H).flatMap (fun i => (List.range W).map (fun j => (i, j)))

/-- All cell labels in row-major order. -/
def rowMajor (b : Board) : List Int :=
  b.flatten

/-- `checkGameComplete`: a state is solved iff no cell holds `-1`. -/
def checkGameComplete (b : Board) : Bool :=
  (rowMajor b).all (fun v => v != -1)

/-- `cloneGameState`: allocates a fresh board and copies every cell. -/
def cloneGameState (b : Board) : Board :=
  b.map (fun row => row.map (fun v => v))

/-- `compareStates`: cell-by-cell comparison (boards of equal dimensions). -/
def compareStates (a b : Board) : Bool :=
  a == b

/-- The four move directions (`Move_Direction` in `definitions.h`). -/
inductive Move_Direction
  | UP
  | DOWN
  | LEFT
  | RIGHT
deriving DecidableEq, Repr

/-- A move: block label plus direction (`MOVE` in `definitions.h`). -/
structure MOVE where
  block_num : Int
  direction : Move_Direction
deriving DecidableEq, Repr

/-! ### Move generation (`getAvailableMoves`, `getAllAvailableMoves`) -/

/-- The `up_legal`-disabling test of `getAvailableMoves` at a cell
holding `piece`: off-grid above, or the cell above holds a label that is
not `0`, not the piece itself, and (for the primary block `2`) not `-1`. -/
def upBlocked (b : Board) (piece : Int) (i j : Nat) : Bool :=
  (i == 0) ||
  (piece == 2 && cell b (i-1) j != 0 && cell b (i-1) j != -1 && cell b (i-1) j != piece) ||
  (piece != 2 && cell b (i-1) j != 0 && cell b (i-1) j != piece)

/-- The `down_legal`-disabling test (see `upBlocked`). -/
def downBlocked (H : Nat) (b : Board) (piece : Int) (i j : Nat) : Bool :=
  (i == H - 1) ||
  (piece == 2 && cell b (i+1) j != 0 && cell b (i+1) j != -1 && cell b (i+1) j != piece) ||
  (piece != 2 && cell b (i+1) j != 0 && cell b (i+1) j != piece)

/-- The `left_legal`-disabling test (see `upBlocked`). -/
def leftBlocked (b : Board) (piece : Int) (i j : Nat) : Bool :=
  (j == 0) ||
  (piece == 2 && cell b i (j-1) != 0 && cell b i (j-1) != -1 && cell b i (j-1) != piece) ||
  (piece != 2 && cell b i (j-1) != 0 && cell b i (j-1) != piece)

/-- The `right_legal`-disabling test (see `upBlocked`). -/
def rightBlocked (W : Nat) (b : Board) (piece : Int) (i j : Nat) : Bool :=
  (j == W - 1) ||
  (piece == 2 && cell b i (j+1) != 0 && cell b i (j+1) != -1 && cell b i (j+1) != piece) ||
  (piece != 2 && cell b i (j+1) != 0 && cell b i (j+1) != piece)

/-- The four direction-legality flags carried through the scan of
`getAvailableMoves`. -/
structure MoveFlags where
  up_legal : Bool
  down_legal : Bool
  left_legal : Bool
  right_legal : Bool
deriving DecidableEq, Repr

/-- One step of the cell scan in `getAvailableMoves`: at a cell holding
the piece, each still-true flag is cleared when its direction is blocked
there; other cells leave the flags alone. -/
def scanCell (H W : Nat) (b : Board) (piece : Int) (fl : MoveFlags) (p : Nat × Nat) : MoveFlags :=
  if cell b p.1 p.2 == piece then
    { up_legal    := fl.up_legal    && !upBlocked b piece p.1 p.2
      down_legal  := fl.down_legal  && !downBlocked H b piece p.1 p.2
      left_legal  := fl.left_legal  && !leftBlocked b piece p.1 p.2
      right_legal := fl.right_legal && !rightBlocked W b piece p.1 p.2 }
  else fl

/-- The flags `getAvailableMoves` ends its row-major scan with. -/
def movesScan (H W : Nat) (b : Board) (piece : Int) : MoveFlags :=
  (cellIndices H W).foldl (scanCell H W b piece) ⟨true, true, true, true⟩

/-- `getAvailableMoves`: the list of legal moves for one block, built in
the fixed order up, down, left, right.  (When the piece is absent from the
board the C function reports four moves but never writes the output
array; every caller below only invokes it for labels that are present.) -/
def getAvailableMoves (H W : Nat) (b : Board) (piece : Int) : List MOVE :=
  (if (movesScan H W b piece).up_legal    then [⟨piece, .UP⟩]    else []) ++
  (if (movesScan H W b piece).down_legal  then [⟨piece, .DOWN⟩]  else []) ++
  (if (movesScan H W b piece).left_legal  then [⟨piece, .LEFT⟩]  else []) ++
  (if (movesScan H W b piece).right_legal then [⟨piece, .RIGHT⟩] else [])

/-- `getAllAvailableMoves`: concatenates the per-block move lists for the
block labels `2, 3, ..., max_block_num` in ascending order. -/
def getAllAvailableMoves (H W maxB : Nat) (b : Board) : List MOVE :=
  (List.range' 2 (maxB - 1)).flatMap (fun L => getAvailableMoves H W b ((L : Nat) : Int))

/-! ### Applying a move (`applyMove`, `applyMoveCloning`) -/

/-- Write one cell of a board (`temp_board[i][j] = v`). -/
def setCell (b : Board) (i j : Nat) (v : Int) : Board :=
  b.set i ((b.getD i []).set j v)

/-- Target coordinates of moving the cell at `p` one step in direction `d`. -/
def shiftTarget (d : Move_Direction) (p : Nat × Nat) : Nat × Nat :=
  match d with
  | .UP    => (p.1 - 1, p.2)
  | .DOWN  => (p.1 + 1, p.2)
  | .LEFT  => (p.1, p.2 - 1)
  | .RIGHT => (p.1, p.2 + 1)

/-- First pass of `applyMove`: copy the state with the moving block
cleared to `0`. -/
def clearBlock (b : Board) (L : Int) : Board :=
  b.map (fun row => row.map (fun v => if v == L then 0 else v))

/-- `applyMove` as a function from the old state to the new state: the
first pass clears the moving block, the second writes the block label
into each source cell's neighbor in the move direction (reading the
original state throughout, exactly as the C writes `temp_board` while
reading `input_state`). -/
def applyMove (H W : Nat) (b : Board) (m : MOVE) : Board :=
  (cellIndices H W).foldl
    (fun acc p =>
      if cell b p.1 p.2 == m.block_num then
        setCell acc (shiftTarget m.direction p).1 (shiftTarget m.direction p).2 m.block_num
      else acc)
    (clearBlock b m.block_num)

/-- `applyMoveCloning`: clone the input state, then apply the move to the
clone; the input board is not written. -/
def applyMoveCloning (H W : Nat) (b : Board) (m : MOVE) : Board :=
  applyMove H W (cloneGameState b) m

/-! ### State normalization (`normalizeState`) -/

/-- The block labels `> 2` in the order their first cell is met by the
row-major remap-plan scan of `normalizeState` (the scan marks a label
`block_seen` the first time and assigns it the next counter value). -/
def scanSeen (b : Board) : List Int :=
  (rowMajor b).foldl (fun acc v => if 2 < v ∧ v ∉ acc then acc ++ [v] else acc) []

/-- The remap table of `normalizeState`: the k-th first-seen label `> 2`
is sent to `3 + k` (`remap_counter` starts at 3). -/
def remapOf (b : Board) (v : Int) : Int :=
  3 + ((scanSeen b).indexOf v : Nat)

/-- `normalizeState` as a function from the old state to the new state:
labels `> 2` are replaced through the remap table, all other labels are
kept.  (This is the remap algorithm of the C function with its two
tables sized `max_block_num + 1`, the extent its initialization loop
covers; the C allocation is one entry short of that, see `c9` below.) -/
def normalizeState (b : Board) : Board :=
  b.map (fun row => row.map (fun v => if 2 < v then remapOf b v else v))

/-! ### Visited-state table (`state_hash_table.c`) -/

/-- A visited-state key: the interior cell labels in row-major order.
`getStateHashKey` encodes each interior cell as the character
`label + 'A'`, an encoding injective on the label range the engine uses
(`-1 .. max_block_num`), so keys are compared here as label lists. -/
abbrev HashKey := List Int

/-- `getStateHashKey`: encode the interior (border ring excluded) of a
board, rows `1 .. H-2`, columns `1 .. W-2`. -/
def getStateHashKey (H W : Nat) (b : Board) : HashKey :=
  (List.range' 1 (H - 2)).flatMap (fun i =>
    (List.range' 1 (W - 2)).map (fun j => cell b i j))

/-- The visited-state table: key/value pairs in insertion order (the C
hash table chains entries per bucket; the callers keep keys unique, so
only the key-to-value mapping is observable). -/
abbrev HashTable := List (HashKey × Int)

/-- `getHashTableValue`: value of the first entry matching the key, or
`-1` when the key is absent. -/
def getHashTableValue (t : HashTable) (k : HashKey) : Int :=
  match t with
  | [] => -1
  | e :: rest => if e.1 == k then e.2 else getHashTableValue rest k

/-- `insertIntoStateHashTable`: append a new entry (callers only insert
keys that are absent). -/
def insertIntoStateHashTable (t : HashTable) (k : HashKey) (v : Int) : HashTable :=
  t ++ [(k, v)]

/-- `updateHashTableValue`: overwrite the value of the first entry
matching the key; no effect when the key is absent. -/
def updateHashTableValue (t : HashTable) (k : HashKey) (v : Int) : HashTable :=
  match t with
  | [] => []
  | e :: rest => if e.1 == k then (k, v) :: rest else e :: updateHashTableValue rest k v

/-! ### Search nodes and frontiers -/

/-- A search node (`STATE_NODE`): a board plus the path cost from the
root.  The parent/move provenance fields only feed the excluded path
printing and do not influence any returned cost, so they are not
modelled. -/
structure STATE_NODE where
  path_cost : Nat
  board_state : Board
deriving DecidableEq, Repr

/-- The normalized successor boards of a node's board, one per legal
move, in move-enumeration order (`applyMoveCloning` then
`normalizeState` inside each driver's move loop). -/
def succsOf (H W maxB : Nat) (b : Board) : List Board :=
  (getAllAvailableMoves H W maxB b).map (fun m => normalizeState (applyMoveCloning H W b m))

/-! ### Breadth-first search (`breadth_first_search.c`) -/

/-- The successor policy of `breadthFirstSearch` (lines 86-97) and
`aStarSearch` (lines 230-241), which duplicate the same code: a
successor whose key is in the closed set (stored value `>= 0`) is
dropped; otherwise it is enqueued at the FIFO tail and its key inserted
with its depth. -/
def bfsHandleSucc (H W : Nat) (t : HashTable) (q : List STATE_NODE) (nb : Board)
    (depth : Nat) : HashTable × List STATE_NODE :=
  let key := getStateHashKey H W nb
  if getHashTableValue t key ≥ 0 then (t, q)
  else (insertIntoStateHashTable t key (depth : Int), q ++ [⟨depth, nb⟩])

/-- The move loop of `breadthFirstSearch`: walk the normalized successors
in order; a solved successor ends the whole search with its depth,
anything else goes through `bfsHandleSucc`. -/
def bfsProcessSuccs (H W : Nat) (t : HashTable) (q : List STATE_NODE) (depth : Nat) :
    List Board → Option Nat × HashTable × List STATE_NODE
  | [] => (none, t, q)
  | nb :: rest =>
    if checkGameComplete nb then (some depth, t, q)
    else
      let tq := bfsHandleSucc H W t q nb depth
      bfsProcessSuccs H W tq.1 tq.2 depth rest

/-- The `while(!bfsQueueIsEmpty())` loop of `breadthFirstSearch`, with
explicit fuel (`none` = fuel ran out before the loop finished). -/
def bfsLoop (H W maxB : Nat) : Nat → HashTable → List STATE_NODE → Option Int
  | 0, _, _ => none
  | fuel+1, t, q =>
    match q with
    | [] => some (-1)
    | node :: q' =>
      match bfsProcessSuccs H W t q' (node.path_cost + 1) (succsOf H W maxB node.board_state) with
      | (some d, _, _) => some ((d : Nat) : Int)
      | (none, t', q'') => bfsLoop H W maxB fuel t' q''

/-- `breadthFirstSearch`: enqueue the root at cost 0, record its key at
cost 0, and run the FIFO loop. -/
def breadthFirstSearch (fuel H W maxB : Nat) (b : Board) : Option Int :=
  bfsLoop H W maxB fuel (insertIntoStateHashTable [] (getStateHashKey H W b) 0) [⟨0, b⟩]

/-! ### Depth-first search family (`depth_first_search.c`) -/

/-- The successor policy of `generalDepthFirstSearch` (lines 96-113): an
unseen key is pushed and inserted; a seen key with stored cost strictly
above the new depth is pushed again and the stored cost overwritten;
otherwise the successor is dropped. -/
def dfsHandleSucc (H W : Nat) (t : HashTable) (st : List STATE_NODE) (nb : Board)
    (depth : Nat) : HashTable × List STATE_NODE :=
  let key := getStateHashKey H W nb
  let v := getHashTableValue t key
  if v < 0 then (insertIntoStateHashTable t key (depth : Int), ⟨depth, nb⟩ :: st)
  else if v > (depth : Int) then (updateHashTableValue t key (depth : Int), ⟨depth, nb⟩ :: st)
  else (t, st)

/-- The move loop of `generalDepthFirstSearch` (same shape as
`bfsProcessSuccs`, with the DFS successor policy and a FILO push). -/
def dfsProcessSuccs (H W : Nat) (t : HashTable) (st : List STATE_NODE) (depth : Nat) :
    List Board → Option Nat × HashTable × List STATE_NODE
  | [] => (none, t, st)
  | nb :: rest =>
    if checkGameComplete nb then (some depth, t, st)
    else
      let ts := dfsHandleSucc H W t st nb depth
      dfsProcessSuccs H W ts.1 ts.2 depth rest

/-- The `while(!dfsStackIsEmpty())` loop of `generalDepthFirstSearch`: a
popped node is expanded only when the search is unlimited or its path
cost is strictly below `max_depth`. -/
def dfsLoop (H W maxB : Nat) (depth_limited : Bool) (max_depth : Nat) :
    Nat → HashTable → List STATE_NODE → Option Int
  | 0, _, _ => none
  | fuel+1, t, st =>
    match st with
    | [] => some (-1)
    | node :: st' =>
      if !depth_limited || node.path_cost < max_depth then
        match dfsProcessSuccs H W t st' (node.path_cost + 1) (succsOf H W maxB node.board_state) with
        | (some d, _, _) => some ((d : Nat) : Int)
        | (none, t', st'') => dfsLoop H W maxB depth_limited max_depth fuel t' st''
      else dfsLoop H W maxB depth_limited max_depth fuel t st'

/-- `generalDepthFirstSearch`: push the root at cost 0, record its key at
cost 0, and run the FILO loop. -/
def generalDepthFirstSearch (fuel H W maxB : Nat) (b : Board) (depth_limited : Bool)
    (max_depth : Nat) : Option Int :=
  dfsLoop H W maxB depth_limited max_depth fuel
    (insertIntoStateHashTable [] (getStateHashKey H W b) 0) [⟨0, b⟩]

/-- `depthFirstSearch`: the unlimited instance. -/
def depthFirstSearch (fuel H W maxB : Nat) (b : Board) : Option Int :=
  generalDepthFirstSearch fuel H W maxB b false 0

/-- `depthLimitedSearch`: the depth-limited instance. -/
def depthLimitedSearch (fuel H W maxB : Nat) (b : Board) (max_depth : Nat) : Option Int :=
  generalDepthFirstSearch fuel H W maxB b true max_depth

/-- The `while (!goal_reached)` loop of `interativeDeepeningSearch`: each
round runs a depth-limited search on a fresh visited-state table
(`resetHashTable`) at limit `search_depth + 1` (`++search_depth`); a
round counts as success when its result is `> 0`, and the round number is
returned.  The outer fuel bounds the number of rounds observed; `none`
means the loop was still running. -/
def idsLoop (innerFuel H W maxB : Nat) (b : Board) : Nat → Nat → Option Nat
  | 0, _ => none
  | fuel+1, search_depth =>
    match depthLimitedSearch innerFuel H W maxB b (search_depth + 1) with
    | none => none
    | some r => if r > 0 then some (search_depth + 1) else idsLoop innerFuel H W maxB b fuel (search_depth + 1)

/-- `interativeDeepeningSearch` (the C function's spelling): rounds start
at depth limit 1. -/
def interativeDeepeningSearch (fuel innerFuel H W maxB : Nat) (b : Board) : Option Nat :=
  idsLoop innerFuel H W maxB b fuel 0

/-! ### A* search (`a_star_search.c`) -/

/-- `WORST_CASE_DISTANCE`, the best-so-far seed of `getBestNode`. -/
def WORST_CASE_DISTANCE : Int := 1000

/-- The extent accumulator of `get_heuristic`: independently maximal row
and column of the primary-block (`2`) cells and of the goal (`-1`)
cells, each starting at `-1`. -/
structure Extents where
  start_block_row : Int
  start_block_col : Int
  end_block_row : Int
  end_block_col : Int
deriving DecidableEq, Repr

/-- One step of the cell scan in `get_heuristic`. -/
def heurScan (b : Board) (e : Extents) (p : Nat × Nat) : Extents :=
  let v := cell b p.1 p.2
  let e1 :=
    if v == 2 then
      { e with
        start_block_row := if (p.1 : Int) > e.start_block_row then (p.1 : Int) else e.start_block_row
        start_block_col := if (p.2 : Int) > e.start_block_col then (p.2 : Int) else e.start_block_col }
    else e
  if v == -1 then
    { e1 with
      end_block_row := if (p.1 : Int) > e1.end_block_row then (p.1 : Int) else e1.end_block_row
      end_block_col := if (p.2 : Int) > e1.end_block_col then (p.2 : Int) else e1.end_block_col }
  else e1

/-- `get_heuristic`: Manhattan distance between the two extents. -/
def get_heuristic (H W : Nat) (b : Board) : Int :=
  let e := (cellIndices H W).foldl (heurScan b) ⟨-1, -1, -1, -1⟩
  |e.end_block_row - e.start_block_row| + |e.end_block_col - e.start_block_col|

/-- The f-value `g(n) + h(n)` used by `getBestNode`. -/
def fOfN (H W : Nat) (n : STATE_NODE) : Int :=
  (n.path_cost : Int) + get_heuristic H W n.board_state

/-- The frontier walk of `getBestNode`, carrying the best node so far and
its f-value (`shortest_path`, seeded with `WORST_CASE_DISTANCE`); only a
strictly smaller f-value replaces the best node. -/
def getBestNodeAux (H W : Nat) (best : Option STATE_NODE) (short : Int) :
    List STATE_NODE → Option STATE_NODE
  | [] => best
  | n :: rest =>
    if fOfN H W n < short then getBestNodeAux H W (some n) (fOfN H W n) rest
    else getBestNodeAux H W best short rest

/-- `getBestNode`: scan the whole frontier; `none` models the C returning
`NULL` (no node beat the `WORST_CASE_DISTANCE` seed). -/
def getBestNode (H W : Nat) (q : List STATE_NODE) : Option STATE_NODE :=
  getBestNodeAux H W none WORST_CASE_DISTANCE q

/-- `removeNode`: unlink the first frontier node whose board compares
equal (`compareStates`) to the given board; an absent board leaves the
frontier unchanged. -/
def removeNode (q : List STATE_NODE) (b : Board) : List STATE_NODE :=
  match q with
  | [] => []
  | x :: xs => if compareStates x.board_state b then xs else x :: removeNode xs b

/-- The `while(!bfsQueueIsEmpty())` loop of `aStarSearch`: select the
best node, remove it by board content, then run the same move loop as
breadth-first (the C duplicates those lines verbatim).  `getBestNode`
returning `NULL` is dereferenced unconditionally by the C; that stuck
state is modelled as `none`. -/
def aStarLoop (H W maxB : Nat) : Nat → HashTable → List STATE_NODE → Option Int
  | 0, _, _ => none
  | fuel+1, t, q =>
    match q with
    | [] => some (-1)
    | _ :: _ =>
      match getBestNode H W q with
      | none => none
      | some node =>
        let q' := removeNode q node.board_state
        match bfsProcessSuccs H W t q' (node.path_cost + 1) (succsOf H W maxB node.board_state) with
        | (some d, _, _) => some ((d : Nat) : Int)
        | (none, t', q'') => aStarLoop H W maxB fuel t' q''

/-- `aStarSearch`: drain the shared queue (modelled by starting from the
empty frontier), seed with the root, and run the best-first loop. -/
def aStarSearch (fuel H W maxB : Nat) (b : Board) : Option Int :=
  aStarLoop H W maxB fuel (insertIntoStateHashTable [] (getStateHashKey H W b) 0) [⟨0, b⟩]

/-! ### `normalizeState` with checked table accesses

The C `normalizeState` mallocs `block_seen` and `remap` with
`max_block_num` entries each and then initializes indices
`0 .. max_block_num` inclusive.  To examine those accesses, the tables
are modelled as lists of exactly `max_block_num` entries with
`Option`-returning bounds-checked reads and writes. -/

/-- Bounds-checked array write. -/
def writeArr {α : Type} (a : List α) (i : Nat) (v : α) : Option (List α) :=
  if i < a.length then some (a.set i v) else none

/-- Bounds-checked array read. -/
def readArr {α : Type} (a : List α) (i : Nat) : Option α :=
  a.get? i

/-- The initialization loop of `normalizeState`
(`for (i = 0; i <= max_block_num; i++)`) over tables of the allocated
size `max_block_num`. -/
def initNormTables (max_block_num : Nat) : Option (List Bool × List Int) :=
  (List.range (max_block_num + 1)).foldlM
    (fun sr i => do
      let s ← writeArr sr.1 i false
      let r ← writeArr sr.2 i (0 : Int)
      pure (s, r))
    (List.replicate max_block_num false, List.replicate max_block_num (0 : Int))

/-- The remap-plan scan of `normalizeState` with checked accesses: state
is `(block_seen, remap, remap_counter)`. -/
def normPlan (max_block_num : Nat) (b : Board) : Option (List Bool × List Int × Int) := do
  let init ← initNormTables max_block_num
  (rowMajor b).foldlM
    (fun st v =>
      if 2 < v then do
        let seen ← readArr st.1 v.toNat
        if seen then pure st
        else do
          let s ← writeArr st.1 v.toNat true
          let r ← writeArr st.2.1 v.toNat st.2.2
          pure (s, r, st.2.2 + 1)
      else pure st)
    (init.1, init.2, (3 : Int))

/-- `normalizeState` with checked accesses: build the remap plan, then
remap every label `> 2` through a checked read. -/
def normalizeStateChecked (max_block_num : Nat) (b : Board) : Option Board := do
  let plan ← normPlan max_block_num b
  b.mapM (fun row => row.mapM (fun v =>
    if 2 < v then readArr plan.2.1 v.toNat else pure v))

/-! ### Well-formed boards

The loader contract (spec §6) supplies `(height, width, maxBlockLabel,
initialBoard)` and the engine assumes the §3 cell-label semantics: a
rectangular grid whose border ring is wall (`1`) as in every shipped
puzzle file, labels in `-1 .. max_block_num`, and every movable label
`2 .. max_block_num` actually placed (§3: cells of a label `≥ 2` are
non-empty; normalization keeps the movable labels consecutive). -/

/-- Decidable well-formedness of a loaded board. -/
def wfBoard (H W maxB : Nat) (b : Board) : Bool :=
  (b.length == H) && b.all (fun row => row.length == W) &&
  decide (3 ≤ H) && decide (3 ≤ W) && decide (2 ≤ maxB) &&
  (cellIndices H W).all (fun p =>
    !(p.1 == 0 || p.1 == H - 1 || p.2 == 0 || p.2 == W - 1) || (cell b p.1 p.2 == 1)) &&
  (cellIndices H W).all (fun p =>
    decide ((-1 : Int) ≤ cell b p.1 p.2) && decide (cell b p.1 p.2 ≤ (maxB : Int))) &&
  (List.range' 2 (maxB - 1)).all (fun L => (rowMajor b).any (fun v => v == ((L : Nat) : Int)))

/-! ### Spec-side move generator (§4.2 of the spec)

These definitions transcribe the spec's words, to be compared with the
embedded `getAvailableMoves`/`getAllAvailableMoves`: a direction is
legal for a block iff every cell holding the block's label has an
in-grid neighbor in that direction whose label is `0` or the block's
own label, the primary block `2` also accepting `-1`. -/

/-- Spec: the destination cell's label is passable for the given block. -/
def specPassable (b : Board) (piece : Int) (i j : Nat) : Prop :=
  cell b i j = 0 ∨ cell b i j = piece ∨ (piece = 2 ∧ cell b i j = -1)

instance (b : Board) (piece : Int) (i j : Nat) : Decidable (specPassable b piece i j) :=
  inferInstanceAs (Decidable (cell b i j = 0 ∨ cell b i j = piece ∨ (piece = 2 ∧ cell b i j = -1)))

/-- Spec: the cell `(i, j)` can step in direction `d` (in-grid neighbor
with passable label). -/
def specFree (H W : Nat) (b : Board) (piece : Int) (d : Move_Direction) (i j : Nat) : Prop :=
  match d with
  | .UP    => i ≠ 0 ∧ specPassable b piece (i-1) j
  | .DOWN  => i + 1 < H ∧ specPassable b piece (i+1) j
  | .LEFT  => j ≠ 0 ∧ specPassable b piece i (j-1)
  | .RIGHT => j + 1 < W ∧ specPassable b piece i (j+1)

instance (H W : Nat) (b : Board) (piece : Int) (d : Move_Direction) (i j : Nat) :
    Decidable (specFree H W b piece d i j) :=
  match d with
  | .UP    => inferInstanceAs (Decidable (i ≠ 0 ∧ specPassable b piece (i-1) j))
  | .DOWN  => inferInstanceAs (Decidable (i + 1 < H ∧ specPassable b piece (i+1) j))
  | .LEFT  => inferInstanceAs (Decidable (j ≠ 0 ∧ specPassable b piece i (j-1)))
  | .RIGHT => inferInstanceAs (Decidable (j + 1 < W ∧ specPassable b piece i (j+1)))

/-- Spec: direction `d` is a legal move for the block `piece` iff every
cell holding the label can step in that direction. -/
def specLegal (H W : Nat) (b : Board) (piece : Int) (d : Move_Direction) : Prop :=
  ∀ i, i < H → ∀ j, j < W → cell b i j = piece → specFree H W b piece d i j

instance (H W : Nat) (b : Board) (piece : Int) (d : Move_Direction) :
    Decidable (specLegal H W b piece d) := by
  unfold specLegal; infer_instance

/-- Spec: the per-block legal-move list in direction order up, down,
left, right. -/
def specMovesFor (H W : Nat) (b : Board) (piece : Int) : List MOVE :=
  (if specLegal H W b piece .UP    then [⟨piece, .UP⟩]    else []) ++
  (if specLegal H W b piece .DOWN  then [⟨piece, .DOWN⟩]  else []) ++
  (if specLegal H W b piece .LEFT  then [⟨piece, .LEFT⟩]  else []) ++
  (if specLegal H W b piece .RIGHT then [⟨piece, .RIGHT⟩] else [])

/-- Spec: the full enumeration, the union of the per-block lists over
the movable labels `2 ≤ L ≤ maxLabel` present on the board, in ascending
label order. -/
def specAllMoves (H W maxB : Nat) (b : Board) : List MOVE :=
  ((List.range' 2 (maxB - 1)).filter
      (fun L => (rowMajor b).any (fun v => v == ((L : Nat) : Int)))).flatMap
    (fun L => specMovesFor H W b ((L : Nat) : Int))

/-- The final legality flag computed by `getAvailableMoves` for one
direction. -/
def legalFlag (H W : Nat) (b : Board) (piece : Int) : Move_Direction → Bool
  | .UP    => (movesScan H W b piece).up_legal
  | .DOWN  => (movesScan H W b piece).down_legal
  | .LEFT  => (movesScan H W b piece).left_legal
  | .RIGHT => (movesScan H W b piece).right_legal

/-! ### Concrete boards used as witnesses and counterexamples -/

/-- A 3x4 board that is already solved (no `-1` cell); the primary block
can move right. -/
def bSolved : Board := [[1, 1, 1, 1], [1, 2, 0, 1], [1, 1, 1, 1]]

/-- A 3x5 board that is not solved and has no legal move at all: the
primary block is walled in and the goal cell unreachable. -/
def bStuck : Board := [[1, 1, 1, 1, 1], [1, 2, 1, -1, 1], [1, 1, 1, 1, 1]]

/-- A 4x5 board with movable blocks 2, 3 and 4. -/
def bDemo : Board :=
  [[1, 1, 1, 1, 1], [1, 2, 0, 3, 1], [1, 0, 4, -1, 1], [1, 1, 1, 1, 1]]

/-- `bDemo` with the interchangeable labels 3 and 4 swapped. -/
def bDemoSwap : Board :=
  [[1, 1, 1, 1, 1], [1, 2, 0, 4, 1], [1, 0, 3, -1, 1], [1, 1, 1, 1, 1]]

/-! ### Relabelings of a board -/

/-- The label swap `3 <-> 4`, a permutation of the labels `≥ 3`. -/
def swap34 : Int → Int := fun v => if v = 3 then 4 else if v = 4 then 3 else v

/-- Apply a relabeling function to every cell of a board. -/
def mapBoard (f : Int → Int) (b : Board) : Board :=
  b.map (fun row => row.map f)

/-- The remap-plan scan of `normalizeState` run from an arbitrary
accumulator of already-seen labels (`scanSeen b = seenFold [] (rowMajor
b)`). -/
def seenFold (acc : List Int) (xs : List Int) : List Int :=
  xs.foldl (fun acc v => if 2 < v ∧ v ∉ acc then acc ++ [v] else acc) acc

/-- The hit condition of one write of the second `applyMove` pass: the
scanned source cell `p` holds the moving label and its in-grid target is
the queried cell. -/
def foldHits (b : Board) (L : Int) (d : Move_Direction) (a0 : Board)
    (q1 q2 : Nat) (p : Nat × Nat) : Prop :=
  cell b p.1 p.2 = L ∧ (shiftTarget d p).1 = q1 ∧ (shiftTarget d p).2 = q2 ∧
    (shiftTarget d p).1 < a0.length ∧
    (shiftTarget d p).2 < (a0.getD (shiftTarget d p).1 []).length

instance (b : Board) (L : Int) (d : Move_Direction) (a0 : Board)
    (q1 q2 : Nat) (p : Nat × Nat) : Decidable (foldHits b L d a0 q1 q2 p) :=
  inferInstanceAs (Decidable (cell b p.1 p.2 = L ∧ (shiftTarget d p).1 = q1 ∧
    (shiftTarget d p).2 = q2 ∧ (shiftTarget d p).1 < a0.length ∧
    (shiftTarget d p).2 < (a0.getD (shiftTarget d p).1 []).length))

/-- Spec: cell `(i, j)` is re-covered by the move `(L, d)`: its neighbor
opposite to `d` is an in-grid cell holding `L` (so that cell's occupant
lands on `(i, j)`). -/
def coveredFrom (H W : Nat) (b : Board) (L : Int) (d : Move_Direction) (i j : Nat) : Bool :=
  match d with
  | .UP    => decide (i + 1 < H) && decide (j < W) && (cell b (i+1) j == L)
  | .DOWN  => decide (1 ≤ i) && decide (i - 1 < H) && decide (j < W) && (cell b (i-1) j == L)
  | .LEFT  => decide (i < H) && decide (j + 1 < W) && (cell b i (j+1) == L)
  | .RIGHT => decide (i < H) && decide (1 ≤ j) && decide (j - 1 < W) && (cell b i (j-1) == L)

/-- A 3x4 board solvable in exactly one move. -/
def bOne : Board := [[1, 1, 1, 1], [1, 2, -1, 1], [1, 1, 1, 1]]

/-- The keys stored in a visited-state table. -/
def keysOf (t : HashTable) : List HashKey := t.map Prod.fst

/-- Spec: the board can reach a solved state in exactly `n` legal moves
(the claim's "number of moves from the root to a solved state"). -/
def SolvableInN (H W maxB : Nat) : Nat → Board → Prop
  | 0, b => checkGameComplete b = true
  | n+1, b => ∃ m ∈ getAllAvailableMoves H W maxB b, SolvableInN H W maxB n (applyMove H W b m)

instance instDecSolvableInN (H W maxB : Nat) :
    ∀ (n : Nat) (b : Board), Decidable (SolvableInN H W maxB n b)
  | 0, b => inferInstanceAs (Decidable (checkGameComplete b = true))
  | n+1, b =>
    haveI : ∀ m : MOVE, Decidable (SolvableInN H W maxB n (applyMove H W b m)) :=
      fun m => instDecSolvableInN H W maxB n (applyMove H W b m)
    inferInstanceAs (Decidable (∃ m ∈ getAllAvailableMoves H W maxB b,
      SolvableInN H W maxB n (applyMove H W b m)))

/-- Spec: `n` is the minimum number of moves from `b` to a solved state. -/
def IsMinSolve (H W maxB : Nat) (b : Board) (n : Nat) : Prop :=
  SolvableInN H W maxB n b ∧ ∀ k, k < n → ¬ SolvableInN H W maxB k b

instance (H W maxB : Nat) (b : Board) (n : Nat) : Decidable (IsMinSolve H W maxB b n) :=
  inferInstanceAs (Decidable (SolvableInN H W maxB n b ∧
    ∀ k, k < n → ¬ SolvableInN H W maxB k b))

/-- The board can reach a solved state in exactly `n` steps of the
search graph the drivers actually walk (normalized successors). -/
def SGoal (H W maxB : Nat) : Nat → Board → Prop
  | 0, b => checkGameComplete b = true
  | n+1, b => ∃ s ∈ succsOf H W maxB b, SGoal H W maxB n s

/-- The board `s` is reachable from the root `b0` in exactly `n` steps
of the search graph. -/
def SReachE (H W maxB : Nat) (b0 : Board) : Nat → Board → Prop
  | 0, s => s = b0
  | n+1, s => ∃ a, SReachE H W maxB b0 n a ∧ s ∈ succsOf H W maxB a

/-- The interior cell coordinates visited by `getStateHashKey`, in scan
order. -/
def interiorIdx (H W : Nat) : List (Nat × Nat) :=
  (List.range' 1 (H - 2)).flatMap (fun i => (List.range' 1 (W - 2)).map (fun j => (i, j)))

/-- Base-`max_block_num + 2` encoding of a visited-state key (each entry
shifted by one into `0 .. max_block_num + 1`). -/
def encodeKey (maxB : Nat) : List Int → Nat
  | [] => 0
  | v :: rest => (v + 1).toNat + (maxB + 2) * encodeKey maxB rest

/-- An upper bound on the number of distinct visited-state keys of
well-formed boards. -/
def tableBound (H W maxB : Nat) : Nat := (maxB + 2) ^ ((H - 2) * (W - 2))

/-- Termination measure of the breadth-first loop: unseen keys weighted
above the frontier length. -/
def bfsMeasure (H W maxB : Nat) (t : HashTable) (q : List STATE_NODE) : Nat :=
  (tableBound H W maxB - (keysOf t).length) * (tableBound H W maxB + 1) + q.length

/-- An optimal-path skeleton through the search graph: successive
normalized successors from the root, solved at index `n`. -/
def BfsPath (H W maxB : Nat) (b0 : Board) (n : Nat) (p : Nat → Board) : Prop :=
  p 0 = b0 ∧ (∀ i, i < n → p (i+1) ∈ succsOf H W maxB (p i)) ∧
  checkGameComplete (p n) = true

/-- The loop invariant of `breadthFirstSearch`: table values are the
enqueueing depths, keys are distinct keys of well-formed boards, the
frontier is cost-sorted within two consecutive depths, every frontier
node is an unsolved reachable well-formed state whose key is recorded,
and every recorded state is either still pending at its stored depth or
fully expanded with all successors unsolved and recorded. -/
def BfsInv (H W maxB : Nat) (b0 : Board) (t : HashTable) (q : List STATE_NODE) : Prop :=
  (∀ e ∈ t, 0 ≤ e.2) ∧
  (keysOf t).Nodup ∧
  (∀ k ∈ keysOf t, ∃ s, wfBoard H W maxB s = true ∧ k = getStateHashKey H W s) ∧
  (∀ nd ∈ q, wfBoard H W maxB nd.board_state = true ∧
    checkGameComplete nd.board_state = false ∧
    SReachE H W maxB b0 nd.path_cost nd.board_state ∧
    getStateHashKey H W nd.board_state ∈ keysOf t) ∧
  (q.map STATE_NODE.path_cost).Sorted (· ≤ ·) ∧
  (∀ nd ∈ q, ∀ hd, q.head? = some hd → nd.path_cost ≤ hd.path_cost + 1) ∧
  (∀ e ∈ t, ∀ hd, q.head? = some hd → e.2 ≤ (hd.path_cost : Int) + 1) ∧
  (∀ s : Board, wfBoard H W maxB s = true →
    getStateHashKey H W s ∈ keysOf t →
    ((∃ nd ∈ q, nd.board_state = s ∧
        (nd.path_cost : Int) = getHashTableValue t (getStateHashKey H W s)) ∨
     (∀ s' ∈ succsOf H W maxB s, checkGameComplete s' = false ∧
        getStateHashKey H W s' ∈ keysOf t)))

/-- Progress predicate of the breadth-first loop: some vertex of the
fixed optimal path is pending at a cost no worse than its path index. -/
def BfsOnPath (n : Nat) (p : Nat → Board) (q : List STATE_NODE) : Prop :=
  ∃ i, i < n ∧ ∃ nd ∈ q, nd.board_state = p i ∧ nd.path_cost ≤ i

/-- Total stored depth of a visited-state table (all values are
non-negative in every reachable table). -/
def tableWeight (t : HashTable) : Nat := (t.map (fun e => e.2.toNat)).sum

/-- Termination measure of the depth-limited loop: stored depths can
only shrink, unseen keys are weighted a full depth window, and the
stack length breaks ties. -/
def dlsMeasure (H W maxB md : Nat) (t : HashTable) (st : List STATE_NODE) : Nat :=
  tableWeight t + (tableBound H W maxB - (keysOf t).length) * (md + 1) + st.length

/-- The loop invariant of `depthLimitedSearch`: table values lie in
`0 .. max_depth`, keys are distinct keys of well-formed boards, stack
nodes are unsolved reachable well-formed recorded states, and every
recorded state either has its topmost stack occurrence no deeper than
its stored depth, or is fully expanded with all successors unsolved and
stored within one extra move, or is stored at the depth limit. -/
def DlsInv (H W maxB md : Nat) (b0 : Board) (t : HashTable) (st : List STATE_NODE) : Prop :=
  (∀ e ∈ t, 0 ≤ e.2 ∧ e.2 ≤ (md : Int)) ∧
  (keysOf t).Nodup ∧
  (∀ k ∈ keysOf t, ∃ s, wfBoard H W maxB s = true ∧ k = getStateHashKey H W s) ∧
  (∀ nd ∈ st, wfBoard H W maxB nd.board_state = true ∧
    checkGameComplete nd.board_state = false ∧
    SReachE H W maxB b0 nd.path_cost nd.board_state ∧
    getStateHashKey H W nd.board_state ∈ keysOf t) ∧
  (∀ s : Board, wfBoard H W maxB s = true →
    getStateHashKey H W s ∈ keysOf t →
    ((∃ pre nd post, st = pre ++ nd :: post ∧ nd.board_state = s ∧
        (nd.path_cost : Int) ≤ getHashTableValue t (getStateHashKey H W s) ∧
        ∀ x ∈ pre, x.board_state ≠ s) ∨
     (∀ s' ∈ succsOf H W maxB s, checkGameComplete s' = false ∧
        getStateHashKey H W s' ∈ keysOf t ∧
        getHashTableValue t (getStateHashKey H W s') ≤
          getHashTableValue t (getStateHashKey H W s) + 1) ∨
     ((md : Int) ≤ getHashTableValue t (getStateHashKey H W s))))

/-! ### C1: the move generator computes exactly the spec's legal moves -/

theorem mem_cellIndices {H W : Nat} {p : Nat × Nat} :
    p ∈ cellIndices H W ↔ p.1 < H ∧ p.2 < W := by
  cases p with
  | mk i j => simp [cellIndices, List.mem_flatMap]

theorem foldl_scanCell (H W : Nat) (b : Board) (piece : Int) (l : List (Nat × Nat)) :
    ∀ fl : MoveFlags,
      l.foldl (scanCell H W b piece) fl =
        ⟨fl.up_legal    && l.all (fun p => !(cell b p.1 p.2 == piece) || !upBlocked b piece p.1 p.2),
         fl.down_legal  && l.all (fun p => !(cell b p.1 p.2 == piece) || !downBlocked H b piece p.1 p.2),
         fl.left_legal  && l.all (fun p => !(cell b p.1 p.2 == piece) || !leftBlocked b piece p.1 p.2),
         fl.right_legal && l.all (fun p => !(cell b p.1 p.2 == piece) || !rightBlocked W b piece p.1 p.2)⟩ := by
  induction l with
  | nil => intro fl; simp
  | cons p l ih =>
    intro fl
    rw [List.foldl_cons, ih]
    cases fl with
    | mk u d lft r =>
      simp only [scanCell, List.all_cons]
      by_cases h : cell b p.1 p.2 == piece
      · simp [h, Bool.and_assoc]
      · simp only [if_neg h]
        simp [Bool.eq_false_iff.mpr h]

theorem upBlocked_false_iff (b : Board) (piece : Int) (i j : Nat) :
    upBlocked b piece i j = false ↔ (i ≠ 0 ∧ specPassable b piece (i-1) j) := by
  simp only [upBlocked, specPassable, Bool.or_eq_false_iff, Bool.and_eq_false_iff,
    beq_eq_false_iff_ne, bne_eq_false_iff_eq, ne_eq]
  by_cases hp : piece = 2 <;> simp [hp] <;> tauto

theorem downBlocked_false_iff (H : Nat) (b : Board) (piece : Int) (i j : Nat) (hi : i < H) :
    downBlocked H b piece i j = false ↔ (i + 1 < H ∧ specPassable b piece (i+1) j) := by
  have harith : (i = H - 1) ↔ ¬ (i + 1 < H) := by omega
  simp only [downBlocked, specPassable, Bool.or_eq_false_iff, Bool.and_eq_false_iff,
    beq_eq_false_iff_ne, bne_eq_false_iff_eq, ne_eq, harith, not_not]
  by_cases hp : piece = 2 <;> simp [hp] <;> tauto

theorem leftBlocked_false_iff (b : Board) (piece : Int) (i j : Nat) :
    leftBlocked b piece i j = false ↔ (j ≠ 0 ∧ specPassable b piece i (j-1)) := by
  simp only [leftBlocked, specPassable, Bool.or_eq_false_iff, Bool.and_eq_false_iff,
    beq_eq_false_iff_ne, bne_eq_false_iff_eq, ne_eq]
  by_cases hp : piece = 2 <;> simp [hp] <;> tauto

theorem rightBlocked_false_iff (W : Nat) (b : Board) (piece : Int) (i j : Nat) (hj : j < W) :
    rightBlocked W b piece i j = false ↔ (j + 1 < W ∧ specPassable b piece i (j+1)) := by
  have harith : (j = W - 1) ↔ ¬ (j + 1 < W) := by omega
  simp only [rightBlocked, specPassable, Bool.or_eq_false_iff, Bool.and_eq_false_iff,
    beq_eq_false_iff_ne, bne_eq_false_iff_eq, ne_eq, harith, not_not]
  by_cases hp : piece = 2 <;> simp [hp] <;> tauto

theorem legalFlag_iff (H W : Nat) (b : Board) (piece : Int) (d : Move_Direction) :
    legalFlag H W b piece d = true ↔ specLegal H W b piece d := by
  have hs := foldl_scanCell H W b piece (cellIndices H W) ⟨true, true, true, true⟩
  cases d with
  | UP =>
    simp only [legalFlag, movesScan, hs, Bool.true_and, List.all_eq_true, specLegal, specFree]
    constructor
    · intro h i hi j hj hc
      have := h (i, j) (mem_cellIndices.mpr ⟨hi, hj⟩)
      simp only [beq_iff_eq.mpr hc] at this
      simp only [Bool.not_true, Bool.false_or, Bool.not_eq_true'] at this
      exact (upBlocked_false_iff b piece i j).mp this
    · intro h p hp
      by_cases hc : cell b p.1 p.2 = piece
      · have := h p.1 (mem_cellIndices.mp hp).1 p.2 (mem_cellIndices.mp hp).2 hc
        simp [(upBlocked_false_iff b piece p.1 p.2).mpr this]
      · simp [hc]
  | DOWN =>
    simp only [legalFlag, movesScan, hs, Bool.true_and, List.all_eq_true, specLegal, specFree]
    constructor
    · intro h i hi j hj hc
      have := h (i, j) (mem_cellIndices.mpr ⟨hi, hj⟩)
      simp only [beq_iff_eq.mpr hc] at this
      simp only [Bool.not_true, Bool.false_or, Bool.not_eq_true'] at this
      exact (downBlocked_false_iff H b piece i j hi).mp this
    · intro h p hp
      by_cases hc : cell b p.1 p.2 = piece
      · have := h p.1 (mem_cellIndices.mp hp).1 p.2 (mem_cellIndices.mp hp).2 hc
        simp [(downBlocked_false_iff H b piece p.1 p.2 (mem_cellIndices.mp hp).1).mpr this]
      · simp [hc]
  | LEFT =>
    simp only [legalFlag, movesScan, hs, Bool.true_and, List.all_eq_true, specLegal, specFree]
    constructor
    · intro h i hi j hj hc
      have := h (i, j) (mem_cellIndices.mpr ⟨hi, hj⟩)
      simp only [beq_iff_eq.mpr hc] at this
      simp only [Bool.not_true, Bool.false_or, Bool.not_eq_true'] at this
      exact (leftBlocked_false_iff b piece i j).mp this
    · intro h p hp
      by_cases hc : cell b p.1 p.2 = piece
      · have := h p.1 (mem_cellIndices.mp hp).1 p.2 (mem_cellIndices.mp hp).2 hc
        simp [(leftBlocked_false_iff b piece p.1 p.2).mpr this]
      · simp [hc]
  | RIGHT =>
    simp only [legalFlag, movesScan, hs, Bool.true_and, List.all_eq_true, specLegal, specFree]
    constructor
    · intro h i hi j hj hc
      have := h (i, j) (mem_cellIndices.mpr ⟨hi, hj⟩)
      simp only [beq_iff_eq.mpr hc] at this
      simp only [Bool.not_true, Bool.false_or, Bool.not_eq_true'] at this
      exact (rightBlocked_false_iff W b piece i j hj).mp this
    · intro h p hp
      by_cases hc : cell b p.1 p.2 = piece
      · have := h p.1 (mem_cellIndices.mp hp).1 p.2 (mem_cellIndices.mp hp).2 hc
        simp [(rightBlocked_false_iff W b piece p.1 p.2 (mem_cellIndices.mp hp).2).mpr this]
      · simp [hc]

theorem getAvailableMoves_eq_spec (H W : Nat) (b : Board) (piece : Int) :
    getAvailableMoves H W b piece = specMovesFor H W b piece := by
  have hu := legalFlag_iff H W b piece .UP
  have hd := legalFlag_iff H W b piece .DOWN
  have hl := legalFlag_iff H W b piece .LEFT
  have hr := legalFlag_iff H W b piece .RIGHT
  simp only [legalFlag] at hu hd hl hr
  unfold getAvailableMoves specMovesFor
  simp only [hu, hd, hl, hr]

theorem wfBoard_present {H W maxB : Nat} {b : Board} (h : wfBoard H W maxB b = true) :
    (List.range' 2 (maxB - 1)).all
      (fun L => (rowMajor b).any (fun v => v == ((L : Nat) : Int))) = true := by
  unfold wfBoard at h
  simp only [Bool.and_eq_true] at h
  exact h.2

/-- C1: a direction is a legal move for a block exactly when every cell
holding the block's label has an in-grid neighbor in that direction whose
label is `0` or the block's own label (`-1` also passing for the primary
block `2`), and `getAllAvailableMoves` returns exactly the union of the
per-block legal moves over the movable labels present (`2 ≤ L ≤
max_block_num`), in ascending label order with direction order up, down,
left, right within each label. -/
theorem c1_move_enumeration (H W maxB : Nat) (b : Board) (h : wfBoard H W maxB b = true) :
    (∀ piece d, legalFlag H W b piece d = true ↔ specLegal H W b piece d) ∧
    getAllAvailableMoves H W maxB b = specAllMoves H W maxB b := by
  refine ⟨fun piece d => legalFlag_iff H W b piece d, ?_⟩
  have hpres := wfBoard_present h
  unfold getAllAvailableMoves specAllMoves
  rw [List.filter_eq_self.mpr (fun a ha => List.all_eq_true.mp hpres a ha)]
  simp only [getAvailableMoves_eq_spec]

/-- C1 witness: the enumeration theorem applied to the concrete
well-formed board `bDemo`. -/
theorem c1_move_enumeration_witness :
    wfBoard 4 5 4 bDemo = true ∧
    ((∀ piece d, legalFlag 4 5 bDemo piece d = true ↔ specLegal 4 5 bDemo piece d) ∧
      getAllAvailableMoves 4 5 4 bDemo = specAllMoves 4 5 4 bDemo) :=
  ⟨by decide, c1_move_enumeration 4 5 4 bDemo (by decide)⟩

/-! ### Normalization: basic facts about the remap-plan scan -/

theorem scanSeen_eq_seenFold (b : Board) : scanSeen b = seenFold [] (rowMajor b) := rfl

theorem seenFold_nil (acc : List Int) : seenFold acc [] = acc := rfl

theorem seenFold_cons (acc : List Int) (v : Int) (xs : List Int) :
    seenFold acc (v :: xs) = seenFold (if 2 < v ∧ v ∉ acc then acc ++ [v] else acc) xs := rfl

theorem mem_seenFold (xs : List Int) :
    ∀ acc w, w ∈ seenFold acc xs ↔ w ∈ acc ∨ (2 < w ∧ w ∈ xs) := by
  induction xs with
  | nil => intro acc w; simp [seenFold_nil]
  | cons v xs ih =>
    intro acc w
    rw [seenFold_cons]
    by_cases h : 2 < v ∧ v ∉ acc
    · rw [if_pos h, ih]
      simp only [List.mem_append, List.mem_cons, List.not_mem_nil, or_false]
      rcases h with ⟨h1, _⟩
      constructor
      · rintro ((hw | hw) | ⟨h3, h4⟩)
        · exact Or.inl hw
        · subst hw; exact Or.inr ⟨h1, Or.inl rfl⟩
        · exact Or.inr ⟨h3, Or.inr h4⟩
      · rintro (hw | ⟨h3, h4 | h4⟩)
        · exact Or.inl (Or.inl hw)
        · subst h4; exact Or.inl (Or.inr rfl)
        · exact Or.inr ⟨h3, h4⟩
    · rw [if_neg h, ih]
      have h' := not_and_or.mp h
      simp only [List.mem_cons]
      constructor
      · rintro (hw | ⟨h3, h4⟩)
        · exact Or.inl hw
        · exact Or.inr ⟨h3, Or.inr h4⟩
      · rintro (hw | ⟨h3, h4 | h4⟩)
        · exact Or.inl hw
        · subst h4
          rcases h' with h' | h'
          · exact absurd h3 h'
          · exact Or.inl (not_not.mp h')
        · exact Or.inr ⟨h3, h4⟩

theorem nodup_seenFold (xs : List Int) :
    ∀ acc, acc.Nodup → (seenFold acc xs).Nodup := by
  induction xs with
  | nil => intro acc h; exact h
  | cons v xs ih =>
    intro acc hacc
    rw [seenFold_cons]
    by_cases h : 2 < v ∧ v ∉ acc
    · rw [if_pos h]
      refine ih _ ?_
      simp [List.nodup_append, hacc, h.2]
    · rw [if_neg h]; exact ih acc hacc

theorem seenFold_gt_two (xs : List Int) :
    ∀ acc, (∀ w ∈ acc, 2 < w) → ∀ w ∈ seenFold acc xs, 2 < w := by
  intro acc hacc w hw
  rcases (mem_seenFold xs acc w).mp hw with h | h
  · exact hacc w h
  · exact h.1

theorem seenFold_map (f : Int → Int) (S : List Int)
    (hmono : ∀ v ∈ S, (2 < f v ↔ 2 < v))
    (hinj : ∀ v ∈ S, ∀ w ∈ S, f v = f w → v = w) (xs : List Int) :
    ∀ acc, (∀ v ∈ xs, v ∈ S) → (∀ v ∈ acc, v ∈ S) →
      seenFold (acc.map f) (xs.map f) = (seenFold acc xs).map f := by
  induction xs with
  | nil => intro acc _ _; rfl
  | cons v xs ih =>
    intro acc hxs hacc
    have hvS : v ∈ S := hxs v (List.mem_cons_self v xs)
    rw [List.map_cons, seenFold_cons, seenFold_cons]
    have hcond : (2 < f v ∧ f v ∉ acc.map f) ↔ (2 < v ∧ v ∉ acc) := by
      constructor
      · rintro ⟨h1, h2⟩
        exact ⟨(hmono v hvS).mp h1, fun hv => h2 (List.mem_map_of_mem f hv)⟩
      · rintro ⟨h1, h2⟩
        refine ⟨(hmono v hvS).mpr h1, fun hm => ?_⟩
        rcases List.mem_map.mp hm with ⟨w, hw, hfw⟩
        exact h2 (by rwa [hinj w (hacc w hw) v hvS hfw] at hw)
    by_cases h : 2 < v ∧ v ∉ acc
    · rw [if_pos (hcond.mpr h), if_pos h]
      have hmap : List.map f acc ++ [f v] = List.map f (acc ++ [v]) := by simp
      rw [hmap]
      exact ih (acc ++ [v])
        (fun u hu => hxs u (List.mem_cons_of_mem v hu))
        (fun u hu => by
          rcases List.mem_append.mp hu with hu | hu
          · exact hacc u hu
          · rw [List.mem_singleton.mp hu]; exact hvS)
    · rw [if_neg (fun hc => h (hcond.mp hc)), if_neg h]
      exact ih acc (fun u hu => hxs u (List.mem_cons_of_mem v hu)) hacc

theorem scanSeen_mem {b : Board} {w : Int} :
    w ∈ scanSeen b ↔ 2 < w ∧ w ∈ rowMajor b := by
  rw [scanSeen_eq_seenFold, mem_seenFold]
  constructor
  · rintro (hw | hw)
    · exact absurd hw (List.not_mem_nil w)
    · exact hw
  · exact Or.inr

theorem scanSeen_nodup (b : Board) : (scanSeen b).Nodup :=
  nodup_seenFold (rowMajor b) [] List.nodup_nil

theorem rowMajor_mapBoard (f : Int → Int) (b : Board) :
    rowMajor (mapBoard f b) = (rowMajor b).map f :=
  (List.map_flatten f b).symm

theorem indexOf_map_injective {f : Int → Int} (hf : Function.Injective f)
    (l : List Int) (v : Int) : (l.map f).indexOf (f v) = l.indexOf v := by
  induction l with
  | nil => rfl
  | cons x l ih =>
    by_cases h : v = x
    · subst h; simp [List.indexOf_cons]
    · have h1 : (f x == f v) = false := beq_eq_false_iff_ne.mpr (fun he => h (hf he).symm)
      have h2 : (x == v) = false := beq_eq_false_iff_ne.mpr (fun he => h he.symm)
      simp [List.indexOf_cons, h1, h2, ih]

theorem indexOf_map_inj_on {f : Int → Int} :
    ∀ {l : List Int}, (∀ x ∈ l, ∀ y ∈ l, f x = f y → x = y) →
      ∀ v ∈ l, (l.map f).indexOf (f v) = l.indexOf v := by
  intro l
  induction l with
  | nil => intro _ v hv; exact absurd hv (List.not_mem_nil v)
  | cons x l ih =>
    intro hinj v hv
    by_cases h : v = x
    · subst h; simp [List.indexOf_cons]
    · have hvl : v ∈ l := by
        rcases List.mem_cons.mp hv with h' | h'
        · exact absurd h' h
        · exact h'
      have hne : ¬ f x = f v :=
        fun he => h (hinj x (List.mem_cons_self x l) v hv he).symm
      have h1 : (f x == f v) = false := beq_eq_false_iff_ne.mpr hne
      have h2 : (x == v) = false := beq_eq_false_iff_ne.mpr (fun he => h he.symm)
      have ihr := ih (fun a ha b hb => hinj a (List.mem_cons_of_mem x ha) b (List.mem_cons_of_mem x hb)) v hvl
      simp [List.indexOf_cons, h1, h2, ihr]

/-! ### Normalization: structural characterization -/

theorem mapBoard_comp (f g : Int → Int) (b : Board) :
    mapBoard f (mapBoard g b) = mapBoard (fun v => f (g v)) b := by
  unfold mapBoard
  simp [List.map_map, Function.comp]

theorem mapBoard_congr_mem (f g : Int → Int) (b : Board)
    (h : ∀ v ∈ rowMajor b, f v = g v) : mapBoard f b = mapBoard g b := by
  unfold mapBoard
  apply List.map_congr_left
  intro row hrow
  apply List.map_congr_left
  intro v hv
  exact h v (List.mem_flatten.mpr ⟨row, hrow, hv⟩)

theorem normalizeState_eq_mapBoard (b : Board) :
    normalizeState b = mapBoard (fun v => if 2 < v then remapOf b v else v) b := rfl

theorem remapOf_gt_two (b : Board) (v : Int) : 2 < remapOf b v := by
  unfold remapOf
  have : (0 : Int) ≤ ((scanSeen b).indexOf v : Nat) := Int.natCast_nonneg _
  omega

/-- The remap application function of `normalizeState` is injective on
the labels that occur on the board. -/
theorem remapFun_inj_on (b : Board) :
    ∀ u ∈ rowMajor b, ∀ w ∈ rowMajor b,
      (if 2 < u then remapOf b u else u) = (if 2 < w then remapOf b w else w) → u = w := by
  intro u hu w hw h
  by_cases h2u : 2 < u <;> by_cases h2w : 2 < w
  · rw [if_pos h2u, if_pos h2w] at h
    unfold remapOf at h
    have hus : u ∈ scanSeen b := scanSeen_mem.mpr ⟨h2u, hu⟩
    have hws : w ∈ scanSeen b := scanSeen_mem.mpr ⟨h2w, hw⟩
    have hidx : (scanSeen b).indexOf u = (scanSeen b).indexOf w := by omega
    exact (List.indexOf_inj hus hws).mp hidx
  · rw [if_pos h2u, if_neg h2w] at h
    have := remapOf_gt_two b u
    omega
  · rw [if_neg h2u, if_pos h2w] at h
    have := remapOf_gt_two b w
    omega
  · rwa [if_neg h2u, if_neg h2w] at h

theorem remapFun_mono (b : Board) :
    ∀ v ∈ rowMajor b, (2 < (if 2 < v then remapOf b v else v) ↔ 2 < v) := by
  intro v _
  by_cases h : 2 < v
  · rw [if_pos h]
    exact ⟨fun _ => h, fun _ => remapOf_gt_two b v⟩
  · rw [if_neg h]

/-- The remap-plan scan of the normalized board lists the images of the
scan of the original board, in the same order. -/
theorem scanSeen_normalizeState (b : Board) :
    scanSeen (normalizeState b) = (scanSeen b).map (fun v => if 2 < v then remapOf b v else v) := by
  rw [normalizeState_eq_mapBoard, scanSeen_eq_seenFold, rowMajor_mapBoard,
    scanSeen_eq_seenFold]
  have h := seenFold_map (fun v => if 2 < v then remapOf b v else v) (rowMajor b)
    (remapFun_mono b) (remapFun_inj_on b) (rowMajor b) []
    (fun v hv => hv) (fun v hv => absurd hv (List.not_mem_nil v))
  simpa using h

theorem normalizeState_idem (b : Board) :
    normalizeState (normalizeState b) = normalizeState b := by
  have step :
      mapBoard (fun w => if 2 < w then remapOf (normalizeState b) w else w)
        (mapBoard (fun v => if 2 < v then remapOf b v else v) b) =
      mapBoard (fun v => if 2 < v then remapOf b v else v) b := by
    rw [mapBoard_comp]
    apply mapBoard_congr_mem
    intro v hv
    by_cases h2 : 2 < v
    · simp only [h2, if_true]
      have hvS : v ∈ scanSeen b := scanSeen_mem.mpr ⟨h2, hv⟩
      have hgt : 2 < remapOf b v := remapOf_gt_two b v
      rw [if_pos hgt]
      have hinj : ∀ x ∈ scanSeen b, ∀ y ∈ scanSeen b,
          (if 2 < x then remapOf b x else x) = (if 2 < y then remapOf b y else y) → x = y := by
        intro x hx y hy
        exact remapFun_inj_on b x (scanSeen_mem.mp hx).2 y (scanSeen_mem.mp hy).2
      have hio' : ((scanSeen b).map (fun v => if 2 < v then remapOf b v else v)).indexOf
          (remapOf b v) = (scanSeen b).indexOf v := by
        have := indexOf_map_inj_on hinj v hvS
        simpa [h2] using this
      rw [remapOf]
      rw [scanSeen_normalizeState b, hio']
      rfl
    · simp only [h2, if_false]
  calc normalizeState (normalizeState b)
      = mapBoard (fun w => if 2 < w then remapOf (normalizeState b) w else w)
          (normalizeState b) := normalizeState_eq_mapBoard _
    _ = mapBoard (fun w => if 2 < w then remapOf (normalizeState b) w else w)
          (mapBoard (fun v => if 2 < v then remapOf b v else v) b) :=
        congrArg _ (normalizeState_eq_mapBoard b)
    _ = mapBoard (fun v => if 2 < v then remapOf b v else v) b := step
    _ = normalizeState b := (normalizeState_eq_mapBoard b).symm

/-- Pointwise description of `normalizeState`: labels `> 2` go through
the remap table, everything else is untouched (out-of-grid reads default
to `0` on both sides). -/
theorem cell_normalizeState (b : Board) (i j : Nat) :
    cell (normalizeState b) i j =
      if 2 < cell b i j then remapOf b (cell b i j) else cell b i j := by
  by_cases hi : i < b.length
  · by_cases hj : j < (b.getD i []).length
    · rw [normalizeState_eq_mapBoard]
      unfold cell mapBoard
      have hi' : i < (b.map (fun row => row.map (fun v => if 2 < v then remapOf b v else v))).length := by
        simpa using hi
      rw [List.getD_eq_getElem _ [] hi', List.getElem_map]
      have hj0 : j < b[i].length := by
        rwa [List.getD_eq_getElem _ [] hi] at hj
      have hj' : j < (b[i].map (fun v => if 2 < v then remapOf b v else v)).length := by
        simpa using hj0
      rw [List.getD_eq_getElem _ 0 hj', List.getElem_map,
        List.getD_eq_getElem _ [] hi, List.getD_eq_getElem _ 0 hj0]
    · have hj0 : b[i].length ≤ j := by
        rw [List.getD_eq_getElem _ [] hi] at hj
        omega
      have h0 : cell b i j = 0 := by
        unfold cell
        rw [List.getD_eq_getElem _ [] hi]
        exact List.getD_eq_default _ _ hj0
      have h0' : cell (normalizeState b) i j = 0 := by
        unfold cell normalizeState
        have hi' : i < (b.map (fun row => row.map (fun v => if 2 < v then remapOf b v else v))).length := by
          simpa using hi
        rw [List.getD_eq_getElem _ [] hi', List.getElem_map]
        apply List.getD_eq_default
        simpa using hj0
      rw [h0, h0']
      norm_num
  · have hle : b.length ≤ i := Nat.le_of_not_lt hi
    have h0 : cell b i j = 0 := by
      unfold cell
      rw [List.getD_eq_default _ _ hle]
      simp
    have h0' : cell (normalizeState b) i j = 0 := by
      unfold cell normalizeState
      rw [List.getD_eq_default
        (b.map (fun row => row.map (fun v => if 2 < v then remapOf b v else v))) []
        (by simpa using hle)]
      simp
    rw [h0, h0']
    norm_num

/-- Relabeling the `> 2` labels through an injective map that fixes the
labels `≤ 2` does not change the normalized board. -/
theorem normalizeState_mapBoard (σ : Int → Int) (hinj : Function.Injective σ)
    (hfix : ∀ v, v ≤ 2 → σ v = v) (hup : ∀ v, 2 < v → 2 < σ v) (b : Board) :
    normalizeState (mapBoard σ b) = normalizeState b := by
  have hmono : ∀ v, (2 < σ v ↔ 2 < v) := by
    intro v
    constructor
    · intro h
      by_contra hv
      rw [hfix v (by omega)] at h
      exact hv h
    · exact hup v
  have hscan : scanSeen (mapBoard σ b) = (scanSeen b).map σ := by
    rw [scanSeen_eq_seenFold, rowMajor_mapBoard, scanSeen_eq_seenFold]
    have h := seenFold_map σ (rowMajor b) (fun v _ => hmono v)
      (fun v _ w _ h => hinj h) (rowMajor b) []
      (fun v hv => hv) (fun v hv => absurd hv (List.not_mem_nil v))
    simpa using h
  rw [normalizeState_eq_mapBoard (mapBoard σ b), normalizeState_eq_mapBoard b, mapBoard_comp]
  apply mapBoard_congr_mem
  intro v _
  by_cases h2 : 2 < v
  · rw [if_pos (hup v h2), if_pos h2]
    unfold remapOf
    rw [hscan, indexOf_map_injective hinj]
  · rw [hfix v (by omega), if_neg h2, if_neg h2]

/-- The remap table sends the k-th first-seen label `> 2` to `3 + k`:
the new labels are consecutive starting at 3. -/
theorem map_remapOf_scanSeen (b : Board) :
    (scanSeen b).map (remapOf b) =
      (List.range (scanSeen b).length).map (fun n : Nat => 3 + (n : Int)) := by
  apply List.ext_getElem
  · simp
  · intro k h1 h2
    simp only [List.getElem_map, List.getElem_range]
    unfold remapOf
    rw [List.indexOf_getElem (scanSeen_nodup b)]

/-- C4: `normalizeState` keeps every cell labeled 2 or below unchanged,
sends a cell whose label is the k-th distinct label `> 2` in the
row-major scan to `3 + k` (consecutive labels starting at 3, in
first-encounter order), and two boards identical up to a permutation of
the labels `≥ 3` normalize to equal boards and produce equal
visited-state keys. -/
theorem c4_normalize_relabeling (H W maxB : Nat) (b : Board) (σ : Int → Int)
    (hwf : wfBoard H W maxB b = true)
    (hinj : Function.Injective σ) (hfix : ∀ v, v ≤ 2 → σ v = v)
    (hup : ∀ v, 2 < v → 2 < σ v) :
    (∀ i j : Nat, cell b i j ≤ 2 → cell (normalizeState b) i j = cell b i j) ∧
    (∀ i j : Nat, 2 < cell b i j →
      cell (normalizeState b) i j = 3 + ((scanSeen b).indexOf (cell b i j) : Nat)) ∧
    (scanSeen b).map (remapOf b) =
      (List.range (scanSeen b).length).map (fun n : Nat => 3 + (n : Int)) ∧
    normalizeState (mapBoard σ b) = normalizeState b ∧
    getStateHashKey H W (normalizeState (mapBoard σ b)) =
      getStateHashKey H W (normalizeState b) := by
  refine ⟨?_, ?_, map_remapOf_scanSeen b, normalizeState_mapBoard σ hinj hfix hup b, ?_⟩
  · intro i j h
    rw [cell_normalizeState, if_neg (by omega)]
  · intro i j h
    rw [cell_normalizeState, if_pos h]
    rfl
  · rw [normalizeState_mapBoard σ hinj hfix hup b]

theorem swap34_injective : Function.Injective swap34 := by
  intro a b h
  unfold swap34 at h
  split_ifs at h <;> omega

theorem swap34_fixes_low : ∀ v : Int, v ≤ 2 → swap34 v = v := by
  intro v hv
  unfold swap34
  split_ifs <;> omega

theorem swap34_up : ∀ v : Int, 2 < v → 2 < swap34 v := by
  intro v hv
  unfold swap34
  split_ifs <;> omega

/-- C4 witness: the relabeling theorem applied to `bDemo` and the label
swap `3 <-> 4` (whose image of `bDemo` is the concrete `bDemoSwap`). -/
theorem c4_normalize_relabeling_witness :
    (wfBoard 4 5 4 bDemo = true ∧ mapBoard swap34 bDemo = bDemoSwap) ∧
    ((∀ i j : Nat, cell bDemo i j ≤ 2 → cell (normalizeState bDemo) i j = cell bDemo i j) ∧
     (∀ i j : Nat, 2 < cell bDemo i j →
       cell (normalizeState bDemo) i j = 3 + ((scanSeen bDemo).indexOf (cell bDemo i j) : Nat)) ∧
     (scanSeen bDemo).map (remapOf bDemo) =
       (List.range (scanSeen bDemo).length).map (fun n : Nat => 3 + (n : Int)) ∧
     normalizeState (mapBoard swap34 bDemo) = normalizeState bDemo ∧
     getStateHashKey 4 5 (normalizeState (mapBoard swap34 bDemo)) =
       getStateHashKey 4 5 (normalizeState bDemo)) :=
  ⟨⟨by decide, by decide⟩,
   c4_normalize_relabeling 4 5 4 bDemo swap34 (by decide)
     swap34_injective swap34_fixes_low swap34_up⟩

/-- C5: `normalizeState` is idempotent, and it never changes a cell
holding one of the labels `0`, `1`, `-1`, `2`. -/
theorem c5_normalize_idempotent (b : Board) :
    normalizeState (normalizeState b) = normalizeState b ∧
    (∀ i j : Nat, cell b i j = 0 ∨ cell b i j = 1 ∨ cell b i j = -1 ∨ cell b i j = 2 →
      cell (normalizeState b) i j = cell b i j) := by
  refine ⟨normalizeState_idem b, fun i j h => ?_⟩
  rw [cell_normalizeState, if_neg (by rcases h with h | h | h | h <;> omega)]

/-- C5 witness: idempotence and label preservation at the concrete board
`bDemo` and its primary-block cell. -/
theorem c5_normalize_idempotent_witness :
    normalizeState (normalizeState bDemo) = normalizeState bDemo ∧
    (cell bDemo 1 1 = 0 ∨ cell bDemo 1 1 = 1 ∨ cell bDemo 1 1 = -1 ∨ cell bDemo 1 1 = 2) ∧
    cell (normalizeState bDemo) 1 1 = cell bDemo 1 1 :=
  ⟨(c5_normalize_idempotent bDemo).1, by decide,
   (c5_normalize_idempotent bDemo).2 1 1 (by decide)⟩

/-! ### Board surgery: cells of `setCell`, `mapBoard`, `clearBlock` -/

theorem getD_set {α : Type} (l : List α) (i : Nat) (v : α) (j : Nat) (d : α) :
    (l.set i v).getD j d = if i = j ∧ i < l.length then v else l.getD j d := by
  rw [List.getD_eq_getElem?_getD, List.getD_eq_getElem?_getD, List.getElem?_set]
  split_ifs <;> simp_all [List.getElem?_eq_none] <;> omega

theorem wfBoard_dims {H W maxB : Nat} {b : Board} (h : wfBoard H W maxB b = true) :
    b.length = H ∧ ∀ row ∈ b, row.length = W := by
  unfold wfBoard at h
  simp only [Bool.and_eq_true, beq_iff_eq, List.all_eq_true] at h
  exact ⟨h.1.1.1.1.1.1.1, fun row hr => h.1.1.1.1.1.1.2 row hr⟩

theorem wfBoard_row_length {H W maxB : Nat} {b : Board} (h : wfBoard H W maxB b = true)
    {i : Nat} (hi : i < H) : (b.getD i []).length = W := by
  obtain ⟨hH, hrows⟩ := wfBoard_dims h
  have hi' : i < b.length := by omega
  rw [List.getD_eq_getElem _ [] hi']
  exact hrows b[i] (List.getElem_mem hi')

theorem cell_setCell (a : Board) (i j : Nat) (v : Int) (i' j' : Nat) :
    cell (setCell a i j v) i' j' =
      if i = i' ∧ j = j' ∧ i < a.length ∧ j < (a.getD i []).length then v
      else cell a i' j' := by
  unfold cell setCell
  rw [getD_set]
  by_cases hi : i = i' ∧ i < a.length
  · rw [if_pos hi]
    obtain ⟨hii, hlen⟩ := hi
    subst hii
    rw [getD_set]
    by_cases hj : j = j' ∧ j < (a.getD i []).length
    · rw [if_pos hj, if_pos ⟨rfl, hj.1, hlen, hj.2⟩]
    · rw [if_neg hj, if_neg (by tauto)]
  · rw [if_neg hi, if_neg (by tauto)]

theorem length_setCell (a : Board) (i j : Nat) (v : Int) :
    (setCell a i j v).length = a.length := by
  simp [setCell]

theorem row_length_setCell (a : Board) (i j : Nat) (v : Int) (i' : Nat) :
    ((setCell a i j v).getD i' []).length = (a.getD i' []).length := by
  unfold setCell
  rw [getD_set]
  by_cases h : i = i' ∧ i < a.length
  · rw [if_pos h, List.length_set, h.1]
  · rw [if_neg h]

theorem cell_mapBoard (f : Int → Int) (b : Board) (i j : Nat)
    (hi : i < b.length) (hj : j < (b.getD i []).length) :
    cell (mapBoard f b) i j = f (cell b i j) := by
  unfold cell mapBoard
  have hi' : i < (b.map (fun row => row.map f)).length := by simpa using hi
  rw [List.getD_eq_getElem _ [] hi', List.getElem_map]
  have hj0 : j < b[i].length := by rwa [List.getD_eq_getElem _ [] hi] at hj
  have hj' : j < (b[i].map f).length := by simpa using hj0
  rw [List.getD_eq_getElem _ 0 hj', List.getElem_map, List.getD_eq_getElem _ [] hi,
    List.getD_eq_getElem _ 0 hj0]

theorem length_mapBoard (f : Int → Int) (b : Board) :
    (mapBoard f b).length = b.length := by
  simp [mapBoard]

theorem row_length_mapBoard (f : Int → Int) (b : Board) (i : Nat) :
    ((mapBoard f b).getD i []).length = (b.getD i []).length := by
  by_cases hi : i < b.length
  · have hi' : i < (mapBoard f b).length := by rwa [length_mapBoard]
    unfold mapBoard at hi' ⊢
    rw [List.getD_eq_getElem _ [] hi', List.getElem_map, List.getD_eq_getElem _ [] hi,
      List.length_map]
  · have h1 : b.length ≤ i := Nat.le_of_not_lt hi
    rw [List.getD_eq_default _ _ h1,
      List.getD_eq_default _ _ (by rwa [length_mapBoard])]

theorem clearBlock_eq_mapBoard (b : Board) (L : Int) :
    clearBlock b L = mapBoard (fun v => if v == L then 0 else v) b := rfl

theorem cloneGameState_eq (b : Board) : cloneGameState b = b := by
  unfold cloneGameState
  simp

/-! ### C6: pointwise description of `applyMove` -/

theorem foldHits_setCell (b : Board) (L : Int) (d : Move_Direction) (a0 : Board)
    (i j : Nat) (v : Int) (q1 q2 : Nat) (p : Nat × Nat) :
    foldHits b L d (setCell a0 i j v) q1 q2 p ↔ foldHits b L d a0 q1 q2 p := by
  unfold foldHits
  rw [length_setCell, row_length_setCell]

theorem cell_applyMove_fold (b : Board) (L : Int) (d : Move_Direction) :
    ∀ (l : List (Nat × Nat)) (a0 : Board) (q1 q2 : Nat),
      cell (l.foldl (fun acc p =>
          if cell b p.1 p.2 == L then
            setCell acc (shiftTarget d p).1 (shiftTarget d p).2 L
          else acc) a0) q1 q2 =
        if ∃ p ∈ l, foldHits b L d a0 q1 q2 p then L else cell a0 q1 q2 := by
  intro l
  induction l with
  | nil =>
    intro a0 q1 q2
    rw [List.foldl_nil, if_neg (by rintro ⟨p, hp, _⟩; exact List.not_mem_nil p hp)]
  | cons p0 l ih =>
    intro a0 q1 q2
    rw [List.foldl_cons]
    by_cases hsrc : (cell b p0.1 p0.2 == L) = true
    · rw [if_pos hsrc, ih]
      have hsrc' : cell b p0.1 p0.2 = L := beq_iff_eq.mp hsrc
      have hdims : ∀ p, foldHits b L d
          (setCell a0 (shiftTarget d p0).1 (shiftTarget d p0).2 L) q1 q2 p ↔
          foldHits b L d a0 q1 q2 p :=
        fun p => foldHits_setCell b L d a0 _ _ L q1 q2 p
      by_cases hex : ∃ p ∈ l, foldHits b L d a0 q1 q2 p
      · rw [if_pos (by
            obtain ⟨p, hp, hhit⟩ := hex
            exact ⟨p, hp, (hdims p).mpr hhit⟩)]
        rw [if_pos (by
            obtain ⟨p, hp, hhit⟩ := hex
            exact ⟨p, List.mem_cons_of_mem p0 hp, hhit⟩)]
      · rw [if_neg (by
            rintro ⟨p, hp, hhit⟩
            exact hex ⟨p, hp, (hdims p).mp hhit⟩)]
        rw [cell_setCell]
        by_cases hc : (shiftTarget d p0).1 = q1 ∧ (shiftTarget d p0).2 = q2 ∧
            (shiftTarget d p0).1 < a0.length ∧
            (shiftTarget d p0).2 < (a0.getD (shiftTarget d p0).1 []).length
        · rw [if_pos hc, if_pos ⟨p0, List.mem_cons_self p0 l, hsrc', hc⟩]
        · rw [if_neg hc, if_neg (by
            rintro ⟨p, hp, hhit⟩
            rcases List.mem_cons.mp hp with hp0 | hpl
            · subst hp0
              exact hc ⟨hhit.2.1, hhit.2.2.1, hhit.2.2.2.1, hhit.2.2.2.2⟩
            · exact hex ⟨p, hpl, hhit⟩)]
    · rw [if_neg hsrc, ih]
      have hsrc' : ¬ cell b p0.1 p0.2 = L := by
        intro h
        exact hsrc (beq_iff_eq.mpr h)
      by_cases hex : ∃ p ∈ l, foldHits b L d a0 q1 q2 p
      · rw [if_pos hex, if_pos (by
          obtain ⟨p, hp, hhit⟩ := hex
          exact ⟨p, List.mem_cons_of_mem p0 hp, hhit⟩)]
      · rw [if_neg hex, if_neg (by
          rintro ⟨p, hp, hhit⟩
          rcases List.mem_cons.mp hp with hp0 | hpl
          · subst hp0
            exact hsrc' hhit.1
          · exact hex ⟨p, hpl, hhit⟩)]

theorem mem_if_singleton {c : Prop} [Decidable c] {x m : MOVE} :
    (m ∈ (if c then [x] else [])) ↔ c ∧ m = x := by
  split_ifs with h
  · simp [h]
  · simp [h]

theorem mem_specMovesFor {H W : Nat} {b : Board} {piece : Int} {m : MOVE} :
    m ∈ specMovesFor H W b piece ↔
      m.block_num = piece ∧ specLegal H W b piece m.direction := by
  cases m with
  | mk bn d =>
    unfold specMovesFor
    simp only [List.mem_append, mem_if_singleton, MOVE.mk.injEq]
    cases d
    all_goals (constructor; · intro h; tauto
               · intro h; tauto)

theorem mem_getAvailableMoves {H W : Nat} {b : Board} {piece : Int} {m : MOVE} :
    m ∈ getAvailableMoves H W b piece ↔
      m.block_num = piece ∧ specLegal H W b piece m.direction := by
  rw [getAvailableMoves_eq_spec]
  exact mem_specMovesFor

theorem mem_getAllAvailableMoves {H W maxB : Nat} {b : Board} {m : MOVE} :
    m ∈ getAllAvailableMoves H W maxB b ↔
      2 ≤ m.block_num ∧ m.block_num ≤ (maxB : Int) ∧
        specLegal H W b m.block_num m.direction := by
  unfold getAllAvailableMoves
  simp only [List.mem_flatMap, List.mem_range'_1]
  constructor
  · rintro ⟨L, ⟨h2L, hLlt⟩, hm⟩
    obtain ⟨hbn, hleg⟩ := mem_getAvailableMoves.mp hm
    rw [hbn]
    have h2' : (2 : Int) ≤ (L : Int) := by exact_mod_cast h2L
    have hle : L ≤ maxB := by omega
    exact ⟨h2', by exact_mod_cast hle, hleg⟩
  · rintro ⟨h2, hmax, hleg⟩
    have h2N : (2 : Nat) ≤ maxB := by
      have h22 : (2 : Int) ≤ (maxB : Int) := le_trans h2 hmax
      exact_mod_cast h22
    refine ⟨m.block_num.toNat, ⟨?_, ?_⟩, ?_⟩
    · omega
    · omega
    · have hbn : ((m.block_num.toNat : Nat) : Int) = m.block_num := by omega
      rw [mem_getAvailableMoves, hbn]
      exact ⟨rfl, hleg⟩

theorem foldHits_iff_covered (H W maxB : Nat) (b : Board) (L : Int) (d : Move_Direction)
    (hwf : wfBoard H W maxB b = true) (hleg : specLegal H W b L d)
    (q1 q2 : Nat) (hq1 : q1 < H) (hq2 : q2 < W) :
    (∃ p ∈ cellIndices H W, foldHits b L d (clearBlock b L) q1 q2 p) ↔
      coveredFrom H W b L d q1 q2 = true := by
  have ha0len : (clearBlock b L).length = H := by
    rw [clearBlock_eq_mapBoard, length_mapBoard, (wfBoard_dims hwf).1]
  have ha0row : ∀ i, i < H → ((clearBlock b L).getD i []).length = W := by
    intro i hi
    rw [clearBlock_eq_mapBoard, row_length_mapBoard]
    exact wfBoard_row_length hwf hi
  cases d with
  | UP =>
    unfold coveredFrom
    simp only [Bool.and_eq_true, decide_eq_true_eq, beq_iff_eq]
    constructor
    · rintro ⟨p, hp, hsrc, ht1, ht2, hb1, hb2⟩
      obtain ⟨hpH, hpW⟩ := mem_cellIndices.mp hp
      have hfree := hleg p.1 hpH p.2 hpW hsrc
      simp only [specFree] at hfree
      obtain ⟨hp0, -⟩ := hfree
      simp only [shiftTarget] at ht1 ht2
      have hp1 : p.1 = q1 + 1 := by omega
      have hcell : cell b (q1 + 1) q2 = L := by rw [← hp1, ← ht2]; exact hsrc
      exact ⟨⟨by omega, hq2⟩, hcell⟩
    · rintro ⟨⟨hq1H, -⟩, hcell⟩
      refine ⟨(q1 + 1, q2), mem_cellIndices.mpr ⟨hq1H, hq2⟩, ?_⟩
      unfold foldHits
      simp only [shiftTarget, Nat.add_sub_cancel]
      exact ⟨hcell, by trivial, by trivial, by rw [ha0len]; exact hq1,
        by rw [ha0row q1 hq1]; exact hq2⟩
  | DOWN =>
    unfold coveredFrom
    simp only [Bool.and_eq_true, decide_eq_true_eq, beq_iff_eq]
    constructor
    · rintro ⟨p, hp, hsrc, ht1, ht2, hb1, hb2⟩
      obtain ⟨hpH, hpW⟩ := mem_cellIndices.mp hp
      simp only [shiftTarget] at ht1 ht2
      have hq1p : 1 ≤ q1 := by omega
      have hp1 : p.1 = q1 - 1 := by omega
      have hcell : cell b (q1 - 1) q2 = L := by rw [← hp1, ← ht2]; exact hsrc
      exact ⟨⟨⟨hq1p, by omega⟩, hq2⟩, hcell⟩
    · rintro ⟨⟨⟨hq1p, hq1H⟩, -⟩, hcell⟩
      refine ⟨(q1 - 1, q2), mem_cellIndices.mpr ⟨hq1H, hq2⟩, ?_⟩
      unfold foldHits
      have hidx : q1 - 1 + 1 = q1 := by omega
      simp only [shiftTarget, hidx]
      exact ⟨hcell, by trivial, by trivial, by rw [ha0len]; exact hq1,
        by rw [ha0row q1 hq1]; exact hq2⟩
  | LEFT =>
    unfold coveredFrom
    simp only [Bool.and_eq_true, decide_eq_true_eq, beq_iff_eq]
    constructor
    · rintro ⟨p, hp, hsrc, ht1, ht2, hb1, hb2⟩
      obtain ⟨hpH, hpW⟩ := mem_cellIndices.mp hp
      have hfree := hleg p.1 hpH p.2 hpW hsrc
      simp only [specFree] at hfree
      obtain ⟨hp0, -⟩ := hfree
      simp only [shiftTarget] at ht1 ht2
      have hp2 : p.2 = q2 + 1 := by omega
      have hcell : cell b q1 (q2 + 1) = L := by rw [← ht1, ← hp2]; exact hsrc
      exact ⟨⟨hq1, by omega⟩, hcell⟩
    · rintro ⟨⟨-, hq2W⟩, hcell⟩
      refine ⟨(q1, q2 + 1), mem_cellIndices.mpr ⟨hq1, hq2W⟩, ?_⟩
      unfold foldHits
      simp only [shiftTarget, Nat.add_sub_cancel]
      exact ⟨hcell, by trivial, by trivial, by rw [ha0len]; exact hq1,
        by rw [ha0row q1 hq1]; exact hq2⟩
  | RIGHT =>
    unfold coveredFrom
    simp only [Bool.and_eq_true, decide_eq_true_eq, beq_iff_eq]
    constructor
    · rintro ⟨p, hp, hsrc, ht1, ht2, hb1, hb2⟩
      obtain ⟨hpH, hpW⟩ := mem_cellIndices.mp hp
      simp only [shiftTarget] at ht1 ht2
      have hq2p : 1 ≤ q2 := by omega
      have hp2 : p.2 = q2 - 1 := by omega
      have hcell : cell b q1 (q2 - 1) = L := by rw [← ht1, ← hp2]; exact hsrc
      exact ⟨⟨⟨hq1, hq2p⟩, by omega⟩, hcell⟩
    · rintro ⟨⟨⟨-, hq2p⟩, hq2W⟩, hcell⟩
      refine ⟨(q1, q2 - 1), mem_cellIndices.mpr ⟨hq1, hq2W⟩, ?_⟩
      unfold foldHits
      have hidx : q2 - 1 + 1 = q2 := by omega
      simp only [shiftTarget, hidx]
      exact ⟨hcell, by trivial, by trivial, by rw [ha0len]; exact hq1,
        by rw [ha0row q1 hq1]; exact hq2⟩

/-- A cell of the moving block covers its own in-grid target. -/
theorem covered_target (H W : Nat) (b : Board) (L : Int) (d : Move_Direction)
    (hleg : specLegal H W b L d) (i j : Nat) (hi : i < H) (hj : j < W)
    (hcell : cell b i j = L) :
    (shiftTarget d (i, j)).1 < H ∧ (shiftTarget d (i, j)).2 < W ∧
    coveredFrom H W b L d (shiftTarget d (i, j)).1 (shiftTarget d (i, j)).2 = true := by
  have hfree := hleg i hi j hj hcell
  cases d with
  | UP =>
    simp only [specFree] at hfree
    obtain ⟨h0, -⟩ := hfree
    have hidx : i - 1 + 1 = i := by omega
    simp only [shiftTarget, coveredFrom, Bool.and_eq_true, decide_eq_true_eq, beq_iff_eq, hidx]
    exact ⟨by omega, hj, ⟨hi, hj⟩, hcell⟩
  | DOWN =>
    simp only [specFree] at hfree
    obtain ⟨hlt, -⟩ := hfree
    have hidx : i + 1 - 1 = i := by omega
    simp only [shiftTarget, coveredFrom, Bool.and_eq_true, decide_eq_true_eq, beq_iff_eq, hidx]
    exact ⟨hlt, hj, ⟨⟨by omega, hi⟩, hj⟩, hcell⟩
  | LEFT =>
    simp only [specFree] at hfree
    obtain ⟨h0, -⟩ := hfree
    have hidx : j - 1 + 1 = j := by omega
    simp only [shiftTarget, coveredFrom, Bool.and_eq_true, decide_eq_true_eq, beq_iff_eq, hidx]
    exact ⟨hi, by omega, ⟨hi, hj⟩, hcell⟩
  | RIGHT =>
    simp only [specFree] at hfree
    obtain ⟨hlt, -⟩ := hfree
    have hidx : j + 1 - 1 = j := by omega
    simp only [shiftTarget, coveredFrom, Bool.and_eq_true, decide_eq_true_eq, beq_iff_eq, hidx]
    exact ⟨hi, hlt, ⟨⟨hi, by omega⟩, hj⟩, hcell⟩

/-- C6: `applyMoveCloning` applies the move to a clone (the input board
is not written; the clone equals the input cell for cell), and the
resulting board holds the block label at every re-covered cell, `0` at
every other cell the block left, and the old value everywhere else; in
particular the target of every block cell holds the block label. -/
theorem c6_apply_frame (H W maxB : Nat) (b : Board) (m : MOVE)
    (hwf : wfBoard H W maxB b = true)
    (hm : m ∈ getAllAvailableMoves H W maxB b) :
    cloneGameState b = b ∧
    applyMoveCloning H W b m = applyMove H W b m ∧
    (∀ i j : Nat, i < H → j < W →
      cell (applyMove H W b m) i j =
        if coveredFrom H W b m.block_num m.direction i j then m.block_num
        else if cell b i j = m.block_num then 0 else cell b i j) ∧
    (∀ i j : Nat, i < H → j < W → cell b i j = m.block_num →
      cell (applyMove H W b m) (shiftTarget m.direction (i, j)).1
        (shiftTarget m.direction (i, j)).2 = m.block_num) := by
  obtain ⟨-, -, hleg⟩ := mem_getAllAvailableMoves.mp hm
  have hchar : ∀ i j : Nat, i < H → j < W →
      cell (applyMove H W b m) i j =
        if coveredFrom H W b m.block_num m.direction i j then m.block_num
        else if cell b i j = m.block_num then 0 else cell b i j := by
    intro i j hi hj
    unfold applyMove
    rw [cell_applyMove_fold]
    rw [if_congr (foldHits_iff_covered H W maxB b m.block_num m.direction hwf hleg i j hi hj)
      rfl rfl]
    have hbi : i < b.length := by rw [(wfBoard_dims hwf).1]; exact hi
    have hbj : j < (b.getD i []).length := by rw [wfBoard_row_length hwf hi]; exact hj
    rw [clearBlock_eq_mapBoard, cell_mapBoard _ _ _ _ hbi hbj]
    simp only [beq_iff_eq]
  refine ⟨cloneGameState_eq b, ?_, hchar, ?_⟩
  · unfold applyMoveCloning
    rw [cloneGameState_eq]
  · intro i j hi hj hcell
    obtain ⟨ht1, ht2, hcov⟩ := covered_target H W b m.block_num m.direction hleg i j hi hj hcell
    rw [hchar _ _ ht1 ht2, if_pos hcov]

/-- C6 witness: the frame theorem at the concrete board `bDemo` and its
legal move `(2, right)`. -/
theorem c6_apply_frame_witness :
    (wfBoard 4 5 4 bDemo = true ∧
      (⟨2, .RIGHT⟩ : MOVE) ∈ getAllAvailableMoves 4 5 4 bDemo) ∧
    (cloneGameState bDemo = bDemo ∧
     applyMoveCloning 4 5 bDemo ⟨2, .RIGHT⟩ = applyMove 4 5 bDemo ⟨2, .RIGHT⟩ ∧
     (∀ i j : Nat, i < 4 → j < 5 →
       cell (applyMove 4 5 bDemo ⟨2, .RIGHT⟩) i j =
         if coveredFrom 4 5 bDemo (2 : Int) .RIGHT i j then 2
         else if cell bDemo i j = 2 then 0 else cell bDemo i j) ∧
     (∀ i j : Nat, i < 4 → j < 5 → cell bDemo i j = 2 →
       cell (applyMove 4 5 bDemo ⟨2, .RIGHT⟩) (shiftTarget .RIGHT (i, j)).1
         (shiftTarget .RIGHT (i, j)).2 = 2)) :=
  ⟨⟨by decide, by decide⟩, c6_apply_frame 4 5 4 bDemo ⟨2, .RIGHT⟩ (by decide) (by decide)⟩

/-! ### C3: visited-state policies of the drivers -/

theorem getHashTableValue_nonneg_of_mem (t : HashTable) (k : HashKey)
    (hvals : ∀ e ∈ t, (0 : Int) ≤ e.2) (hpres : ∃ e ∈ t, e.1 = k) :
    0 ≤ getHashTableValue t k := by
  induction t with
  | nil =>
    obtain ⟨e, he, -⟩ := hpres
    exact absurd he (List.not_mem_nil e)
  | cons e rest ih =>
    unfold getHashTableValue
    by_cases hk : (e.1 == k) = true
    · rw [if_pos hk]
      exact hvals e (List.mem_cons_self e rest)
    · rw [if_neg hk]
      refine ih (fun x hx => hvals x (List.mem_cons_of_mem e hx)) ?_
      obtain ⟨x, hx, hxk⟩ := hpres
      rcases List.mem_cons.mp hx with hx0 | hxr
      · subst hx0
        exact absurd (beq_iff_eq.mpr hxk) hk
      · exact ⟨x, hxr, hxk⟩

/-- C3: a generated, normalized, non-goal successor whose key is present
in the visited-state table (stored costs are non-negative) is dropped by
the breadth-first/A* policy unconditionally; the depth-first policy
re-pushes the successor and overwrites the stored cost exactly when the
new path cost is strictly below the stored cost, and drops it
otherwise. -/
theorem c3_visited_policy (H W : Nat) (t : HashTable) (q st : List STATE_NODE)
    (nb : Board) (d1 d2 : Nat)
    (hvals : ∀ e ∈ t, (0 : Int) ≤ e.2)
    (hpres : ∃ e ∈ t, e.1 = getStateHashKey H W nb)
    (hgt : getHashTableValue t (getStateHashKey H W nb) > (d1 : Int))
    (hle : getHashTableValue t (getStateHashKey H W nb) ≤ (d2 : Int)) :
    bfsHandleSucc H W t q nb d1 = (t, q) ∧
    bfsHandleSucc H W t q nb d2 = (t, q) ∧
    dfsHandleSucc H W t st nb d1 =
      (updateHashTableValue t (getStateHashKey H W nb) (d1 : Int), ⟨d1, nb⟩ :: st) ∧
    dfsHandleSucc H W t st nb d2 = (t, st) := by
  have hnn : 0 ≤ getHashTableValue t (getStateHashKey H W nb) :=
    getHashTableValue_nonneg_of_mem t _ hvals hpres
  refine ⟨?_, ?_, ?_, ?_⟩
  · unfold bfsHandleSucc
    rw [if_pos hnn]
  · unfold bfsHandleSucc
    rw [if_pos hnn]
  · unfold dfsHandleSucc
    rw [if_neg (by omega), if_pos hgt]
  · unfold dfsHandleSucc
    rw [if_neg (by omega), if_neg (by omega)]

/-- C3 witness: the policy theorem at a concrete one-entry table holding
the solved board's key at cost 1, with new costs 0 (strictly better) and
1 (not better). -/
theorem c3_visited_policy_witness :
    ((∀ e ∈ [(getStateHashKey 3 4 bSolved, (1 : Int))], (0 : Int) ≤ e.2) ∧
     (∃ e ∈ [(getStateHashKey 3 4 bSolved, (1 : Int))], e.1 = getStateHashKey 3 4 bSolved) ∧
     getHashTableValue [(getStateHashKey 3 4 bSolved, (1 : Int))]
       (getStateHashKey 3 4 bSolved) > ((0 : Nat) : Int) ∧
     getHashTableValue [(getStateHashKey 3 4 bSolved, (1 : Int))]
       (getStateHashKey 3 4 bSolved) ≤ ((1 : Nat) : Int)) ∧
    (bfsHandleSucc 3 4 [(getStateHashKey 3 4 bSolved, (1 : Int))] [] bSolved 0 =
       ([(getStateHashKey 3 4 bSolved, (1 : Int))], []) ∧
     bfsHandleSucc 3 4 [(getStateHashKey 3 4 bSolved, (1 : Int))] [] bSolved 1 =
       ([(getStateHashKey 3 4 bSolved, (1 : Int))], []) ∧
     dfsHandleSucc 3 4 [(getStateHashKey 3 4 bSolved, (1 : Int))] [] bSolved 0 =
       (updateHashTableValue [(getStateHashKey 3 4 bSolved, (1 : Int))]
         (getStateHashKey 3 4 bSolved) ((0 : Nat) : Int), [⟨0, bSolved⟩]) ∧
     dfsHandleSucc 3 4 [(getStateHashKey 3 4 bSolved, (1 : Int))] [] bSolved 1 =
       ([(getStateHashKey 3 4 bSolved, (1 : Int))], [])) :=
  ⟨⟨by decide, by decide, by decide, by decide⟩,
   c3_visited_policy 3 4 [(getStateHashKey 3 4 bSolved, (1 : Int))] [] [] bSolved 0 1
     (by decide) (by decide) (by decide) (by decide)⟩

/-! ### C10: `getBestNode` returns a frontier minimizer -/

theorem getBestNodeAux_no_improvement (H W : Nat) :
    ∀ (l : List STATE_NODE) (best : Option STATE_NODE) (short : Int),
      (∀ n ∈ l, ¬ fOfN H W n < short) → getBestNodeAux H W best short l = best := by
  intro l
  induction l with
  | nil => intro best short _; rfl
  | cons n rest ih =>
    intro best short h
    unfold getBestNodeAux
    rw [if_neg (h n (List.mem_cons_self n rest))]
    exact ih best short (fun x hx => h x (List.mem_cons_of_mem n hx))

theorem getBestNodeAux_finds_min (H W : Nat) :
    ∀ (l : List STATE_NODE) (best : Option STATE_NODE) (short : Int),
      (∃ n ∈ l, fOfN H W n < short) →
      ∃ m, getBestNodeAux H W best short l = some m ∧ m ∈ l ∧ fOfN H W m < short ∧
        ∀ n ∈ l, fOfN H W m ≤ fOfN H W n := by
  intro l
  induction l with
  | nil =>
    rintro best short ⟨n, hn, -⟩
    exact absurd hn (List.not_mem_nil n)
  | cons n rest ih =>
    intro best short hex
    unfold getBestNodeAux
    by_cases hn : fOfN H W n < short
    · rw [if_pos hn]
      by_cases hrest : ∃ k ∈ rest, fOfN H W k < fOfN H W n
      · obtain ⟨m, hm, hmem, hlt, hall⟩ := ih (some n) (fOfN H W n) hrest
        refine ⟨m, hm, List.mem_cons_of_mem n hmem, by omega, ?_⟩
        intro x hx
        rcases List.mem_cons.mp hx with hx0 | hxr
        · subst hx0; omega
        · exact hall x hxr
      · rw [getBestNodeAux_no_improvement H W rest (some n) (fOfN H W n)
          (fun k hk hlt => hrest ⟨k, hk, hlt⟩)]
        refine ⟨n, rfl, List.mem_cons_self n rest, hn, ?_⟩
        intro x hx
        rcases List.mem_cons.mp hx with hx0 | hxr
        · subst hx0; omega
        · by_contra hcon
          exact hrest ⟨x, hxr, by omega⟩
    · rw [if_neg hn]
      have hex' : ∃ k ∈ rest, fOfN H W k < short := by
        obtain ⟨k, hk, hklt⟩ := hex
        rcases List.mem_cons.mp hk with hk0 | hkr
        · subst hk0; exact absurd hklt hn
        · exact ⟨k, hkr, hklt⟩
      obtain ⟨m, hm, hmem, hlt, hall⟩ := ih best short hex'
      refine ⟨m, hm, List.mem_cons_of_mem n hmem, hlt, ?_⟩
      intro x hx
      rcases List.mem_cons.mp hx with hx0 | hxr
      · subst hx0; omega
      · exact hall x hxr

/-- C10: when some frontier node has `path_cost + estimate` strictly
below the `WORST_CASE_DISTANCE` seed (1000), `getBestNode` returns some
frontier node minimizing `path_cost + estimate` (the node `aStarSearch`
then dereferences unconditionally); without that precondition the scan
keeps its `NULL` seed. -/
theorem c10_getBestNode (H W : Nat) (q : List STATE_NODE)
    (hex : ∃ n ∈ q, fOfN H W n < WORST_CASE_DISTANCE) :
    ∃ m, getBestNode H W q = some m ∧ m ∈ q ∧ fOfN H W m < WORST_CASE_DISTANCE ∧
      ∀ n ∈ q, fOfN H W m ≤ fOfN H W n :=
  getBestNodeAux_finds_min H W q none WORST_CASE_DISTANCE hex

/-- C10 witness: the frontier holding only the root of `bDemo`
(f = 0 + 4 < 1000). -/
theorem c10_getBestNode_witness :
    (∃ n ∈ [(⟨0, bDemo⟩ : STATE_NODE)], fOfN 4 5 n < WORST_CASE_DISTANCE) ∧
    ∃ m, getBestNode 4 5 [(⟨0, bDemo⟩ : STATE_NODE)] = some m ∧
      m ∈ [(⟨0, bDemo⟩ : STATE_NODE)] ∧ fOfN 4 5 m < WORST_CASE_DISTANCE ∧
      ∀ n ∈ [(⟨0, bDemo⟩ : STATE_NODE)], fOfN 4 5 m ≤ fOfN 4 5 n :=
  ⟨by decide, c10_getBestNode 4 5 [⟨0, bDemo⟩] (by decide)⟩

/-! ### C9: the `normalizeState` tables are written out of bounds -/

theorem initNormTables_prefix :
    ∀ (l : List Nat) (s : List Bool) (r : List Int),
      (∀ i ∈ l, i < s.length) → (∀ i ∈ l, i < r.length) →
      ∃ s' r',
        (List.foldlM
          (fun sr i => do
            let s ← writeArr sr.1 i false
            let r ← writeArr sr.2 i (0 : Int)
            pure (s, r))
          ((s, r) : List Bool × List Int) l) = some (s', r') ∧
        s'.length = s.length ∧ r'.length = r.length := by
  intro l
  induction l with
  | nil => intro s r _ _; exact ⟨s, r, rfl, rfl, rfl⟩
  | cons i l ih =>
    intro s r hs hr
    have hsi : i < s.length := hs i (List.mem_cons_self i l)
    have hri : i < r.length := hr i (List.mem_cons_self i l)
    rw [List.foldlM_cons]
    have hw1 : writeArr s i false = some (s.set i false) := by
      unfold writeArr
      rw [if_pos hsi]
    have hw2 : writeArr r i (0 : Int) = some (r.set i 0) := by
      unfold writeArr
      rw [if_pos hri]
    simp only [hw1, hw2, Option.bind_eq_bind, Option.bind_some, pure, Option.some_bind]
    obtain ⟨s', r', heq, hls, hlr⟩ := ih (s.set i false) (r.set i 0)
      (fun x hx => by rw [List.length_set]; exact hs x (List.mem_cons_of_mem i hx))
      (fun x hx => by rw [List.length_set]; exact hr x (List.mem_cons_of_mem i hx))
    refine ⟨s', r', heq, ?_, ?_⟩
    · rw [hls, List.length_set]
    · rw [hlr, List.length_set]

theorem initNormTables_none (maxB : Nat) : initNormTables maxB = none := by
  unfold initNormTables
  rw [List.range_succ, List.foldlM_append]
  obtain ⟨s', r', heq, hls, hlr⟩ := initNormTables_prefix (List.range maxB)
    (List.replicate maxB false) (List.replicate maxB (0 : Int))
    (fun i hi => by rw [List.length_replicate]; exact List.mem_range.mp hi)
    (fun i hi => by rw [List.length_replicate]; exact List.mem_range.mp hi)
  rw [heq]
  have hfail : writeArr s' maxB false = none := by
    unfold writeArr
    rw [if_neg (by rw [hls, List.length_replicate]; omega)]
  simp [List.foldlM_cons, hfail]

/-- C9 refuted: the initialization loop of `normalizeState` writes index
`max_block_num` into the `max_block_num`-entry `block_seen` and `remap`
allocations, so with bounds-checked table accesses the function always
reaches the out-of-bounds branch: the claim that every access is in
bounds fails on every board. -/
theorem c9_normalize_tables_oob (maxB : Nat) (b : Board) :
    normalizeStateChecked maxB b = none := by
  unfold normalizeStateChecked normPlan
  rw [initNormTables_none]
  rfl

/-! ### Solved boards stay solved across moves and normalization -/

theorem checkGameComplete_iff (b : Board) :
    checkGameComplete b = true ↔ ∀ v ∈ rowMajor b, v ≠ -1 := by
  unfold checkGameComplete
  simp [List.all_eq_true]

theorem mem_rowMajor_setCell {a : Board} {i j : Nat} {w v : Int}
    (hv : v ∈ rowMajor (setCell a i j w)) : v ∈ rowMajor a ∨ v = w := by
  unfold setCell rowMajor at hv
  unfold rowMajor
  obtain ⟨r, hr, hvr⟩ := List.mem_flatten.mp hv
  rcases List.mem_or_eq_of_mem_set hr with hra | hreq
  · exact Or.inl (List.mem_flatten.mpr ⟨r, hra, hvr⟩)
  · subst hreq
    rcases List.mem_or_eq_of_mem_set hvr with hvrow | hveq
    · by_cases hi : i < a.length
      · rw [List.getD_eq_getElem _ [] hi] at hvrow
        exact Or.inl (List.mem_flatten.mpr ⟨a[i], List.getElem_mem hi, hvrow⟩)
      · rw [List.getD_eq_default _ _ (Nat.le_of_not_lt hi)] at hvrow
        exact absurd hvrow (List.not_mem_nil v)
    · exact Or.inr hveq

theorem fold_writes_no_neg1 (b : Board) (L : Int) (d : Move_Direction) (hL : L ≠ -1) :
    ∀ (l : List (Nat × Nat)) (a0 : Board), (∀ v ∈ rowMajor a0, v ≠ -1) →
      ∀ v ∈ rowMajor (l.foldl (fun acc p =>
          if cell b p.1 p.2 == L then
            setCell acc (shiftTarget d p).1 (shiftTarget d p).2 L
          else acc) a0), v ≠ -1 := by
  intro l
  induction l with
  | nil => intro a0 h; exact h
  | cons p l ih =>
    intro a0 h
    rw [List.foldl_cons]
    by_cases hc : (cell b p.1 p.2 == L) = true
    · rw [if_pos hc]
      refine ih _ ?_
      intro v hv
      rcases mem_rowMajor_setCell hv with hva | hveq
      · exact h v hva
      · rw [hveq]; exact hL
    · rw [if_neg hc]
      exact ih a0 h

theorem complete_applyMove (H W : Nat) (b : Board) (m : MOVE)
    (hb : checkGameComplete b = true) (hL : m.block_num ≠ -1) :
    checkGameComplete (applyMove H W b m) = true := by
  rw [checkGameComplete_iff] at hb ⊢
  have hclear : ∀ v ∈ rowMajor (clearBlock b m.block_num), v ≠ -1 := by
    intro v hv
    rw [clearBlock_eq_mapBoard, rowMajor_mapBoard] at hv
    obtain ⟨u, hu, huv⟩ := List.mem_map.mp hv
    by_cases h : (u == m.block_num) = true
    · rw [← huv]; simp [h]
    · rw [← huv]; simp only [if_neg h]; exact hb u hu
  unfold applyMove
  exact fold_writes_no_neg1 b m.block_num m.direction hL (cellIndices H W)
    (clearBlock b m.block_num) hclear

theorem complete_normalizeState (b : Board) (hb : checkGameComplete b = true) :
    checkGameComplete (normalizeState b) = true := by
  rw [checkGameComplete_iff] at hb ⊢
  intro v hv
  rw [normalizeState_eq_mapBoard, rowMajor_mapBoard] at hv
  obtain ⟨u, hu, huv⟩ := List.mem_map.mp hv
  by_cases h : 2 < u
  · rw [← huv, if_pos h]
    have := remapOf_gt_two b u
    omega
  · rw [← huv, if_neg h]
    exact hb u hu

theorem succsOf_solved (H W maxB : Nat) (b : Board) (hb : checkGameComplete b = true) :
    ∀ s ∈ succsOf H W maxB b, checkGameComplete s = true := by
  intro s hs
  obtain ⟨m, hm, hms⟩ := List.mem_map.mp hs
  obtain ⟨h2, -, -⟩ := mem_getAllAvailableMoves.mp hm
  rw [← hms]
  apply complete_normalizeState
  unfold applyMoveCloning
  rw [cloneGameState_eq]
  exact complete_applyMove H W b m hb (by omega)

/-! ### C7: behavior of the drivers on an already-solved input board -/

theorem bfsProcessSuccs_first_solved (H W : Nat) (t : HashTable) (q : List STATE_NODE)
    (depth : Nat) (s : Board) (rest : List Board) (hs : checkGameComplete s = true) :
    bfsProcessSuccs H W t q depth (s :: rest) = (some depth, t, q) := by
  unfold bfsProcessSuccs
  rw [if_pos hs]

theorem dfsProcessSuccs_first_solved (H W : Nat) (t : HashTable) (st : List STATE_NODE)
    (depth : Nat) (s : Board) (rest : List Board) (hs : checkGameComplete s = true) :
    dfsProcessSuccs H W t st depth (s :: rest) = (some depth, t, st) := by
  unfold dfsProcessSuccs
  rw [if_pos hs]

/-- C7 counterexample: on the already-solved concrete board `bSolved`
every driver returns path cost 1 (the root is expanded, and the first
successor of a solved board is solved) rather than the claimed 0. -/
theorem c7_solved_root_counterexample :
    checkGameComplete bSolved = true ∧
    breadthFirstSearch 5 3 4 2 bSolved = some 1 ∧
    depthFirstSearch 5 3 4 2 bSolved = some 1 ∧
    depthLimitedSearch 5 3 4 2 bSolved 1 = some 1 ∧
    interativeDeepeningSearch 5 5 3 4 2 bSolved = some 1 ∧
    aStarSearch 5 3 4 2 bSolved = some 1 ∧
    (some (1 : Int) ≠ some (0 : Int)) := by
  refine ⟨by decide, by decide, by decide, by decide, by decide, by decide, by decide⟩

/-- C7 amended: each driver tests the goal only on generated successors,
never on the root; on an already-solved input board that has at least
one available move (and, for A*, whose root heuristic beats the 1000
seed), every driver expands the root and returns path cost 1 — not 0. -/
theorem c7_solved_root_returns_one (H W maxB fuel innerFuel md : Nat) (b : Board)
    (hsolved : checkGameComplete b = true)
    (hmoves : getAllAvailableMoves H W maxB b ≠ [])
    (hheur : get_heuristic H W b < WORST_CASE_DISTANCE) :
    breadthFirstSearch (fuel+1) H W maxB b = some 1 ∧
    depthFirstSearch (fuel+1) H W maxB b = some 1 ∧
    depthLimitedSearch (fuel+1) H W maxB b (md+1) = some 1 ∧
    interativeDeepeningSearch (fuel+1) (innerFuel+1) H W maxB b = some 1 ∧
    aStarSearch (fuel+1) H W maxB b = some 1 := by
  obtain ⟨m0, ms, hm0⟩ := List.exists_cons_of_ne_nil hmoves
  have hsuccs : succsOf H W maxB b =
      normalizeState (applyMoveCloning H W b m0) ::
        ms.map (fun m => normalizeState (applyMoveCloning H W b m)) := by
    unfold succsOf
    rw [hm0, List.map_cons]
  have hfirst : checkGameComplete (normalizeState (applyMoveCloning H W b m0)) = true := by
    apply succsOf_solved H W maxB b hsolved
    rw [hsuccs]
    exact List.mem_cons_self _ _
  have hdfs : ∀ lim maxd, (0 < maxd ∨ lim = false) →
      dfsLoop H W maxB lim maxd (fuel+1)
        (insertIntoStateHashTable [] (getStateHashKey H W b) 0) [⟨0, b⟩] = some 1 := by
    intro lim maxd hcase
    have hguard : (!lim || (0 : Nat) < maxd) = true := by
      rcases hcase with h | h
      · simp [h]
      · simp [h]
    unfold dfsLoop
    simp only [hguard, if_true, hsuccs]
    rw [dfsProcessSuccs_first_solved _ _ _ _ _ _ _ hfirst]
    norm_num
  refine ⟨?_, ?_, ?_, ?_, ?_⟩
  · unfold breadthFirstSearch bfsLoop
    simp only [hsuccs]
    rw [bfsProcessSuccs_first_solved _ _ _ _ _ _ _ hfirst]
    norm_num
  · unfold depthFirstSearch generalDepthFirstSearch
    exact hdfs false 0 (Or.inr rfl)
  · unfold depthLimitedSearch generalDepthFirstSearch
    exact hdfs true (md+1) (Or.inl (Nat.succ_pos md))
  · unfold interativeDeepeningSearch idsLoop
    have hdl : depthLimitedSearch (innerFuel+1) H W maxB b (0+1) = some 1 := by
      unfold depthLimitedSearch generalDepthFirstSearch
      have : ∀ lim maxd, (0 < maxd ∨ lim = false) →
          dfsLoop H W maxB lim maxd (innerFuel+1)
            (insertIntoStateHashTable [] (getStateHashKey H W b) 0) [⟨0, b⟩] = some 1 := by
        intro lim maxd hcase
        have hguard : (!lim || (0 : Nat) < maxd) = true := by
          rcases hcase with h | h
          · simp [h]
          · simp [h]
        unfold dfsLoop
        simp only [hguard, if_true, hsuccs]
        rw [dfsProcessSuccs_first_solved _ _ _ _ _ _ _ hfirst]
        norm_num
      exact this true (0+1) (Or.inl (Nat.succ_pos 0))
    rw [hdl]
    norm_num
  · unfold aStarSearch aStarLoop
    have hbest : getBestNode H W [⟨0, b⟩] = some ⟨0, b⟩ := by
      unfold getBestNode getBestNodeAux
      rw [if_pos (by
        unfold fOfN
        simp only []
        omega)]
      rfl
    simp only [hbest]
    have hrem : removeNode [(⟨0, b⟩ : STATE_NODE)] (STATE_NODE.mk 0 b).board_state = [] := by
      unfold removeNode compareStates
      simp
    rw [hrem]
    simp only [hsuccs]
    rw [bfsProcessSuccs_first_solved _ _ _ _ _ _ _ hfirst]
    norm_num

/-- C7 amended witness: the amended theorem at the concrete solved board
`bSolved`. -/
theorem c7_solved_root_returns_one_witness :
    (checkGameComplete bSolved = true ∧ getAllAvailableMoves 3 4 2 bSolved ≠ [] ∧
      get_heuristic 3 4 bSolved < WORST_CASE_DISTANCE) ∧
    (breadthFirstSearch 5 3 4 2 bSolved = some 1 ∧
     depthFirstSearch 5 3 4 2 bSolved = some 1 ∧
     depthLimitedSearch 5 3 4 2 bSolved 1 = some 1 ∧
     interativeDeepeningSearch 5 5 3 4 2 bSolved = some 1 ∧
     aStarSearch 5 3 4 2 bSolved = some 1) :=
  ⟨⟨by decide, by decide, by decide⟩,
   c7_solved_root_returns_one 3 4 2 4 4 0 bSolved (by decide) (by decide) (by decide)⟩

/-! ### C8: iterative deepening does not terminate on an unsolvable board -/

theorem depthLimited_bStuck (f d : Nat) :
    depthLimitedSearch f 3 5 2 bStuck (d+1) = none ∨
    depthLimitedSearch f 3 5 2 bStuck (d+1) = some (-1) := by
  have hsuccs : succsOf 3 5 2 bStuck = [] := by decide
  match f with
  | 0 => exact Or.inl rfl
  | 1 =>
    refine Or.inl ?_
    unfold depthLimitedSearch generalDepthFirstSearch dfsLoop
    have hguard : (!true || (0 : Nat) < d + 1) = true := by simp
    simp only [hguard, if_true, hsuccs]
    rfl
  | f + 2 =>
    refine Or.inr ?_
    unfold depthLimitedSearch generalDepthFirstSearch dfsLoop
    have hguard : (!true || (0 : Nat) < d + 1) = true := by simp
    simp only [hguard, if_true, hsuccs]
    rfl

/-- C8 refuted on the code: on the unsolvable concrete board `bStuck`
(not solved, no legal move), every depth-limited round returns `-1`, so
the `while (!goal_reached)` loop of `interativeDeepeningSearch` never
sees a positive result and never returns, at any amount of fuel — while
breadth-first terminates with the `-1` no-solution sentinel on the same
board, and the function's own documentation promises a `-1` return. -/
theorem c8_ids_never_terminates :
    (∀ fuel innerFuel startDepth : Nat,
      idsLoop innerFuel 3 5 2 bStuck fuel startDepth = none) ∧
    (∀ f d : Nat, depthLimitedSearch f 3 5 2 bStuck (d+1) = none ∨
       depthLimitedSearch f 3 5 2 bStuck (d+1) = some (-1)) ∧
    breadthFirstSearch 5 3 5 2 bStuck = some (-1) ∧
    depthFirstSearch 5 3 5 2 bStuck = some (-1) ∧
    checkGameComplete bStuck = false ∧
    getAllAvailableMoves 3 5 2 bStuck = [] := by
  refine ⟨?_, depthLimited_bStuck, by decide, by decide, by decide, by decide⟩
  intro fuel
  induction fuel with
  | zero => intro innerFuel startDepth; rfl
  | succ f ih =>
    intro innerFuel startDepth
    unfold idsLoop
    rcases depthLimited_bStuck innerFuel startDepth with h | h
    · rw [h]
    · rw [h]
      norm_num
      exact ih innerFuel (startDepth + 1)

/-! ### C2 groundwork: unpacking well-formedness -/

theorem wfBoard_iff {H W maxB : Nat} {b : Board} :
    wfBoard H W maxB b = true ↔
      (b.length = H ∧ (∀ row ∈ b, row.length = W) ∧ 3 ≤ H ∧ 3 ≤ W ∧ 2 ≤ maxB ∧
       (∀ p ∈ cellIndices H W, (p.1 = 0 ∨ p.1 = H - 1 ∨ p.2 = 0 ∨ p.2 = W - 1) →
         cell b p.1 p.2 = 1) ∧
       (∀ p ∈ cellIndices H W, -1 ≤ cell b p.1 p.2 ∧ cell b p.1 p.2 ≤ (maxB : Int)) ∧
       (∀ L ∈ List.range' 2 (maxB - 1), ∃ v ∈ rowMajor b, v = ((L : Nat) : Int))) := by
  unfold wfBoard
  simp only [Bool.and_eq_true, List.all_eq_true, List.any_eq_true, beq_iff_eq,
    decide_eq_true_eq, Bool.or_eq_true, Bool.not_eq_true']
  constructor
  · rintro ⟨⟨⟨⟨⟨⟨⟨h1, h2⟩, h3⟩, h4⟩, h5⟩, h6⟩, h7⟩, h8⟩
    refine ⟨h1, h2, h3, h4, h5, ?_, ?_, ?_⟩
    · intro p hp hcase
      have h6p := h6 p hp
      rcases h6p with h6p | h6p
      · exfalso
        revert h6p
        simp only [Bool.or_eq_false_iff, beq_eq_false_iff_ne]
        rintro ⟨⟨⟨u1, u2⟩, u3⟩, u4⟩
        rcases hcase with hc | hc | hc | hc
        · exact u1 hc
        · exact u2 hc
        · exact u3 hc
        · exact u4 hc
      · exact h6p
    · intro p hp
      exact h7 p hp
    · intro L hL
      obtain ⟨v, hv, hveq⟩ := h8 L hL
      exact ⟨v, hv, hveq⟩
  · rintro ⟨h1, h2, h3, h4, h5, h6, h7, h8⟩
    refine ⟨⟨⟨⟨⟨⟨⟨h1, h2⟩, h3⟩, h4⟩, h5⟩, ?_⟩, ?_⟩, ?_⟩
    · intro p hp
      by_cases hcase : p.1 = 0 ∨ p.1 = H - 1 ∨ p.2 = 0 ∨ p.2 = W - 1
      · exact Or.inr (h6 p hp hcase)
      · refine Or.inl ?_
        push_neg at hcase
        simp only [Bool.or_eq_false_iff, beq_eq_false_iff_ne]
        exact ⟨⟨⟨hcase.1, hcase.2.1⟩, hcase.2.2.1⟩, hcase.2.2.2⟩
    · intro p hp
      exact h7 p hp
    · intro L hL
      obtain ⟨v, hv, hveq⟩ := h8 L hL
      exact ⟨v, hv, hveq⟩

theorem mem_rowMajor_iff_cell {H W : Nat} {b : Board}
    (h1 : b.length = H) (h2 : ∀ row ∈ b, row.length = W) {v : Int} :
    v ∈ rowMajor b ↔ ∃ i, i < H ∧ ∃ j, j < W ∧ cell b i j = v := by
  unfold rowMajor cell
  constructor
  · intro hv
    obtain ⟨row, hrow, hvrow⟩ := List.mem_flatten.mp hv
    obtain ⟨i, hi, hieq⟩ := List.mem_iff_getElem.mp hrow
    obtain ⟨j, hj, hjeq⟩ := List.mem_iff_getElem.mp hvrow
    refine ⟨i, by omega, j, ?_, ?_⟩
    · have := h2 row hrow
      omega
    · rw [List.getD_eq_getElem _ [] hi, hieq, List.getD_eq_getElem _ 0 hj, hjeq]
  · rintro ⟨i, hi, j, hj, hcell⟩
    have hi' : i < b.length := by omega
    have hrow : b[i] ∈ b := List.getElem_mem hi'
    have hj' : j < b[i].length := by
      have := h2 b[i] hrow
      omega
    rw [List.getD_eq_getElem _ [] hi', List.getD_eq_getElem _ 0 hj'] at hcell
    exact List.mem_flatten.mpr ⟨b[i], hrow, hcell ▸ List.getElem_mem hj'⟩

/-! ### C2 groundwork: `applyMove` pointwise, dimensions, well-formedness -/

/-- Standalone pointwise description of `applyMove` under legality. -/
theorem cell_applyMove {H W maxB : Nat} {b : Board} {m : MOVE}
    (hwf : wfBoard H W maxB b = true)
    (hleg : specLegal H W b m.block_num m.direction) (i j : Nat) (hi : i < H) (hj : j < W) :
    cell (applyMove H W b m) i j =
      if coveredFrom H W b m.block_num m.direction i j then m.block_num
      else if cell b i j = m.block_num then 0 else cell b i j := by
  unfold applyMove
  rw [cell_applyMove_fold]
  rw [if_congr (foldHits_iff_covered H W maxB b m.block_num m.direction hwf hleg i j hi hj)
    rfl rfl]
  have hbi : i < b.length := by rw [(wfBoard_dims hwf).1]; exact hi
  have hbj : j < (b.getD i []).length := by rw [wfBoard_row_length hwf hi]; exact hj
  rw [clearBlock_eq_mapBoard, cell_mapBoard _ _ _ _ hbi hbj]
  simp only [beq_iff_eq]

theorem applyMove_fold_length (b : Board) (L : Int) (d : Move_Direction) :
    ∀ (l : List (Nat × Nat)) (a0 : Board),
      (l.foldl (fun acc p =>
        if cell b p.1 p.2 == L then
          setCell acc (shiftTarget d p).1 (shiftTarget d p).2 L
        else acc) a0).length = a0.length := by
  intro l
  induction l with
  | nil => intro a0; rfl
  | cons p l ih =>
    intro a0
    rw [List.foldl_cons]
    by_cases hc : (cell b p.1 p.2 == L) = true
    · rw [if_pos hc, ih, length_setCell]
    · rw [if_neg hc, ih]

theorem applyMove_fold_row (b : Board) (L : Int) (d : Move_Direction) :
    ∀ (l : List (Nat × Nat)) (a0 : Board) (i : Nat),
      ((l.foldl (fun acc p =>
        if cell b p.1 p.2 == L then
          setCell acc (shiftTarget d p).1 (shiftTarget d p).2 L
        else acc) a0).getD i []).length = (a0.getD i []).length := by
  intro l
  induction l with
  | nil => intro a0 i; rfl
  | cons p l ih =>
    intro a0 i
    rw [List.foldl_cons]
    by_cases hc : (cell b p.1 p.2 == L) = true
    · rw [if_pos hc, ih, row_length_setCell]
    · rw [if_neg hc, ih]

theorem length_applyMove (H W : Nat) (b : Board) (m : MOVE) :
    (applyMove H W b m).length = b.length := by
  unfold applyMove
  rw [applyMove_fold_length, clearBlock_eq_mapBoard, length_mapBoard]

theorem row_length_applyMove (H W : Nat) (b : Board) (m : MOVE) (i : Nat) :
    ((applyMove H W b m).getD i []).length = ((b.getD i []).length) := by
  unfold applyMove
  rw [applyMove_fold_row, clearBlock_eq_mapBoard, row_length_mapBoard]

/-- Rows of a board with stable dimensions all have length `W`. -/
theorem rows_length_of_getD {b' : Board} {W : Nat}
    (h : ∀ i, i < b'.length → (b'.getD i []).length = W) :
    ∀ row ∈ b', row.length = W := by
  intro row hrow
  obtain ⟨i, hi, hieq⟩ := List.mem_iff_getElem.mp hrow
  have := h i hi
  rw [List.getD_eq_getElem _ [] hi] at this
  rw [← hieq]
  exact this

/-- A re-covered cell's old label was passable for the moving block. -/
theorem covered_passable {H W : Nat} {b : Board} {L : Int} {d : Move_Direction}
    (hleg : specLegal H W b L d) {i j : Nat}
    (hcov : coveredFrom H W b L d i j = true) : specPassable b L i j := by
  cases d with
  | UP =>
    simp only [coveredFrom, Bool.and_eq_true, decide_eq_true_eq, beq_iff_eq] at hcov
    obtain ⟨⟨h1, h2⟩, hcell⟩ := hcov
    have hfree := hleg (i+1) h1 j h2 hcell
    simp only [specFree] at hfree
    simpa using hfree.2
  | DOWN =>
    simp only [coveredFrom, Bool.and_eq_true, decide_eq_true_eq, beq_iff_eq] at hcov
    obtain ⟨⟨⟨h0, h1⟩, h2⟩, hcell⟩ := hcov
    have hfree := hleg (i-1) h1 j h2 hcell
    simp only [specFree] at hfree
    have : i - 1 + 1 = i := by omega
    rw [this] at hfree
    exact hfree.2
  | LEFT =>
    simp only [coveredFrom, Bool.and_eq_true, decide_eq_true_eq, beq_iff_eq] at hcov
    obtain ⟨⟨h1, h2⟩, hcell⟩ := hcov
    have hfree := hleg i h1 (j+1) h2 hcell
    simp only [specFree] at hfree
    simpa using hfree.2
  | RIGHT =>
    simp only [coveredFrom, Bool.and_eq_true, decide_eq_true_eq, beq_iff_eq] at hcov
    obtain ⟨⟨⟨h1, h0⟩, h2⟩, hcell⟩ := hcov
    have hfree := hleg i h1 (j-1) h2 hcell
    simp only [specFree] at hfree
    have : j - 1 + 1 = j := by omega
    rw [this] at hfree
    exact hfree.2

/-! ### C2: well-formedness is preserved along the search graph -/

/-- A legal move keeps a board well-formed. -/
theorem wf_applyMove {H W maxB : Nat} {b : Board} {m : MOVE}
    (hwf : wfBoard H W maxB b = true)
    (hm : m ∈ getAllAvailableMoves H W maxB b) :
    wfBoard H W maxB (applyMove H W b m) = true := by
  obtain ⟨h2L, hLmax, hleg⟩ := mem_getAllAvailableMoves.mp hm
  obtain ⟨h1, h2, h3, h4, h5, h6, h7, h8⟩ := wfBoard_iff.mp hwf
  have hlen' : (applyMove H W b m).length = H := by rw [length_applyMove, h1]
  have hrows' : ∀ row ∈ applyMove H W b m, row.length = W := by
    apply rows_length_of_getD
    intro i hi
    rw [length_applyMove, h1] at hi
    rw [row_length_applyMove]
    exact wfBoard_row_length hwf hi
  rw [wfBoard_iff]
  refine ⟨hlen', hrows', h3, h4, h5, ?_, ?_, ?_⟩
  · intro p hp hcase
    obtain ⟨hpH, hpW⟩ := mem_cellIndices.mp hp
    rw [cell_applyMove hwf hleg p.1 p.2 hpH hpW]
    have hb := h6 p hp hcase
    have hnc : ¬ (coveredFrom H W b m.block_num m.direction p.1 p.2 = true) := by
      intro hcov
      rcases covered_passable hleg hcov with h0 | hLc | ⟨-, hneg⟩
      · rw [hb] at h0; norm_num at h0
      · rw [hb] at hLc; omega
      · rw [hb] at hneg; norm_num at hneg
    rw [if_neg hnc, hb, if_neg (by omega : ¬ ((1 : Int) = m.block_num))]
  · intro p hp
    obtain ⟨hpH, hpW⟩ := mem_cellIndices.mp hp
    rw [cell_applyMove hwf hleg p.1 p.2 hpH hpW]
    by_cases hcov : coveredFrom H W b m.block_num m.direction p.1 p.2 = true
    · rw [if_pos hcov]
      exact ⟨by omega, hLmax⟩
    · rw [if_neg hcov]
      by_cases hc2 : cell b p.1 p.2 = m.block_num
      · rw [if_pos hc2]
        constructor <;> omega
      · rw [if_neg hc2]
        exact h7 p hp
  · intro L hL
    have hLrange : 2 ≤ L ∧ L < 2 + (maxB - 1) := by
      simpa [List.mem_range'_1] using hL
    obtain ⟨v, hv, hveq⟩ := h8 L hL
    rw [hveq] at hv
    obtain ⟨i, hi, j, hj, hcell⟩ := (mem_rowMajor_iff_cell h1 h2).mp hv
    refine ⟨((L : Nat) : Int), ?_, rfl⟩
    rw [mem_rowMajor_iff_cell hlen' hrows']
    by_cases hLm : ((L : Nat) : Int) = m.block_num
    · obtain ⟨ht1, ht2, hcovT⟩ :=
        covered_target H W b m.block_num m.direction hleg i j hi hj
          (by rw [hcell]; exact hLm)
      refine ⟨(shiftTarget m.direction (i, j)).1, ht1,
        (shiftTarget m.direction (i, j)).2, ht2, ?_⟩
      rw [cell_applyMove hwf hleg _ _ ht1 ht2, if_pos hcovT]
      exact hLm.symm
    · refine ⟨i, hi, j, hj, ?_⟩
      rw [cell_applyMove hwf hleg i j hi hj]
      have hnc : ¬ (coveredFrom H W b m.block_num m.direction i j = true) := by
        intro hcov
        rcases covered_passable hleg hcov with h0 | hLc | ⟨-, hneg⟩
        · rw [hcell] at h0; omega
        · rw [hcell] at hLc; exact hLm hLc
        · rw [hcell] at hneg; omega
      rw [if_neg hnc, if_neg (by rw [hcell]; exact hLm)]
      exact hcell

/-- Under well-formedness the remap-plan scan collects exactly the
labels `3 .. max_block_num`. -/
theorem scanSeen_toFinset_wf {H W maxB : Nat} {b : Board}
    (hwf : wfBoard H W maxB b = true) :
    (scanSeen b).toFinset = Finset.Icc (3 : Int) (maxB : Int) := by
  obtain ⟨h1, h2, h3, h4, h5, h6, h7, h8⟩ := wfBoard_iff.mp hwf
  apply Finset.ext
  intro v
  rw [List.mem_toFinset, scanSeen_mem, Finset.mem_Icc]
  constructor
  · rintro ⟨h2v, hv⟩
    obtain ⟨i, hi, j, hj, hcell⟩ := (mem_rowMajor_iff_cell h1 h2).mp hv
    have hb := h7 (i, j) (mem_cellIndices.mpr ⟨hi, hj⟩)
    refine ⟨by omega, ?_⟩
    rw [← hcell]
    exact hb.2
  · rintro ⟨h3v, hvM⟩
    have hvN : v.toNat ∈ List.range' 2 (maxB - 1) := by
      rw [List.mem_range'_1]
      omega
    obtain ⟨w, hw, hweq⟩ := h8 v.toNat hvN
    have hwv : w = v := by rw [hweq]; omega
    exact ⟨by omega, hwv ▸ hw⟩

/-- Under well-formedness exactly `max_block_num - 2` distinct labels
`> 2` are seen by the remap-plan scan. -/
theorem scanSeen_length_wf {H W maxB : Nat} {b : Board}
    (hwf : wfBoard H W maxB b = true) :
    (scanSeen b).length = maxB - 2 := by
  have hcard : (scanSeen b).toFinset.card = (scanSeen b).length :=
    List.toFinset_card_of_nodup (scanSeen_nodup b)
  rw [scanSeen_toFinset_wf hwf] at hcard
  rw [← hcard, Int.card_Icc]
  omega

/-- Every label `3 .. max_block_num` is hit by the remap table of a
well-formed board. -/
theorem remap_surj_wf {H W maxB : Nat} {b : Board}
    (hwf : wfBoard H W maxB b = true) (T : Int) (h3T : 3 ≤ T)
    (hTM : T ≤ (maxB : Int)) :
    ∃ v ∈ scanSeen b, remapOf b v = T := by
  have hlen := scanSeen_length_wf hwf
  have hk : ∃ k : Nat, k < maxB - 2 ∧ T = 3 + (k : Int) :=
    ⟨(T - 3).toNat, by omega, by omega⟩
  obtain ⟨k, hkM, hkT⟩ := hk
  have hmem : T ∈ (scanSeen b).map (remapOf b) := by
    rw [map_remapOf_scanSeen b, hlen, List.mem_map]
    exact ⟨k, List.mem_range.mpr hkM, hkT.symm⟩
  obtain ⟨v, hv, hveq⟩ := List.mem_map.mp hmem
  exact ⟨v, hv, hveq⟩

/-- Normalization keeps a board well-formed. -/
theorem wf_normalizeState {H W maxB : Nat} {b : Board}
    (hwf : wfBoard H W maxB b = true) :
    wfBoard H W maxB (normalizeState b) = true := by
  obtain ⟨h1, h2, h3, h4, h5, h6, h7, h8⟩ := wfBoard_iff.mp hwf
  have hlen' : (normalizeState b).length = H := by
    rw [normalizeState_eq_mapBoard, length_mapBoard, h1]
  have hrows' : ∀ row ∈ normalizeState b, row.length = W := by
    apply rows_length_of_getD
    intro i hi
    rw [hlen'] at hi
    rw [normalizeState_eq_mapBoard, row_length_mapBoard]
    exact wfBoard_row_length hwf hi
  rw [wfBoard_iff]
  refine ⟨hlen', hrows', h3, h4, h5, ?_, ?_, ?_⟩
  · intro p hp hcase
    rw [cell_normalizeState]
    have hb := h6 p hp hcase
    rw [hb]
    norm_num
  · intro p hp
    rw [cell_normalizeState]
    by_cases h2v : 2 < cell b p.1 p.2
    · rw [if_pos h2v]
      have hvmem : cell b p.1 p.2 ∈ scanSeen b := by
        rw [scanSeen_mem]
        refine ⟨h2v, ?_⟩
        obtain ⟨hpH, hpW⟩ := mem_cellIndices.mp hp
        rw [mem_rowMajor_iff_cell h1 h2]
        exact ⟨p.1, hpH, p.2, hpW, rfl⟩
      have hidx : (scanSeen b).indexOf (cell b p.1 p.2) < (scanSeen b).length :=
        List.indexOf_lt_length.mpr hvmem
      have hlen := scanSeen_length_wf hwf
      unfold remapOf
      constructor <;> omega
    · rw [if_neg h2v]
      exact h7 p hp
  · intro L hL
    have hLrange : 2 ≤ L ∧ L < 2 + (maxB - 1) := by
      simpa [List.mem_range'_1] using hL
    by_cases hL2 : L = 2
    · obtain ⟨v, hv, hveq⟩ := h8 L hL
      rw [hveq] at hv
      obtain ⟨i, hi, j, hj, hcell⟩ := (mem_rowMajor_iff_cell h1 h2).mp hv
      refine ⟨((L : Nat) : Int), ?_, rfl⟩
      rw [mem_rowMajor_iff_cell hlen' hrows']
      refine ⟨i, hi, j, hj, ?_⟩
      rw [cell_normalizeState, hcell, if_neg (by omega : ¬ (2 : Int) < ((L : Nat) : Int))]
    · have h3L : 3 ≤ L := by omega
      obtain ⟨v, hvS, hveq⟩ :=
        remap_surj_wf hwf ((L : Nat) : Int) (by omega) (by omega)
      obtain ⟨h2v, hvr⟩ := scanSeen_mem.mp hvS
      obtain ⟨i, hi, j, hj, hcell⟩ := (mem_rowMajor_iff_cell h1 h2).mp hvr
      refine ⟨((L : Nat) : Int), ?_, rfl⟩
      rw [mem_rowMajor_iff_cell hlen' hrows']
      refine ⟨i, hi, j, hj, ?_⟩
      rw [cell_normalizeState, hcell, if_pos h2v]
      exact hveq

/-- Every successor the drivers generate from a well-formed board is
well-formed. -/
theorem wf_succsOf {H W maxB : Nat} {b s : Board}
    (hwf : wfBoard H W maxB b = true) (hs : s ∈ succsOf H W maxB b) :
    wfBoard H W maxB s = true := by
  unfold succsOf at hs
  obtain ⟨m, hm, hseq⟩ := List.mem_map.mp hs
  rw [← hseq]
  unfold applyMoveCloning
  rw [cloneGameState_eq]
  exact wf_normalizeState (wf_applyMove hwf hm)

/-! ### C2: relabeling equivariance of the game moves -/

/-- Rows of a relabeled board, including the out-of-range default. -/
theorem getD_mapBoard (σ : Int → Int) (a : Board) (i : Nat) :
    (mapBoard σ a).getD i [] = (a.getD i []).map σ := by
  by_cases hi : i < a.length
  · have hi' : i < (mapBoard σ a).length := by rw [length_mapBoard]; exact hi
    rw [List.getD_eq_getElem _ [] hi', List.getD_eq_getElem _ [] hi]
    simp [mapBoard]
  · have hle : a.length ≤ i := Nat.le_of_not_lt hi
    have hle' : (mapBoard σ a).length ≤ i := by rw [length_mapBoard]; exact hle
    rw [List.getD_eq_default _ _ hle', List.getD_eq_default _ _ hle]
    rfl

/-- `cell` over a relabeled board, unconditionally (the relabeling fixes
the out-of-bounds default `0`). -/
theorem cell_mapBoard_all (σ : Int → Int) (h0 : σ 0 = 0) (b : Board) (i j : Nat) :
    cell (mapBoard σ b) i j = σ (cell b i j) := by
  unfold cell
  rw [getD_mapBoard]
  by_cases hj : j < (b.getD i []).length
  · have hj' : j < ((b.getD i []).map σ).length := by rw [List.length_map]; exact hj
    rw [List.getD_eq_getElem _ 0 hj', List.getD_eq_getElem _ 0 hj]
    simp
  · have hle : (b.getD i []).length ≤ j := Nat.le_of_not_lt hj
    have hle' : ((b.getD i []).map σ).length ≤ j := by rw [List.length_map]; exact hle
    rw [List.getD_eq_default _ _ hle', List.getD_eq_default _ _ hle, h0]

/-- Writing one relabeled cell commutes with relabeling the board. -/
theorem setCell_mapBoard (σ : Int → Int) (a : Board) (i j : Nat) (v : Int) :
    setCell (mapBoard σ a) i j (σ v) = mapBoard σ (setCell a i j v) := by
  show (mapBoard σ a).set i (((mapBoard σ a).getD i []).set j (σ v)) =
    mapBoard σ (a.set i ((a.getD i []).set j v))
  have h2 : mapBoard σ (a.set i ((a.getD i []).set j v)) =
      (mapBoard σ a).set i (((a.getD i []).set j v).map σ) := by
    unfold mapBoard
    rw [List.map_set]
  rw [h2, getD_mapBoard, List.map_set]

/-- Clearing the relabeled block commutes with relabeling. -/
theorem clearBlock_mapBoard (σ : Int → Int) (hinj : Function.Injective σ)
    (h0 : σ 0 = 0) (b : Board) (L : Int) :
    clearBlock (mapBoard σ b) (σ L) = mapBoard σ (clearBlock b L) := by
  rw [clearBlock_eq_mapBoard, clearBlock_eq_mapBoard, mapBoard_comp, mapBoard_comp]
  apply mapBoard_congr_mem
  intro v _
  by_cases h : v = L
  · subst h
    simp [h0]
  · have hne : ¬ σ v = σ L := fun he => h (hinj he)
    simp [h, hne]

/-- `applyMove` commutes with an injective relabeling fixing `0`. -/
theorem applyMove_mapBoard (H W : Nat) (σ : Int → Int) (hinj : Function.Injective σ)
    (h0 : σ 0 = 0) (b : Board) (L : Int) (d : Move_Direction) :
    applyMove H W (mapBoard σ b) ⟨σ L, d⟩ = mapBoard σ (applyMove H W b ⟨L, d⟩) := by
  have hcond : ∀ p : Nat × Nat,
      (cell (mapBoard σ b) p.1 p.2 == σ L) = (cell b p.1 p.2 == L) := by
    intro p
    rw [cell_mapBoard_all σ h0 b p.1 p.2]
    by_cases h : cell b p.1 p.2 = L
    · rw [h]
      simp
    · have hne : ¬ σ (cell b p.1 p.2) = σ L := fun he => h (hinj he)
      simp [h, hne]
  have hfold : ∀ (l : List (Nat × Nat)) (a : Board),
      l.foldl (fun acc p =>
        if cell (mapBoard σ b) p.1 p.2 == σ L then
          setCell acc (shiftTarget d p).1 (shiftTarget d p).2 (σ L)
        else acc) (mapBoard σ a) =
      mapBoard σ (l.foldl (fun acc p =>
        if cell b p.1 p.2 == L then
          setCell acc (shiftTarget d p).1 (shiftTarget d p).2 L
        else acc) a) := by
    intro l
    induction l with
    | nil => intro a; rfl
    | cons p l ih =>
      intro a
      rw [List.foldl_cons, List.foldl_cons, hcond p]
      by_cases hc : (cell b p.1 p.2 == L) = true
      · rw [if_pos hc, if_pos hc, setCell_mapBoard]
        exact ih _
      · rw [if_neg hc, if_neg hc]
        exact ih a
  show (cellIndices H W).foldl (fun acc p =>
      if cell (mapBoard σ b) p.1 p.2 == σ L then
        setCell acc (shiftTarget d p).1 (shiftTarget d p).2 (σ L)
      else acc) (clearBlock (mapBoard σ b) (σ L)) =
    mapBoard σ ((cellIndices H W).foldl (fun acc p =>
      if cell b p.1 p.2 == L then
        setCell acc (shiftTarget d p).1 (shiftTarget d p).2 L
      else acc) (clearBlock b L))
  rw [clearBlock_mapBoard σ hinj h0]
  exact hfold (cellIndices H W) (clearBlock b L)

/-- Solvedness is invariant under an injective relabeling fixing `-1`. -/
theorem checkGameComplete_mapBoard (σ : Int → Int) (hinj : Function.Injective σ)
    (hneg : σ (-1) = -1) (b : Board) :
    checkGameComplete (mapBoard σ b) = checkGameComplete b := by
  unfold checkGameComplete
  rw [rowMajor_mapBoard, List.all_map]
  congr 1
  funext v
  show (σ v != -1) = (v != -1)
  by_cases h : v = -1
  · subst h
    rw [hneg]
  · have hne : ¬ σ v = -1 := fun he => h (hinj (he.trans hneg.symm))
    have ha : (σ v != -1) = true := bne_iff_ne.mpr hne
    have hb : (v != -1) = true := bne_iff_ne.mpr h
    rw [ha, hb]

/-- Passability is invariant under relabeling. -/
theorem specPassable_mapBoard (σ : Int → Int) (hinj : Function.Injective σ)
    (hfix : ∀ v, v ≤ 2 → σ v = v) (b : Board) (L : Int) (i j : Nat) :
    specPassable (mapBoard σ b) (σ L) i j ↔ specPassable b L i j := by
  have h0 : σ 0 = 0 := hfix 0 (by norm_num)
  have h2 : σ 2 = 2 := hfix 2 (by norm_num)
  have hn : σ (-1) = -1 := hfix (-1) (by norm_num)
  unfold specPassable
  rw [cell_mapBoard_all σ h0 b i j]
  have e0 : σ (cell b i j) = 0 ↔ cell b i j = 0 :=
    ⟨fun h => hinj (h.trans h0.symm), fun h => by rw [h, h0]⟩
  have eL : σ (cell b i j) = σ L ↔ cell b i j = L :=
    ⟨fun h => hinj h, fun h => by rw [h]⟩
  have e2 : σ L = 2 ↔ L = 2 :=
    ⟨fun h => hinj (h.trans h2.symm), fun h => by rw [h, h2]⟩
  have en : σ (cell b i j) = -1 ↔ cell b i j = -1 :=
    ⟨fun h => hinj (h.trans hn.symm), fun h => by rw [h, hn]⟩
  rw [e0, eL, e2, en]

/-- One-step freedom is invariant under relabeling. -/
theorem specFree_mapBoard (σ : Int → Int) (hinj : Function.Injective σ)
    (hfix : ∀ v, v ≤ 2 → σ v = v) (H W : Nat) (b : Board) (L : Int)
    (d : Move_Direction) (i j : Nat) :
    specFree H W (mapBoard σ b) (σ L) d i j ↔ specFree H W b L d i j := by
  cases d <;> simp only [specFree] <;>
    rw [specPassable_mapBoard σ hinj hfix]

/-- Move legality is invariant under relabeling. -/
theorem specLegal_mapBoard (σ : Int → Int) (hinj : Function.Injective σ)
    (hfix : ∀ v, v ≤ 2 → σ v = v) (H W : Nat) (b : Board) (L : Int)
    (d : Move_Direction) :
    specLegal H W (mapBoard σ b) (σ L) d ↔ specLegal H W b L d := by
  have h0 : σ 0 = 0 := hfix 0 (by norm_num)
  unfold specLegal
  constructor
  · intro h i hi j hj hc
    have hfree := h i hi j hj (by rw [cell_mapBoard_all σ h0 b i j, hc])
    exact (specFree_mapBoard σ hinj hfix H W b L d i j).mp hfree
  · intro h i hi j hj hc
    rw [cell_mapBoard_all σ h0 b i j] at hc
    exact (specFree_mapBoard σ hinj hfix H W b L d i j).mpr (h i hi j hj (hinj hc))

/-- The enumerated moves of a relabeled board are the relabeled moves,
when the relabeling respects the movable-label window. -/
theorem mem_moves_mapBoard {H W maxB : Nat} (hmB : 2 ≤ maxB) (σ : Int → Int)
    (hinj : Function.Injective σ) (hfix : ∀ v, v ≤ 2 → σ v = v)
    (hIcc : ∀ v, (3 ≤ v ∧ v ≤ (maxB : Int)) ↔ (3 ≤ σ v ∧ σ v ≤ (maxB : Int)))
    (b : Board) (L : Int) (d : Move_Direction) :
    (⟨σ L, d⟩ : MOVE) ∈ getAllAvailableMoves H W maxB (mapBoard σ b) ↔
      (⟨L, d⟩ : MOVE) ∈ getAllAvailableMoves H W maxB b := by
  rw [mem_getAllAvailableMoves, mem_getAllAvailableMoves]
  have h2 : σ 2 = 2 := hfix 2 (by norm_num)
  have hrange : (2 ≤ σ L ∧ σ L ≤ (maxB : Int)) ↔ (2 ≤ L ∧ L ≤ (maxB : Int)) := by
    constructor
    · rintro ⟨ha, hb⟩
      by_cases h3 : 3 ≤ σ L
      · have := (hIcc L).mpr ⟨h3, hb⟩
        omega
      · have hσ2 : σ L = 2 := by omega
        have hL2 : L = 2 := hinj (hσ2.trans h2.symm)
        constructor <;> omega
    · rintro ⟨ha, hb⟩
      by_cases h3 : 3 ≤ L
      · have := (hIcc L).mp ⟨h3, hb⟩
        omega
      · have hL2 : L = 2 := by omega
        rw [hL2, h2]
        constructor <;> omega
  show (2 ≤ σ L ∧ σ L ≤ (maxB : Int) ∧ specLegal H W (mapBoard σ b) (σ L) d) ↔
    (2 ≤ L ∧ L ≤ (maxB : Int) ∧ specLegal H W b L d)
  rw [specLegal_mapBoard σ hinj hfix H W b L d]
  constructor
  · rintro ⟨ha, hb, hc⟩
    exact ⟨(hrange.mp ⟨ha, hb⟩).1, (hrange.mp ⟨ha, hb⟩).2, hc⟩
  · rintro ⟨ha, hb, hc⟩
    exact ⟨(hrange.mpr ⟨ha, hb⟩).1, (hrange.mpr ⟨ha, hb⟩).2, hc⟩

/-- Exact-`n` solvability is invariant under a relabeling that fixes the
labels `≤ 2` and respects the movable-label window. -/
theorem solvableInN_mapBoard {H W maxB : Nat} (hmB : 2 ≤ maxB) (σ : Int → Int)
    (hinj : Function.Injective σ) (hfix : ∀ v, v ≤ 2 → σ v = v)
    (hIcc : ∀ v, (3 ≤ v ∧ v ≤ (maxB : Int)) ↔ (3 ≤ σ v ∧ σ v ≤ (maxB : Int)))
    (hsurj : ∀ T, 3 ≤ T → T ≤ (maxB : Int) →
      ∃ v, (3 ≤ v ∧ v ≤ (maxB : Int)) ∧ σ v = T) :
    ∀ (n : Nat) (b : Board),
      SolvableInN H W maxB n (mapBoard σ b) ↔ SolvableInN H W maxB n b := by
  intro n
  induction n with
  | zero =>
    intro b
    show checkGameComplete (mapBoard σ b) = true ↔ checkGameComplete b = true
    rw [checkGameComplete_mapBoard σ hinj (hfix (-1) (by norm_num))]
  | succ n ih =>
    intro b
    show (∃ m ∈ getAllAvailableMoves H W maxB (mapBoard σ b),
        SolvableInN H W maxB n (applyMove H W (mapBoard σ b) m)) ↔
      (∃ m ∈ getAllAvailableMoves H W maxB b,
        SolvableInN H W maxB n (applyMove H W b m))
    constructor
    · rintro ⟨m, hm, hsolv⟩
      obtain ⟨h2m, hmM, -⟩ := mem_getAllAvailableMoves.mp hm
      have hpre : ∃ L, σ L = m.block_num := by
        by_cases h3 : 3 ≤ m.block_num
        · obtain ⟨v, hv, hveq⟩ := hsurj m.block_num h3 hmM
          exact ⟨v, hveq⟩
        · refine ⟨2, ?_⟩
          have hm2 : m.block_num = 2 := by omega
          rw [hfix 2 (by norm_num), hm2]
      obtain ⟨L, hLσ⟩ := hpre
      have hmeq : (⟨σ L, m.direction⟩ : MOVE) = m := by rw [hLσ]
      rw [← hmeq] at hsolv hm
      have hmemb := (mem_moves_mapBoard hmB σ hinj hfix hIcc b L m.direction).mp hm
      rw [applyMove_mapBoard H W σ hinj (hfix 0 (by norm_num)) b L m.direction] at hsolv
      exact ⟨⟨L, m.direction⟩, hmemb, (ih _).mp hsolv⟩
    · rintro ⟨m, hm, hsolv⟩
      have hm' :=
        (mem_moves_mapBoard hmB σ hinj hfix hIcc b m.block_num m.direction).mpr hm
      refine ⟨⟨σ m.block_num, m.direction⟩, hm', ?_⟩
      rw [applyMove_mapBoard H W σ hinj (hfix 0 (by norm_num)) b m.block_num m.direction]
      exact (ih _).mpr hsolv

/-! ### C2: normalization preserves exact solvability -/

/-- On a well-formed board the scan list holds exactly the labels
`3 .. max_block_num`. -/
theorem mem_scanSeen_wf {H W maxB : Nat} {b : Board}
    (hwf : wfBoard H W maxB b = true) {v : Int} :
    v ∈ scanSeen b ↔ (3 ≤ v ∧ v ≤ (maxB : Int)) := by
  rw [← List.mem_toFinset, scanSeen_toFinset_wf hwf, Finset.mem_Icc]

/-- The remap table sends seen labels into the movable-label window. -/
theorem remapOf_mem_Icc_wf {H W maxB : Nat} {b : Board}
    (hwf : wfBoard H W maxB b = true) {v : Int} (hv : v ∈ scanSeen b) :
    3 ≤ remapOf b v ∧ remapOf b v ≤ (maxB : Int) := by
  have hidx : (scanSeen b).indexOf v < (scanSeen b).length :=
    List.indexOf_lt_length.mpr hv
  have hlen := scanSeen_length_wf hwf
  have h5 : 2 ≤ maxB := (wfBoard_iff.mp hwf).2.2.2.2.1
  unfold remapOf
  constructor <;> omega

/-- Every label of a well-formed board lies in `-1 .. max_block_num`. -/
theorem rowMajor_bounds_wf {H W maxB : Nat} {b : Board}
    (hwf : wfBoard H W maxB b = true) {v : Int} (hv : v ∈ rowMajor b) :
    -1 ≤ v ∧ v ≤ (maxB : Int) := by
  obtain ⟨h1, h2, h3, h4, h5, h6, h7, h8⟩ := wfBoard_iff.mp hwf
  obtain ⟨i, hi, j, hj, hcell⟩ := (mem_rowMajor_iff_cell h1 h2).mp hv
  have hb := h7 (i, j) (mem_cellIndices.mpr ⟨hi, hj⟩)
  rw [← hcell]
  exact hb

/-- The normalization of a well-formed board is realized by a relabeling
that fixes the labels `≤ 2` and permutes the movable-label window. -/
theorem sigma_norm_exists {H W maxB : Nat} {b : Board}
    (hwf : wfBoard H W maxB b = true) :
    ∃ σ : Int → Int, Function.Injective σ ∧ (∀ v, v ≤ 2 → σ v = v) ∧
      (∀ v, (3 ≤ v ∧ v ≤ (maxB : Int)) ↔ (3 ≤ σ v ∧ σ v ≤ (maxB : Int))) ∧
      (∀ T, 3 ≤ T → T ≤ (maxB : Int) →
        ∃ v, (3 ≤ v ∧ v ≤ (maxB : Int)) ∧ σ v = T) ∧
      mapBoard σ b = normalizeState b := by
  refine ⟨fun v => if 3 ≤ v ∧ v ≤ (maxB : Int) then remapOf b v else v,
    ?_, ?_, ?_, ?_, ?_⟩
  · intro u w huw
    simp only at huw
    by_cases hu : 3 ≤ u ∧ u ≤ (maxB : Int) <;> by_cases hw : 3 ≤ w ∧ w ≤ (maxB : Int)
    · rw [if_pos hu, if_pos hw] at huw
      have hus : u ∈ scanSeen b := (mem_scanSeen_wf hwf).mpr hu
      have hws : w ∈ scanSeen b := (mem_scanSeen_wf hwf).mpr hw
      unfold remapOf at huw
      have hidx : (scanSeen b).indexOf u = (scanSeen b).indexOf w := by omega
      exact (List.indexOf_inj hus hws).mp hidx
    · rw [if_pos hu, if_neg hw] at huw
      have hmem := remapOf_mem_Icc_wf hwf ((mem_scanSeen_wf hwf).mpr hu)
      rw [huw] at hmem
      exact absurd hmem hw
    · rw [if_neg hu, if_pos hw] at huw
      have hmem := remapOf_mem_Icc_wf hwf ((mem_scanSeen_wf hwf).mpr hw)
      rw [← huw] at hmem
      exact absurd hmem hu
    · rwa [if_neg hu, if_neg hw] at huw
  · intro v hv
    simp only
    rw [if_neg (by omega : ¬ (3 ≤ v ∧ v ≤ (maxB : Int)))]
  · intro v
    simp only
    constructor
    · intro hv
      rw [if_pos hv]
      exact remapOf_mem_Icc_wf hwf ((mem_scanSeen_wf hwf).mpr hv)
    · intro hσ
      by_contra hv
      rw [if_neg hv] at hσ
      exact hv hσ
  · intro T h3T hTM
    obtain ⟨v, hvS, hveq⟩ := remap_surj_wf hwf T h3T hTM
    have hv : 3 ≤ v ∧ v ≤ (maxB : Int) := (mem_scanSeen_wf hwf).mp hvS
    exact ⟨v, hv, by simp only; rw [if_pos hv]; exact hveq⟩
  · rw [normalizeState_eq_mapBoard]
    apply mapBoard_congr_mem
    intro v hv
    by_cases h2v : 2 < v
    · have hb := rowMajor_bounds_wf hwf hv
      rw [if_pos (⟨by omega, hb.2⟩ : 3 ≤ v ∧ v ≤ (maxB : Int)), if_pos h2v]
    · rw [if_neg (by omega : ¬ (3 ≤ v ∧ v ≤ (maxB : Int))), if_neg h2v]

/-- Normalization does not change the exact number of moves needed to
solve a well-formed board. -/
theorem solvable_normalizeState {H W maxB : Nat} {b : Board}
    (hwf : wfBoard H W maxB b = true) (n : Nat) :
    SolvableInN H W maxB n (normalizeState b) ↔ SolvableInN H W maxB n b := by
  obtain ⟨σ, hinj, hfix, hIcc, hsurj, hmap⟩ := sigma_norm_exists hwf
  have h5 : 2 ≤ maxB := (wfBoard_iff.mp hwf).2.2.2.2.1
  rw [← hmap]
  exact solvableInN_mapBoard h5 σ hinj hfix hIcc hsurj n b

/-- The search graph the drivers walk reaches a goal in `n` steps iff
the raw game does: normalization neither creates nor destroys paths. -/
theorem sgoal_iff_solvable {H W maxB : Nat} :
    ∀ (n : Nat) (b : Board), wfBoard H W maxB b = true →
      (SGoal H W maxB n b ↔ SolvableInN H W maxB n b) := by
  intro n
  induction n with
  | zero =>
    intro b _
    exact Iff.rfl
  | succ n ih =>
    intro b hwf
    show (∃ s ∈ succsOf H W maxB b, SGoal H W maxB n s) ↔
      (∃ m ∈ getAllAvailableMoves H W maxB b,
        SolvableInN H W maxB n (applyMove H W b m))
    constructor
    · rintro ⟨s, hs, hgoal⟩
      have hwfs : wfBoard H W maxB s = true := wf_succsOf hwf hs
      unfold succsOf at hs
      obtain ⟨m, hm, hseq⟩ := List.mem_map.mp hs
      have hclone : applyMoveCloning H W b m = applyMove H W b m := by
        unfold applyMoveCloning
        rw [cloneGameState_eq]
      have hwfa : wfBoard H W maxB (applyMove H W b m) = true := wf_applyMove hwf hm
      have hg : SolvableInN H W maxB n s := (ih s hwfs).mp hgoal
      rw [← hseq, hclone] at hg
      exact ⟨m, hm, (solvable_normalizeState hwfa n).mp hg⟩
    · rintro ⟨m, hm, hsolv⟩
      refine ⟨normalizeState (applyMoveCloning H W b m), ?_, ?_⟩
      · unfold succsOf
        exact List.mem_map.mpr ⟨m, hm, rfl⟩
      · have hclone : applyMoveCloning H W b m = applyMove H W b m := by
          unfold applyMoveCloning
          rw [cloneGameState_eq]
        rw [hclone]
        have hwfa : wfBoard H W maxB (applyMove H W b m) = true := wf_applyMove hwf hm
        exact (ih _ (wf_normalizeState hwfa)).mpr
          ((solvable_normalizeState hwfa n).mpr hsolv)

/-! ### C2: the visited-state key determines a well-formed board -/

theorem getStateHashKey_eq_map (H W : Nat) (b : Board) :
    getStateHashKey H W b = (interiorIdx H W).map (fun p => cell b p.1 p.2) := by
  unfold getStateHashKey interiorIdx
  rw [List.map_flatMap]
  congr 1
  funext i
  rw [List.map_map]
  rfl

theorem mem_interiorIdx {H W : Nat} {p : Nat × Nat} :
    p ∈ interiorIdx H W ↔
      (1 ≤ p.1 ∧ p.1 < 1 + (H - 2)) ∧ (1 ≤ p.2 ∧ p.2 < 1 + (W - 2)) := by
  cases p with
  | mk i j =>
    simp only [interiorIdx, List.mem_flatMap, List.mem_map, List.mem_range'_1]
    constructor
    · rintro ⟨i', hi', j', hj', heq⟩
      obtain ⟨hi1, hj1⟩ := Prod.mk.injEq .. ▸ heq
      exact ⟨by omega, by omega⟩
    · rintro ⟨⟨hi1, hi2⟩, hj1, hj2⟩
      exact ⟨i, ⟨hi1, hi2⟩, j, ⟨hj1, hj2⟩, rfl⟩

theorem length_interiorIdx (H W : Nat) :
    (interiorIdx H W).length = (H - 2) * (W - 2) := by
  unfold interiorIdx
  rw [List.length_flatMap]
  have h : List.map (List.length ∘ fun i => (List.range' 1 (W - 2)).map (fun j => (i, j)))
      (List.range' 1 (H - 2)) = List.map (fun _ => W - 2) (List.range' 1 (H - 2)) := by
    apply List.map_congr_left
    intro i _
    show ((List.range' 1 (W - 2)).map (fun j => (i, j))).length = W - 2
    rw [List.length_map, List.length_range']
  rw [h, List.map_const', List.sum_replicate, smul_eq_mul, List.length_range']

/-- Two boards of the same well-formed layout with equal cells are equal. -/
theorem board_ext {H W : Nat} {a b : Board} (ha1 : a.length = H)
    (ha2 : ∀ row ∈ a, row.length = W) (hb1 : b.length = H)
    (hb2 : ∀ row ∈ b, row.length = W)
    (hc : ∀ i, i < H → ∀ j, j < W → cell a i j = cell b i j) : a = b := by
  apply List.ext_getElem
  · rw [ha1, hb1]
  · intro i h1 h2
    apply List.ext_getElem
    · rw [ha2 _ (List.getElem_mem h1), hb2 _ (List.getElem_mem h2)]
    · intro j hj1 hj2
      have hiH : i < H := ha1 ▸ h1
      have hjW : j < W := (ha2 _ (List.getElem_mem h1)) ▸ hj1
      have hcell := hc i hiH j hjW
      unfold cell at hcell
      rw [List.getD_eq_getElem _ [] h1, List.getD_eq_getElem _ [] h2,
        List.getD_eq_getElem _ 0 hj1, List.getD_eq_getElem _ 0 hj2] at hcell
      exact hcell

/-- On well-formed boards `getStateHashKey` is injective: equal keys
mean equal boards (the borders agree, being all wall). -/
theorem key_inj_wf {H W maxB : Nat} {a b : Board}
    (hwa : wfBoard H W maxB a = true) (hwb : wfBoard H W maxB b = true)
    (hk : getStateHashKey H W a = getStateHashKey H W b) : a = b := by
  obtain ⟨ha1, ha2, h3, h4, h5, ha6, -, -⟩ := wfBoard_iff.mp hwa
  obtain ⟨hb1, hb2, -, -, -, hb6, -, -⟩ := wfBoard_iff.mp hwb
  rw [getStateHashKey_eq_map, getStateHashKey_eq_map] at hk
  have hpt : ∀ p ∈ interiorIdx H W, cell a p.1 p.2 = cell b p.1 p.2 :=
    fun p hp => List.map_inj_left.mp hk p hp
  apply board_ext ha1 ha2 hb1 hb2
  intro i hi j hj
  by_cases hedge : i = 0 ∨ i = H - 1 ∨ j = 0 ∨ j = W - 1
  · have h6a := ha6 (i, j) (mem_cellIndices.mpr ⟨hi, hj⟩) hedge
    have h6b := hb6 (i, j) (mem_cellIndices.mpr ⟨hi, hj⟩) hedge
    exact h6a.trans h6b.symm
  · push_neg at hedge
    obtain ⟨e1, e2, e3, e4⟩ := hedge
    have hp : (i, j) ∈ interiorIdx H W := by
      rw [mem_interiorIdx]
      constructor
      · constructor <;> omega
      · constructor <;> omega
    exact hpt (i, j) hp

/-- The key of a well-formed board has the interior length and bounded
entries. -/
theorem key_bounds_wf {H W maxB : Nat} {b : Board}
    (hwf : wfBoard H W maxB b = true) :
    (getStateHashKey H W b).length = (H - 2) * (W - 2) ∧
    ∀ v ∈ getStateHashKey H W b, -1 ≤ v ∧ v ≤ (maxB : Int) := by
  constructor
  · rw [getStateHashKey_eq_map, List.length_map, length_interiorIdx]
  · intro v hv
    rw [getStateHashKey_eq_map, List.mem_map] at hv
    obtain ⟨p, hp, hveq⟩ := hv
    obtain ⟨⟨hp1, hp1'⟩, hp2, hp2'⟩ := mem_interiorIdx.mp hp
    obtain ⟨-, -, h3, h4, -, -, h7, -⟩ := wfBoard_iff.mp hwf
    have hiH : p.1 < H := by omega
    have hjW : p.2 < W := by omega
    rw [← hveq]
    exact h7 p (mem_cellIndices.mpr ⟨hiH, hjW⟩)

/-! ### C2: counting visited-state keys -/

theorem encodeKey_lt (maxB : Nat) :
    ∀ l : List Int, (∀ v ∈ l, -1 ≤ v ∧ v ≤ (maxB : Int)) →
      encodeKey maxB l < (maxB + 2) ^ l.length := by
  intro l
  induction l with
  | nil =>
    intro _
    show 0 < (maxB + 2) ^ 0
    norm_num
  | cons v rest ih =>
    intro hb
    have hv := hb v (List.mem_cons_self v rest)
    have hvn : (v + 1).toNat < maxB + 2 := by omega
    have ih' := ih (fun x hx => hb x (List.mem_cons_of_mem _ hx))
    show (v + 1).toNat + (maxB + 2) * encodeKey maxB rest < (maxB + 2) ^ (rest.length + 1)
    calc (v + 1).toNat + (maxB + 2) * encodeKey maxB rest
        < (maxB + 2) + (maxB + 2) * encodeKey maxB rest := by omega
      _ = (maxB + 2) * (encodeKey maxB rest + 1) := by ring
      _ ≤ (maxB + 2) * (maxB + 2) ^ rest.length := Nat.mul_le_mul_left _ ih'
      _ = (maxB + 2) ^ (rest.length + 1) := by ring

theorem encodeKey_inj (maxB : Nat) :
    ∀ l1 l2 : List Int, l1.length = l2.length →
      (∀ v ∈ l1, -1 ≤ v ∧ v ≤ (maxB : Int)) →
      (∀ v ∈ l2, -1 ≤ v ∧ v ≤ (maxB : Int)) →
      encodeKey maxB l1 = encodeKey maxB l2 → l1 = l2 := by
  intro l1
  induction l1 with
  | nil =>
    intro l2 hlen _ _ _
    cases l2 with
    | nil => rfl
    | cons _ _ => simp at hlen
  | cons v rest ih =>
    intro l2 hlen hb1 hb2 henc
    cases l2 with
    | nil => simp at hlen
    | cons w rest2 =>
      have hv := hb1 v (List.mem_cons_self v rest)
      have hw := hb2 w (List.mem_cons_self w rest2)
      have hvn : (v + 1).toNat < maxB + 2 := by omega
      have hwn : (w + 1).toNat < maxB + 2 := by omega
      simp only [encodeKey] at henc
      have hmod : (v + 1).toNat = (w + 1).toNat := by
        have h1 : ((v + 1).toNat + (maxB + 2) * encodeKey maxB rest) % (maxB + 2) =
            (v + 1).toNat := by
          rw [Nat.add_mul_mod_self_left, Nat.mod_eq_of_lt hvn]
        have h2 : ((w + 1).toNat + (maxB + 2) * encodeKey maxB rest2) % (maxB + 2) =
            (w + 1).toNat := by
          rw [Nat.add_mul_mod_self_left, Nat.mod_eq_of_lt hwn]
        rw [← h1, henc, h2]
      have hveq : v = w := by omega
      rw [hmod] at henc
      have hmul := Nat.add_left_cancel henc
      have henc2 : encodeKey maxB rest = encodeKey maxB rest2 :=
        Nat.eq_of_mul_eq_mul_left (by omega) hmul
      have hlen2 : rest.length = rest2.length := by
        simpa using hlen
      have hrest := ih rest2 hlen2 (fun x hx => hb1 x (List.mem_cons_of_mem _ hx))
        (fun x hx => hb2 x (List.mem_cons_of_mem _ hx)) henc2
      rw [hveq, hrest]

/-- A duplicate-free table of well-formed-board keys has at most
`tableBound` entries. -/
theorem keys_length_le {H W maxB : Nat} {t : HashTable}
    (hnd : (keysOf t).Nodup)
    (hkeys : ∀ k ∈ keysOf t, k.length = (H - 2) * (W - 2) ∧
      ∀ v ∈ k, -1 ≤ v ∧ v ≤ (maxB : Int)) :
    (keysOf t).length ≤ tableBound H W maxB := by
  have hmapnd : ((keysOf t).map (encodeKey maxB)).Nodup := by
    apply List.Nodup.map_on ?_ hnd
    intro x hx y hy hxy
    exact encodeKey_inj maxB x y ((hkeys x hx).1.trans (hkeys y hy).1.symm)
      (hkeys x hx).2 (hkeys y hy).2 hxy
  have hsub : ((keysOf t).map (encodeKey maxB)).toFinset ⊆
      Finset.range (tableBound H W maxB) := by
    intro x hx
    rw [List.mem_toFinset, List.mem_map] at hx
    obtain ⟨k, hk, hkeq⟩ := hx
    rw [Finset.mem_range, ← hkeq]
    have hb := encodeKey_lt maxB k (hkeys k hk).2
    rw [(hkeys k hk).1] at hb
    exact hb
  have hcard := Finset.card_le_card hsub
  rw [List.toFinset_card_of_nodup hmapnd, Finset.card_range, List.length_map] at hcard
  exact hcard

/-! ### C2: visited-state table access lemmas -/

theorem getHashTableValue_append_left :
    ∀ (t ext : HashTable) (k : HashKey), k ∈ keysOf t →
      getHashTableValue (t ++ ext) k = getHashTableValue t k := by
  intro t
  induction t with
  | nil =>
    intro ext k hk
    exact absurd hk (List.not_mem_nil k)
  | cons e rest ih =>
    intro ext k hk
    show (if e.1 == k then e.2 else getHashTableValue (rest ++ ext) k) =
      (if e.1 == k then e.2 else getHashTableValue rest k)
    by_cases hc : (e.1 == k) = true
    · rw [if_pos hc, if_pos hc]
    · rw [if_neg hc, if_neg hc]
      have hne : k ≠ e.1 := fun he => hc (beq_iff_eq.mpr he.symm)
      have hk' : k ∈ keysOf rest := by
        rcases List.mem_cons.mp hk with h | h
        · exact absurd h hne
        · exact h
      exact ih ext k hk'

theorem getHashTableValue_absent :
    ∀ (t : HashTable) (k : HashKey), k ∉ keysOf t → getHashTableValue t k = -1 := by
  intro t
  induction t with
  | nil => intro k _; rfl
  | cons e rest ih =>
    intro k hk
    show (if e.1 == k then e.2 else getHashTableValue rest k) = -1
    have hne : (e.1 == k) ≠ true := by
      intro hc
      exact hk (List.mem_cons.mpr (Or.inl (beq_iff_eq.mp hc).symm))
    rw [if_neg hne]
    exact ih k (fun hm => hk (List.mem_cons.mpr (Or.inr hm)))

theorem getHashTableValue_present_mem :
    ∀ (t : HashTable) (k : HashKey), k ∈ keysOf t →
      ∃ e ∈ t, e.1 = k ∧ getHashTableValue t k = e.2 := by
  intro t
  induction t with
  | nil =>
    intro k hk
    exact absurd hk (List.not_mem_nil k)
  | cons e rest ih =>
    intro k hk
    by_cases hc : (e.1 == k) = true
    · refine ⟨e, List.mem_cons_self e rest, beq_iff_eq.mp hc, ?_⟩
      show (if e.1 == k then e.2 else getHashTableValue rest k) = e.2
      rw [if_pos hc]
    · have hne : k ≠ e.1 := fun he => hc (beq_iff_eq.mpr he.symm)
      have hk' : k ∈ keysOf rest := by
        rcases List.mem_cons.mp hk with h | h
        · exact absurd h hne
        · exact h
      obtain ⟨e', he', heq, hval⟩ := ih k hk'
      refine ⟨e', List.mem_cons_of_mem e he', heq, ?_⟩
      show (if e.1 == k then e.2 else getHashTableValue rest k) = e'.2
      rw [if_neg hc]
      exact hval

theorem present_iff_nonneg (t : HashTable) (h0 : ∀ e ∈ t, 0 ≤ e.2) (k : HashKey) :
    0 ≤ getHashTableValue t k ↔ k ∈ keysOf t := by
  constructor
  · intro hv
    by_contra hk
    rw [getHashTableValue_absent t k hk] at hv
    norm_num at hv
  · intro hk
    obtain ⟨e, he, -, hval⟩ := getHashTableValue_present_mem t k hk
    rw [hval]
    exact h0 e he

theorem keysOf_append (t ext : HashTable) :
    keysOf (t ++ ext) = keysOf t ++ keysOf ext := by
  unfold keysOf
  rw [List.map_append]

/-! ### C2: optimal paths through the search graph -/

theorem sgoal_path {H W maxB : Nat} :
    ∀ {n : Nat} {b : Board}, SGoal H W maxB n b →
      ∃ p : Nat → Board, BfsPath H W maxB b n p := by
  intro n
  induction n with
  | zero =>
    intro b hg
    exact ⟨fun _ => b, rfl, fun i hi => absurd hi (Nat.not_lt_zero i), hg⟩
  | succ n ih =>
    intro b hg
    obtain ⟨s, hs, hgoal⟩ := hg
    obtain ⟨p', hp0, hpstep, hpend⟩ := ih hgoal
    refine ⟨fun i => Nat.casesOn i b (fun k => p' k), rfl, ?_, hpend⟩
    intro i hi
    cases i with
    | zero =>
      show p' 0 ∈ succsOf H W maxB b
      rw [hp0]
      exact hs
    | succ k =>
      show p' (k+1) ∈ succsOf H W maxB (p' k)
      exact hpstep k (by omega)

theorem path_reach {H W maxB : Nat} {b0 : Board} {n : Nat} {p : Nat → Board}
    (hp : BfsPath H W maxB b0 n p) :
    ∀ i, i ≤ n → SReachE H W maxB b0 i (p i) := by
  intro i
  induction i with
  | zero =>
    intro _
    show p 0 = b0
    exact hp.1
  | succ k ih =>
    intro hk
    exact ⟨p k, ih (by omega), hp.2.1 k (by omega)⟩

theorem path_wf {H W maxB : Nat} {b0 : Board} {n : Nat} {p : Nat → Board}
    (hwf0 : wfBoard H W maxB b0 = true) (hp : BfsPath H W maxB b0 n p) :
    ∀ i, i ≤ n → wfBoard H W maxB (p i) = true := by
  intro i
  induction i with
  | zero =>
    intro _
    rw [hp.1]
    exact hwf0
  | succ k ih =>
    intro hk
    exact wf_succsOf (ih (by omega)) (hp.2.1 k (by omega))

theorem reach_sgoal {H W maxB : Nat} {b0 : Board} :
    ∀ {k : Nat} {s : Board}, SReachE H W maxB b0 k s →
      ∀ {m : Nat}, SGoal H W maxB m s → SGoal H W maxB (k + m) b0 := by
  intro k
  induction k with
  | zero =>
    intro s hr m hg
    have hs : s = b0 := hr
    rw [Nat.zero_add, ← hs]
    exact hg
  | succ k ih =>
    intro s hr m hg
    obtain ⟨a, hra, hsa⟩ := hr
    have h1 : SGoal H W maxB (m+1) a := ⟨s, hsa, hg⟩
    have h2 := ih hra h1
    have he : k + (m + 1) = (k + 1) + m := by omega
    rw [he] at h2
    exact h2

theorem path_unsolved {H W maxB : Nat} {b0 : Board} {n : Nat} {p : Nat → Board}
    (hwf0 : wfBoard H W maxB b0 = true) (hmin : IsMinSolve H W maxB b0 n)
    (hp : BfsPath H W maxB b0 n p) :
    ∀ i, i < n → checkGameComplete (p i) = false := by
  intro i hi
  cases hc : checkGameComplete (p i) with
  | false => rfl
  | true =>
    exfalso
    have hr := path_reach hp i (by omega)
    have hg : SGoal H W maxB (i + 0) b0 := reach_sgoal hr hc
    rw [Nat.add_zero] at hg
    exact hmin.2 i hi ((sgoal_iff_solvable i b0 hwf0).mp hg)

theorem minsolve_pos {H W maxB : Nat} {b : Board} {n : Nat}
    (hns : checkGameComplete b = false) (hmin : IsMinSolve H W maxB b n) : 1 ≤ n := by
  by_contra h
  have hn0 : n = 0 := by omega
  rw [hn0] at hmin
  have hc : checkGameComplete b = true := hmin.1
  rw [hns] at hc
  exact Bool.false_ne_true hc

/-! ### C2: the breadth-first move loop, specified -/

theorem bfsLoop_cons (H W maxB fuel : Nat) (t : HashTable) (node : STATE_NODE)
    (q' : List STATE_NODE) :
    bfsLoop H W maxB (fuel+1) t (node :: q') =
      match bfsProcessSuccs H W t q' (node.path_cost + 1)
          (succsOf H W maxB node.board_state) with
      | (some d, _, _) => some ((d : Nat) : Int)
      | (none, t', q'') => bfsLoop H W maxB fuel t' q'' := rfl

theorem bfsProcessSuccs_cons (H W : Nat) (t : HashTable) (q : List STATE_NODE)
    (depth : Nat) (s : Board) (rest : List Board) :
    bfsProcessSuccs H W t q depth (s :: rest) =
      if checkGameComplete s then (some depth, t, q)
      else bfsProcessSuccs H W (bfsHandleSucc H W t q s depth).1
        (bfsHandleSucc H W t q s depth).2 depth rest := rfl

theorem bfsProcessSuccs_some (H W : Nat) :
    ∀ (ss : List Board) (t : HashTable) (q : List STATE_NODE) (depth : Nat)
      (r : Nat) (t' : HashTable) (q' : List STATE_NODE),
      bfsProcessSuccs H W t q depth ss = (some r, t', q') →
      r = depth ∧ ∃ s ∈ ss, checkGameComplete s = true := by
  intro ss
  induction ss with
  | nil =>
    intro t q depth r t' q' heq
    exact absurd (congrArg Prod.fst heq) (by simp [bfsProcessSuccs])
  | cons s rest ih =>
    intro t q depth r t' q' heq
    by_cases hc : checkGameComplete s = true
    · rw [bfsProcessSuccs_cons, if_pos hc] at heq
      have hr : (some depth : Option Nat) = some r := congrArg Prod.fst heq
      exact ⟨(Option.some.inj hr).symm, s, List.mem_cons_self s rest, hc⟩
    · rw [bfsProcessSuccs_cons, if_neg hc] at heq
      obtain ⟨hr, s', hs', hcs'⟩ := ih _ _ _ _ _ _ heq
      exact ⟨hr, s', List.mem_cons_of_mem s hs', hcs'⟩

theorem bfsProcessSuccs_some_of_solved (H W : Nat) :
    ∀ (ss : List Board) (t : HashTable) (q : List STATE_NODE) (depth : Nat),
      (∃ s ∈ ss, checkGameComplete s = true) →
      ∃ t' q', bfsProcessSuccs H W t q depth ss = (some depth, t', q') := by
  intro ss
  induction ss with
  | nil =>
    intro t q depth h
    obtain ⟨s, hs, -⟩ := h
    exact absurd hs (List.not_mem_nil s)
  | cons s rest ih =>
    intro t q depth h
    by_cases hc : checkGameComplete s = true
    · refine ⟨t, q, ?_⟩
      rw [bfsProcessSuccs_cons, if_pos hc]
    · obtain ⟨s', hs', hcs'⟩ := h
      have hs'' : s' ∈ rest := by
        rcases List.mem_cons.mp hs' with h' | h'
        · rw [h'] at hcs'; exact absurd hcs' hc
        · exact h'
      obtain ⟨t', q', heq⟩ := ih (bfsHandleSucc H W t q s depth).1
        (bfsHandleSucc H W t q s depth).2 depth ⟨s', hs'', hcs'⟩
      refine ⟨t', q', ?_⟩
      rw [bfsProcessSuccs_cons, if_neg hc]
      exact heq

theorem getHashTableValue_append_right :
    ∀ (t ext : HashTable) (k : HashKey), k ∉ keysOf t →
      getHashTableValue (t ++ ext) k = getHashTableValue ext k := by
  intro t
  induction t with
  | nil => intro ext k _; rfl
  | cons e rest ih =>
    intro ext k hk
    show (if e.1 == k then e.2 else getHashTableValue (rest ++ ext) k) = _
    have hne : (e.1 == k) ≠ true := by
      intro hc
      exact hk (List.mem_cons.mpr (Or.inl (beq_iff_eq.mp hc).symm))
    rw [if_neg hne]
    exact ih ext k (fun hm => hk (List.mem_cons.mpr (Or.inr hm)))

theorem getHashTableValue_const :
    ∀ (ext : HashTable) (k : HashKey) (c : Int), k ∈ keysOf ext →
      (∀ e ∈ ext, e.2 = c) → getHashTableValue ext k = c := by
  intro ext
  induction ext with
  | nil =>
    intro k c hk _
    exact absurd hk (List.not_mem_nil k)
  | cons e rest ih =>
    intro k c hk hval
    show (if e.1 == k then e.2 else getHashTableValue rest k) = c
    by_cases hc : (e.1 == k) = true
    · rw [if_pos hc]
      exact hval e (List.mem_cons_self e rest)
    · rw [if_neg hc]
      have hne : k ≠ e.1 := fun he => hc (beq_iff_eq.mpr he.symm)
      have hk' : k ∈ keysOf rest := by
        rcases List.mem_cons.mp hk with h | h
        · exact absurd h hne
        · exact h
      exact ih k c hk' (fun x hx => hval x (List.mem_cons_of_mem e hx))

/-- The breadth-first move loop on a run with no solved successor:
unseen successors are appended at depth and recorded, seen ones dropped. -/
theorem bfsProcessSuccs_none_spec (H W : Nat) :
    ∀ (ss : List Board) (t : HashTable) (q : List STATE_NODE) (depth : Nat),
      (∀ s ∈ ss, checkGameComplete s = false) →
      (∀ e ∈ t, 0 ≤ e.2) →
      ∃ news : List Board,
        bfsProcessSuccs H W t q depth ss =
          (none, t ++ news.map (fun s => (getStateHashKey H W s, (depth : Int))),
           q ++ news.map (fun s => ⟨depth, s⟩)) ∧
        (∀ s ∈ news, s ∈ ss ∧ getStateHashKey H W s ∉ keysOf t) ∧
        (news.map (fun s => getStateHashKey H W s)).Nodup ∧
        (∀ s ∈ ss, getStateHashKey H W s ∈
          keysOf (t ++ news.map (fun s => (getStateHashKey H W s, (depth : Int))))) := by
  intro ss
  induction ss with
  | nil =>
    intro t q depth _ _
    refine ⟨[], by simp [bfsProcessSuccs], ?_, ?_, ?_⟩
    · intro s hs
      exact absurd hs (List.not_mem_nil s)
    · exact List.nodup_nil
    · intro s hs
      exact absurd hs (List.not_mem_nil s)
  | cons s rest ih =>
    intro t q depth hall h0
    have hs0 : checkGameComplete s = false := hall s (List.mem_cons_self s rest)
    have hstep : bfsProcessSuccs H W t q depth (s :: rest) =
        bfsProcessSuccs H W (bfsHandleSucc H W t q s depth).1
          (bfsHandleSucc H W t q s depth).2 depth rest := by
      rw [bfsProcessSuccs_cons, if_neg (by rw [hs0]; exact Bool.false_ne_true)]
    by_cases hseen : 0 ≤ getHashTableValue t (getStateHashKey H W s)
    · have hhandle : bfsHandleSucc H W t q s depth = (t, q) := by
        unfold bfsHandleSucc
        rw [if_pos hseen]
      obtain ⟨news, heq, hmem, hnd, hcov⟩ :=
        ih t q depth (fun x hx => hall x (List.mem_cons_of_mem s hx)) h0
      refine ⟨news, ?_, ?_, hnd, ?_⟩
      · rw [hstep, hhandle]
        show bfsProcessSuccs H W t q depth rest = _
        exact heq
      · intro x hx
        exact ⟨List.mem_cons_of_mem s (hmem x hx).1, (hmem x hx).2⟩
      · intro x hx
        rcases List.mem_cons.mp hx with h | h
        · rw [h]
          rw [keysOf_append]
          exact List.mem_append_left _ ((present_iff_nonneg t h0 _).mp hseen)
        · exact hcov x h
    · have hhandle : bfsHandleSucc H W t q s depth =
          (t ++ [(getStateHashKey H W s, (depth : Int))], q ++ [⟨depth, s⟩]) := by
        unfold bfsHandleSucc insertIntoStateHashTable
        rw [if_neg hseen]
      have hfresh : getStateHashKey H W s ∉ keysOf t := by
        intro hk
        exact hseen ((present_iff_nonneg t h0 _).mpr hk)
      have h0' : ∀ e ∈ t ++ [(getStateHashKey H W s, (depth : Int))], 0 ≤ e.2 := by
        intro e he
        rcases List.mem_append.mp he with h | h
        · exact h0 e h
        · rcases List.mem_cons.mp h with h' | h'
          · rw [h']
            exact Int.natCast_nonneg depth
          · exact absurd h' (List.not_mem_nil e)
      obtain ⟨news, heq, hmem, hnd, hcov⟩ := ih
        (t ++ [(getStateHashKey H W s, (depth : Int))]) (q ++ [⟨depth, s⟩]) depth
        (fun x hx => hall x (List.mem_cons_of_mem s hx)) h0'
      refine ⟨s :: news, ?_, ?_, ?_, ?_⟩
      · rw [hstep, hhandle]
        show bfsProcessSuccs H W (t ++ [(getStateHashKey H W s, (depth : Int))])
            (q ++ [⟨depth, s⟩]) depth rest = _
        rw [heq]
        simp
      · intro x hx
        rcases List.mem_cons.mp hx with h | h
        · rw [h]
          exact ⟨List.mem_cons_self s rest, hfresh⟩
        · refine ⟨List.mem_cons_of_mem s (hmem x h).1, ?_⟩
          intro hk
          exact (hmem x h).2 (by rw [keysOf_append]; exact List.mem_append_left _ hk)
      · rw [List.map_cons]
        refine List.nodup_cons.mpr ⟨?_, hnd⟩
        intro hk
        obtain ⟨x, hx, hxeq⟩ := List.mem_map.mp hk
        apply (hmem x hx).2
        rw [keysOf_append, ← hxeq]
        apply List.mem_append_right
        show getStateHashKey H W x ∈ keysOf [(getStateHashKey H W x, (depth : Int))]
        exact List.mem_cons_self _ _
      · intro x hx
        have hkeys : keysOf (t ++
              (s :: news).map (fun s => (getStateHashKey H W s, (depth : Int)))) =
            keysOf ((t ++ [(getStateHashKey H W s, (depth : Int))]) ++
              news.map (fun s => (getStateHashKey H W s, (depth : Int)))) := by
          simp [keysOf]
        rw [hkeys]
        rcases List.mem_cons.mp hx with h | h
        · rw [h]
          rw [keysOf_append]
          apply List.mem_append_left
          rw [keysOf_append]
          apply List.mem_append_right
          exact List.mem_cons_self _ _
        · exact hcov x h

/-! ### C2: the breadth-first loop finds the minimum -/

theorem sorted_of_const {k : Nat} :
    ∀ l : List Nat, (∀ x ∈ l, x = k) → l.Sorted (fun a b => a ≤ b) := by
  intro l
  induction l with
  | nil => intro _; exact List.sorted_nil
  | cons x rest ih =>
    intro h
    refine List.sorted_cons.mpr ⟨?_, ih (fun y hy => h y (List.mem_cons_of_mem x hy))⟩
    intro y hy
    rw [h x (List.mem_cons_self x rest), h y (List.mem_cons_of_mem x hy)]

/-- Walking down the optimal path inside the closed set: a recorded path
vertex leads to a pending frontier node at or below its path index. -/
theorem bfs_walkdown {H W maxB : Nat} {b0 : Board} {n : Nat} {p : Nat → Board}
    (hpath : BfsPath H W maxB b0 n p)
    (hpwf : ∀ i, i ≤ n → wfBoard H W maxB (p i) = true)
    {t : HashTable} {q : List STATE_NODE}
    (hdich : ∀ s : Board, wfBoard H W maxB s = true →
      getStateHashKey H W s ∈ keysOf t →
      ((∃ nd ∈ q, nd.board_state = s ∧
          (nd.path_cost : Int) = getHashTableValue t (getStateHashKey H W s)) ∨
       (∀ s' ∈ succsOf H W maxB s, checkGameComplete s' = false ∧
          getStateHashKey H W s' ∈ keysOf t)))
    (β : Nat) (hval : ∀ e ∈ t, e.2 ≤ (β : Int)) :
    ∀ m j, n - j ≤ m → j < n → β ≤ j →
      getStateHashKey H W (p j) ∈ keysOf t →
      BfsOnPath n p q := by
  intro m
  induction m with
  | zero =>
    intro j hm hj _ _
    omega
  | succ m ih =>
    intro j hm hj hβ hkey
    rcases hdich (p j) (hpwf j (by omega)) hkey with ⟨nd, hnd, hb, hcost⟩ | hexp
    · refine ⟨j, hj, nd, hnd, hb, ?_⟩
      obtain ⟨e, he, -, hev⟩ := getHashTableValue_present_mem t _ hkey
      have h1 : (nd.path_cost : Int) ≤ (β : Int) := by
        rw [hcost, hev]
        exact hval e he
      omega
    · have hstep := hpath.2.1 j hj
      have hj1 : j + 1 < n := by
        by_contra h
        have hjn : j + 1 = n := by omega
        have hc := (hexp (p (j+1)) hstep).1
        rw [hjn, hpath.2.2] at hc
        simp at hc
      exact ih (j+1) (by omega) hj1 (by omega) (hexp (p (j+1)) hstep).2

/-- Main lemma of the breadth-first driver: from any state satisfying
the invariant and carrying a pending optimal-path vertex, with fuel
above the measure, the loop returns exactly the minimal solve length. -/
theorem bfs_loop_main {H W maxB : Nat} {b0 : Board} {n : Nat} {p : Nat → Board}
    (hwf0 : wfBoard H W maxB b0 = true)
    (hmin : IsMinSolve H W maxB b0 n)
    (hpath : BfsPath H W maxB b0 n p) :
    ∀ (fuel : Nat) (t : HashTable) (q : List STATE_NODE),
      BfsInv H W maxB b0 t q → BfsOnPath n p q →
      bfsMeasure H W maxB t q < fuel →
      bfsLoop H W maxB fuel t q = some ((n : Nat) : Int) := by
  have hpwf := path_wf hwf0 hpath
  intro fuel
  induction fuel with
  | zero =>
    intro t q _ _ hμ
    omega
  | succ f ih =>
    intro t q hInv hJ hμ
    obtain ⟨hI0, hI1, hI2, hI3, hI4, hI5, hI6, hI7⟩ := hInv
    obtain ⟨iJ, hiJ, ndJ, hndJ, hbJ, hcJ⟩ := hJ
    cases q with
    | nil => exact absurd hndJ (List.not_mem_nil ndJ)
    | cons node q' =>
    obtain ⟨hwfn, hunsn, hreachn, hkeyn⟩ := hI3 node (List.mem_cons_self node q')
    have hsort' := hI4
    rw [List.map_cons] at hsort'
    have hsortq' := (List.sorted_cons.mp hsort').2
    have hheadmin : ∀ nd ∈ q', node.path_cost ≤ nd.path_cost := by
      intro nd hnd
      exact (List.sorted_cons.mp hsort').1 nd.path_cost
        (List.mem_map.mpr ⟨nd, hnd, rfl⟩)
    have hcn : node.path_cost + 1 ≤ n := by
      rcases List.mem_cons.mp hndJ with h | h
      · rw [h] at hcJ
        omega
      · have := hheadmin ndJ h
        omega
    by_cases hsol : ∃ s' ∈ succsOf H W maxB node.board_state, checkGameComplete s' = true
    · obtain ⟨t', q'', heq⟩ :=
        bfsProcessSuccs_some_of_solved H W _ t q' (node.path_cost + 1) hsol
      rw [bfsLoop_cons, heq]
      obtain ⟨s', hs', hcs'⟩ := hsol
      have hg1 : SGoal H W maxB 1 node.board_state := ⟨s', hs', hcs'⟩
      have hg := reach_sgoal hreachn hg1
      have hsolv := (sgoal_iff_solvable _ b0 hwf0).mp hg
      have hge : n ≤ node.path_cost + 1 := by
        by_contra hlt
        exact hmin.2 _ (by omega) hsolv
      have heqn : node.path_cost + 1 = n := by omega
      show some ((node.path_cost + 1 : Nat) : Int) = some ((n : Nat) : Int)
      rw [heqn]
    · have hall : ∀ s' ∈ succsOf H W maxB node.board_state,
          checkGameComplete s' = false := by
        intro s' hs'
        cases hcg : checkGameComplete s' with
        | false => rfl
        | true => exact absurd ⟨s', hs', hcg⟩ hsol
      obtain ⟨news, heqp, hmem, hnodup, hcover⟩ :=
        bfsProcessSuccs_none_spec H W (succsOf H W maxB node.board_state) t q'
          (node.path_cost + 1) hall hI0
      rw [bfsLoop_cons, heqp]
      show bfsLoop H W maxB f
        (t ++ news.map (fun s => (getStateHashKey H W s, ((node.path_cost + 1 : Nat) : Int))))
        (q' ++ news.map (fun s => ⟨node.path_cost + 1, s⟩)) = some ((n : Nat) : Int)
      have hnewfacts : ∀ s ∈ news, wfBoard H W maxB s = true ∧
          checkGameComplete s = false ∧ SReachE H W maxB b0 (node.path_cost + 1) s ∧
          getStateHashKey H W s ∉ keysOf t := by
        intro s hs
        obtain ⟨hss, hfresh⟩ := hmem s hs
        exact ⟨wf_succsOf hwfn hss, hall s hss, ⟨node.board_state, hreachn, hss⟩, hfresh⟩
      have hkeys2 : keysOf (t ++ news.map
            (fun s => (getStateHashKey H W s, ((node.path_cost + 1 : Nat) : Int)))) =
          keysOf t ++ news.map (fun s => getStateHashKey H W s) := by
        rw [keysOf_append]
        congr 1
        unfold keysOf
        rw [List.map_map]
        rfl
      have hI0' : ∀ e ∈ t ++ news.map
          (fun s => (getStateHashKey H W s, ((node.path_cost + 1 : Nat) : Int))),
          0 ≤ e.2 := by
        intro e he
        rcases List.mem_append.mp he with h | h
        · exact hI0 e h
        · obtain ⟨s, -, heqs⟩ := List.mem_map.mp h
          rw [← heqs]
          exact Int.natCast_nonneg _
      have hI1' : (keysOf (t ++ news.map
          (fun s => (getStateHashKey H W s, ((node.path_cost + 1 : Nat) : Int))))).Nodup := by
        rw [hkeys2]
        rw [List.nodup_append]
        refine ⟨hI1, hnodup, ?_⟩
        intro k hk hk2
        obtain ⟨s, hs, heqs⟩ := List.mem_map.mp hk2
        exact (hmem s hs).2 (heqs ▸ hk)
      have hI2' : ∀ k ∈ keysOf (t ++ news.map
          (fun s => (getStateHashKey H W s, ((node.path_cost + 1 : Nat) : Int)))),
          ∃ s, wfBoard H W maxB s = true ∧ k = getStateHashKey H W s := by
        rw [hkeys2]
        intro k hk
        rcases List.mem_append.mp hk with h | h
        · exact hI2 k h
        · obtain ⟨s, hs, heqs⟩ := List.mem_map.mp h
          exact ⟨s, (hnewfacts s hs).1, heqs.symm⟩
      have hstored_le : ∀ k, k ∈ keysOf (t ++ news.map
          (fun s => (getStateHashKey H W s, ((node.path_cost + 1 : Nat) : Int)))) →
          getHashTableValue (t ++ news.map
            (fun s => (getStateHashKey H W s, ((node.path_cost + 1 : Nat) : Int)))) k ≤
            ((node.path_cost : Int) + 1) := by
        intro k hk
        rw [hkeys2] at hk
        rcases List.mem_append.mp hk with h | h
        · rw [getHashTableValue_append_left t _ k h]
          obtain ⟨e, he, -, hev⟩ := getHashTableValue_present_mem t k h
          rw [hev]
          exact hI6 e he node rfl
        · by_cases hkt : k ∈ keysOf t
          · rw [getHashTableValue_append_left t _ k hkt]
            obtain ⟨e, he, -, hev⟩ := getHashTableValue_present_mem t k hkt
            rw [hev]
            exact hI6 e he node rfl
          · rw [getHashTableValue_append_right t _ k hkt]
            have hkm : k ∈ keysOf (news.map
                (fun s => (getStateHashKey H W s, ((node.path_cost + 1 : Nat) : Int)))) := by
              unfold keysOf
              rw [List.map_map]
              exact h
            have hvalc : getHashTableValue (news.map
                (fun s => (getStateHashKey H W s, ((node.path_cost + 1 : Nat) : Int)))) k =
                ((node.path_cost + 1 : Nat) : Int) := by
              apply getHashTableValue_const _ k _ hkm
              intro e he
              obtain ⟨s, -, heqs⟩ := List.mem_map.mp he
              rw [← heqs]
            rw [hvalc]
            push_cast
            exact le_refl _
      have hq2cost : ∀ nd ∈ news.map
          (fun s => (⟨node.path_cost + 1, s⟩ : STATE_NODE)),
          nd.path_cost = node.path_cost + 1 := by
        intro nd hnd
        obtain ⟨s, -, heqs⟩ := List.mem_map.mp hnd
        rw [← heqs]
      have hheadmin2 : ∀ hd, (q' ++ news.map
          (fun s => (⟨node.path_cost + 1, s⟩ : STATE_NODE))).head? = some hd →
          node.path_cost ≤ hd.path_cost := by
        intro hd hhd
        have hmemhd : hd ∈ q' ++ news.map
            (fun s => (⟨node.path_cost + 1, s⟩ : STATE_NODE)) :=
          List.mem_of_mem_head? hhd
        rcases List.mem_append.mp hmemhd with h | h
        · exact hheadmin hd h
        · rw [hq2cost hd h]
          omega
      have hInv' : BfsInv H W maxB b0
          (t ++ news.map (fun s => (getStateHashKey H W s, ((node.path_cost + 1 : Nat) : Int))))
          (q' ++ news.map (fun s => ⟨node.path_cost + 1, s⟩)) := by
        refine ⟨hI0', hI1', hI2', ?_, ?_, ?_, ?_, ?_⟩
        · intro nd hnd
          rcases List.mem_append.mp hnd with h | h
          · obtain ⟨hw, hu, hr, hkk⟩ := hI3 nd (List.mem_cons_of_mem node h)
            refine ⟨hw, hu, hr, ?_⟩
            rw [hkeys2]
            exact List.mem_append_left _ hkk
          · obtain ⟨s, hs, heqs⟩ := List.mem_map.mp h
            obtain ⟨hw, hu, hr, -⟩ := hnewfacts s hs
            rw [← heqs]
            refine ⟨hw, hu, hr, ?_⟩
            rw [hkeys2]
            exact List.mem_append_right _ (List.mem_map.mpr ⟨s, hs, rfl⟩)
        · rw [List.map_append]
          have hcmap : (news.map (fun s => (⟨node.path_cost + 1, s⟩ : STATE_NODE))).map
              STATE_NODE.path_cost = news.map (fun _ => node.path_cost + 1) := by
            rw [List.map_map]
            rfl
          rw [hcmap]
          apply List.pairwise_append.mpr
          refine ⟨hsortq', ?_, ?_⟩
          · apply sorted_of_const
            intro x hx
            obtain ⟨s, -, heqs⟩ := List.mem_map.mp hx
            exact heqs.symm
          · intro a ha b hb
            obtain ⟨nd, hnd, heqa⟩ := List.mem_map.mp ha
            obtain ⟨s, -, heqb⟩ := List.mem_map.mp hb
            rw [← heqa, ← heqb]
            exact hI5 nd (List.mem_cons_of_mem node hnd) node rfl
        · intro nd hnd hd hhd
          have hn2 := hheadmin2 hd hhd
          rcases List.mem_append.mp hnd with h | h
          · have := hI5 nd (List.mem_cons_of_mem node h) node rfl
            omega
          · rw [hq2cost nd h]
            omega
        · intro e he hd hhd
          have hn2 := hheadmin2 hd hhd
          rcases List.mem_append.mp he with h | h
          · have := hI6 e h node rfl
            have hcast : (node.path_cost : Int) ≤ (hd.path_cost : Int) := by
              exact_mod_cast hn2
            omega
          · obtain ⟨s, -, heqs⟩ := List.mem_map.mp h
            rw [← heqs]
            have hcast : (node.path_cost : Int) ≤ (hd.path_cost : Int) := by
              exact_mod_cast hn2
            push_cast
            omega
        · intro s hwfs hk
          rw [hkeys2] at hk
          rcases List.mem_append.mp hk with hkold | hknew
          · rcases hI7 s hwfs hkold with ⟨nd, hndq, hbs, hcosteq⟩ | hexp
            · rcases List.mem_cons.mp hndq with hh | hh
              · right
                intro s' hs'
                have hsb : s' ∈ succsOf H W maxB node.board_state := by
                  rw [hh] at hbs
                  rw [← hbs] at hs'
                  exact hs'
                exact ⟨hall s' hsb, hcover s' hsb⟩
              · left
                refine ⟨nd, List.mem_append_left _ hh, hbs, ?_⟩
                rw [getHashTableValue_append_left t _ _ hkold]
                exact hcosteq
            · right
              intro s' hs'
              refine ⟨(hexp s' hs').1, ?_⟩
              rw [hkeys2]
              exact List.mem_append_left _ (hexp s' hs').2
          · obtain ⟨s0, hs0, heqs0⟩ := List.mem_map.mp hknew
            have hseq : s0 = s := key_inj_wf (hnewfacts s0 hs0).1 hwfs heqs0
            left
            refine ⟨⟨node.path_cost + 1, s0⟩,
              List.mem_append_right _ (List.mem_map.mpr ⟨s0, hs0, rfl⟩), hseq, ?_⟩
            have hfresh : getStateHashKey H W s ∉ keysOf t := by
              rw [← hseq]
              exact (hnewfacts s0 hs0).2.2.2
            rw [getHashTableValue_append_right t _ _ hfresh]
            have hkm : getStateHashKey H W s ∈ keysOf (news.map
                (fun s => (getStateHashKey H W s, ((node.path_cost + 1 : Nat) : Int)))) := by
              unfold keysOf
              rw [List.map_map]
              rw [← hseq]
              exact List.mem_map.mpr ⟨s0, hs0, rfl⟩
            have hvalc : getHashTableValue (news.map
                (fun s => (getStateHashKey H W s, ((node.path_cost + 1 : Nat) : Int))))
                (getStateHashKey H W s) = ((node.path_cost + 1 : Nat) : Int) := by
              apply getHashTableValue_const _ _ _ hkm
              intro e he
              obtain ⟨x, -, heqx⟩ := List.mem_map.mp he
              rw [← heqx]
            rw [hvalc]
      have hJ' : BfsOnPath n p (q' ++ news.map (fun s => ⟨node.path_cost + 1, s⟩)) := by
        rcases List.mem_cons.mp hndJ with hh | hh
        · have hbn : node.board_state = p iJ := by
            rw [← hh]
            exact hbJ
          have hstep := hpath.2.1 iJ hiJ
          have hstep' : p (iJ + 1) ∈ succsOf H W maxB node.board_state := by
            rw [hbn]
            exact hstep
          have hiJ1 : iJ + 1 < n := by
            by_contra hcon
            have hjn : iJ + 1 = n := by omega
            have hc := hall (p (iJ + 1)) hstep'
            rw [hjn, hpath.2.2] at hc
            simp at hc
          have hcJn : node.path_cost ≤ iJ := by
            rw [hh] at hcJ
            exact hcJ
          apply bfs_walkdown hpath hpwf hInv'.2.2.2.2.2.2.2 (node.path_cost + 1)
            ?_ n (iJ + 1) (by omega) hiJ1 (by omega) (hcover (p (iJ + 1)) hstep')
          intro e he
          rcases List.mem_append.mp he with h | h
          · have := hI6 e h node rfl
            push_cast
            omega
          · obtain ⟨s, -, heqs⟩ := List.mem_map.mp h
            rw [← heqs]
        · exact ⟨iJ, hiJ, ndJ, List.mem_append_left _ hh, hbJ, hcJ⟩
      have hbound : (keysOf t).length + news.length ≤ tableBound H W maxB := by
        have hb := @keys_length_le H W maxB _ hI1' ?_
        · rw [hkeys2, List.length_append, List.length_map] at hb
          exact hb
        · intro k hk
          obtain ⟨s, hws, hks⟩ := hI2' k hk
          rw [hks]
          exact key_bounds_wf hws
      have hμ' : bfsMeasure H W maxB
          (t ++ news.map (fun s => (getStateHashKey H W s, ((node.path_cost + 1 : Nat) : Int))))
          (q' ++ news.map (fun s => ⟨node.path_cost + 1, s⟩)) <
          bfsMeasure H W maxB t (node :: q') := by
        unfold bfsMeasure
        rw [hkeys2, List.length_append, List.length_map, List.length_append,
          List.length_map, List.length_cons]
        have hsplit : (tableBound H W maxB - (keysOf t).length) * (tableBound H W maxB + 1) =
            (tableBound H W maxB - ((keysOf t).length + news.length)) *
              (tableBound H W maxB + 1) + news.length * (tableBound H W maxB + 1) := by
          have h : tableBound H W maxB - (keysOf t).length =
              (tableBound H W maxB - ((keysOf t).length + news.length)) + news.length := by
            omega
          rw [h, Nat.add_mul]
        rw [hsplit]
        have haQ : news.length ≤ news.length * (tableBound H W maxB + 1) :=
          Nat.le_mul_of_pos_right news.length (by omega)
        omega
      exact ih _ _ hInv' hJ' (by omega)

/-- `breadthFirstSearch` returns exactly the minimal number of moves on
a well-formed, unsolved, solvable board, for every sufficient fuel. -/
theorem bfs_finds_min {H W maxB : Nat} {b : Board} {n : Nat}
    (hwf : wfBoard H W maxB b = true)
    (hns : checkGameComplete b = false)
    (hmin : IsMinSolve H W maxB b n) :
    ∀ fuel, bfsMeasure H W maxB
        (insertIntoStateHashTable [] (getStateHashKey H W b) 0) [⟨0, b⟩] < fuel →
      breadthFirstSearch fuel H W maxB b = some ((n : Nat) : Int) := by
  have hn1 : 1 ≤ n := minsolve_pos hns hmin
  have hg : SGoal H W maxB n b := (sgoal_iff_solvable n b hwf).mpr hmin.1
  obtain ⟨p, hpath⟩ := sgoal_path hg
  intro fuel hfuel
  unfold breadthFirstSearch
  apply bfs_loop_main hwf hmin hpath fuel _ _ ?_ ?_ hfuel
  · show BfsInv H W maxB b [(getStateHashKey H W b, 0)] [⟨0, b⟩]
    refine ⟨?_, ?_, ?_, ?_, ?_, ?_, ?_, ?_⟩
    · intro e he
      rcases List.mem_cons.mp he with h | h
      · subst h
        norm_num
      · exact absurd h (List.not_mem_nil e)
    · show ([getStateHashKey H W b]).Nodup
      exact List.nodup_singleton _
    · intro k hk
      rcases List.mem_cons.mp hk with h | h
      · exact ⟨b, hwf, h⟩
      · exact absurd h (List.not_mem_nil k)
    · intro nd hnd
      rcases List.mem_cons.mp hnd with h | h
      · rw [h]
        exact ⟨hwf, hns, rfl, List.mem_cons_self _ _⟩
      · exact absurd h (List.not_mem_nil nd)
    · show ([(0:Nat)]).Sorted (· ≤ ·)
      exact List.sorted_singleton _
    · intro nd hnd hd _
      rcases List.mem_cons.mp hnd with h | h
      · rw [h]
        show (0:Nat) ≤ hd.path_cost + 1
        omega
      · exact absurd h (List.not_mem_nil nd)
    · intro e he hd _
      rcases List.mem_cons.mp he with h | h
      · rw [h]
        show (0:Int) ≤ (hd.path_cost : Int) + 1
        have := Int.natCast_nonneg hd.path_cost
        omega
      · exact absurd h (List.not_mem_nil e)
    · intro s hwfs hk
      rcases List.mem_cons.mp hk with h | h
      · have hsb : b = s := key_inj_wf hwf hwfs h.symm
        left
        refine ⟨⟨0, b⟩, List.mem_cons_self _ _, hsb, ?_⟩
        rw [h]
        simp [getHashTableValue]
      · exact absurd h (List.not_mem_nil _)
  · show BfsOnPath n p [⟨0, b⟩]
    exact ⟨0, by omega, ⟨0, b⟩, List.mem_cons_self _ _, hpath.1.symm, Nat.le_refl 0⟩

/-! ### C2: update-table lemmas for the depth-first variants -/

theorem keysOf_update :
    ∀ (t : HashTable) (k : HashKey) (v : Int),
      keysOf (updateHashTableValue t k v) = keysOf t := by
  intro t k v
  induction t with
  | nil => rfl
  | cons e rest ih =>
    show keysOf (if e.1 == k then (k, v) :: rest
      else e :: updateHashTableValue rest k v) = _
    by_cases hc : (e.1 == k) = true
    · rw [if_pos hc]
      show k :: keysOf rest = e.1 :: keysOf rest
      rw [beq_iff_eq.mp hc]
    · rw [if_neg hc]
      show e.1 :: keysOf (updateHashTableValue rest k v) = e.1 :: keysOf rest
      rw [ih]

theorem mem_update :
    ∀ (t : HashTable) (k : HashKey) (v : Int) (e : HashKey × Int),
      e ∈ updateHashTableValue t k v → e ∈ t ∨ e = (k, v) := by
  intro t k v
  induction t with
  | nil =>
    intro e he
    exact absurd he (List.not_mem_nil e)
  | cons x rest ih =>
    intro e he
    rw [show updateHashTableValue (x :: rest) k v =
      (if x.1 == k then (k, v) :: rest else x :: updateHashTableValue rest k v) from rfl] at he
    by_cases hc : (x.1 == k) = true
    · rw [if_pos hc] at he
      rcases List.mem_cons.mp he with h | h
      · exact Or.inr h
      · exact Or.inl (List.mem_cons_of_mem x h)
    · rw [if_neg hc] at he
      rcases List.mem_cons.mp he with h | h
      · exact Or.inl (h ▸ List.mem_cons_self x rest)
      · rcases ih e h with h' | h'
        · exact Or.inl (List.mem_cons_of_mem x h')
        · exact Or.inr h'

theorem getHashTableValue_update_self :
    ∀ (t : HashTable) (k : HashKey) (v : Int), k ∈ keysOf t →
      getHashTableValue (updateHashTableValue t k v) k = v := by
  intro t k v
  induction t with
  | nil =>
    intro hk
    exact absurd hk (List.not_mem_nil k)
  | cons e rest ih =>
    intro hk
    show getHashTableValue (if e.1 == k then (k, v) :: rest
      else e :: updateHashTableValue rest k v) k = v
    by_cases hc : (e.1 == k) = true
    · rw [if_pos hc]
      show (if k == k then v else getHashTableValue rest k) = v
      rw [if_pos (beq_iff_eq.mpr rfl)]
    · rw [if_neg hc]
      show (if e.1 == k then e.2 else getHashTableValue (updateHashTableValue rest k v) k) = v
      rw [if_neg hc]
      have hne : k ≠ e.1 := fun he => hc (beq_iff_eq.mpr he.symm)
      have hk' : k ∈ keysOf rest := by
        rcases List.mem_cons.mp hk with h | h
        · exact absurd h hne
        · exact h
      exact ih hk'

theorem getHashTableValue_update_other :
    ∀ (t : HashTable) (k : HashKey) (v : Int) (k' : HashKey), k' ≠ k →
      getHashTableValue (updateHashTableValue t k v) k' = getHashTableValue t k' := by
  intro t k v
  induction t with
  | nil => intro k' _; rfl
  | cons e rest ih =>
    intro k' hne
    show getHashTableValue (if e.1 == k then (k, v) :: rest
      else e :: updateHashTableValue rest k v) k' = _
    by_cases hc : (e.1 == k) = true
    · rw [if_pos hc]
      show (if k == k' then v else getHashTableValue rest k') =
        (if e.1 == k' then e.2 else getHashTableValue rest k')
      have h1 : (k == k') = false := beq_eq_false_iff_ne.mpr (fun h => hne h.symm)
      have h2 : (e.1 == k') = false := by
        rw [beq_iff_eq.mp hc]
        exact h1
      rw [if_neg (by rw [h1]; exact Bool.false_ne_true),
        if_neg (by rw [h2]; exact Bool.false_ne_true)]
    · rw [if_neg hc]
      show (if e.1 == k' then e.2 else getHashTableValue (updateHashTableValue rest k v) k') = _
      by_cases hc' : (e.1 == k') = true
      · rw [if_pos hc']
        show _ = (if e.1 == k' then e.2 else getHashTableValue rest k')
        rw [if_pos hc']
      · rw [if_neg hc']
        show _ = (if e.1 == k' then e.2 else getHashTableValue rest k')
        rw [if_neg hc']
        exact ih k' hne

theorem tableWeight_append (t ext : HashTable) :
    tableWeight (t ++ ext) = tableWeight t + tableWeight ext := by
  unfold tableWeight
  rw [List.map_append, List.sum_append]

theorem tableWeight_update :
    ∀ (t : HashTable) (k : HashKey) (v : Int), k ∈ keysOf t →
      tableWeight (updateHashTableValue t k v) + (getHashTableValue t k).toNat =
        tableWeight t + v.toNat := by
  intro t k v
  induction t with
  | nil =>
    intro hk
    exact absurd hk (List.not_mem_nil k)
  | cons e rest ih =>
    intro hk
    show tableWeight (if e.1 == k then (k, v) :: rest
        else e :: updateHashTableValue rest k v) +
      (if e.1 == k then e.2 else getHashTableValue rest k).toNat = _
    by_cases hc : (e.1 == k) = true
    · rw [if_pos hc, if_pos hc]
      show v.toNat + tableWeight rest + e.2.toNat = e.2.toNat + tableWeight rest + v.toNat
      omega
    · rw [if_neg hc, if_neg hc]
      have hne : k ≠ e.1 := fun he => hc (beq_iff_eq.mpr he.symm)
      have hk' : k ∈ keysOf rest := by
        rcases List.mem_cons.mp hk with h | h
        · exact absurd h hne
        · exact h
      have hih := ih hk'
      show e.2.toNat + tableWeight (updateHashTableValue rest k v) +
        (getHashTableValue rest k).toNat = e.2.toNat + tableWeight rest + v.toNat
      omega

/-! ### C2: the depth-first move loop, specified -/

theorem dfsLoop_nil (H W maxB : Nat) (dl : Bool) (md fuel : Nat) (t : HashTable) :
    dfsLoop H W maxB dl md (fuel+1) t [] = some (-1) := rfl

theorem dfsLoop_cons (H W maxB : Nat) (dl : Bool) (md fuel : Nat) (t : HashTable)
    (node : STATE_NODE) (st' : List STATE_NODE) :
    dfsLoop H W maxB dl md (fuel+1) t (node :: st') =
      if !dl || node.path_cost < md then
        match dfsProcessSuccs H W t st' (node.path_cost + 1)
            (succsOf H W maxB node.board_state) with
        | (some d, _, _) => some ((d : Nat) : Int)
        | (none, t', st'') => dfsLoop H W maxB dl md fuel t' st''
      else dfsLoop H W maxB dl md fuel t st' := rfl

theorem dfsProcessSuccs_cons (H W : Nat) (t : HashTable) (st : List STATE_NODE)
    (depth : Nat) (s : Board) (rest : List Board) :
    dfsProcessSuccs H W t st depth (s :: rest) =
      if checkGameComplete s then (some depth, t, st)
      else dfsProcessSuccs H W (dfsHandleSucc H W t st s depth).1
        (dfsHandleSucc H W t st s depth).2 depth rest := rfl

theorem dfsProcessSuccs_some (H W : Nat) :
    ∀ (ss : List Board) (t : HashTable) (st : List STATE_NODE) (depth : Nat)
      (r : Nat) (t' : HashTable) (st' : List STATE_NODE),
      dfsProcessSuccs H W t st depth ss = (some r, t', st') →
      r = depth ∧ ∃ s ∈ ss, checkGameComplete s = true := by
  intro ss
  induction ss with
  | nil =>
    intro t st depth r t' st' heq
    exact absurd (congrArg Prod.fst heq) (by simp [dfsProcessSuccs])
  | cons s rest ih =>
    intro t st depth r t' st' heq
    by_cases hc : checkGameComplete s = true
    · rw [dfsProcessSuccs_cons, if_pos hc] at heq
      have hr : (some depth : Option Nat) = some r := congrArg Prod.fst heq
      exact ⟨(Option.some.inj hr).symm, s, List.mem_cons_self s rest, hc⟩
    · rw [dfsProcessSuccs_cons, if_neg hc] at heq
      obtain ⟨hr, s', hs', hcs'⟩ := ih _ _ _ _ _ _ heq
      exact ⟨hr, s', List.mem_cons_of_mem s hs', hcs'⟩

theorem dfsProcessSuccs_some_of_solved (H W : Nat) :
    ∀ (ss : List Board) (t : HashTable) (st : List STATE_NODE) (depth : Nat),
      (∃ s ∈ ss, checkGameComplete s = true) →
      ∃ t' st', dfsProcessSuccs H W t st depth ss = (some depth, t', st') := by
  intro ss
  induction ss with
  | nil =>
    intro t st depth h
    obtain ⟨s, hs, -⟩ := h
    exact absurd hs (List.not_mem_nil s)
  | cons s rest ih =>
    intro t st depth h
    by_cases hc : checkGameComplete s = true
    · refine ⟨t, st, ?_⟩
      rw [dfsProcessSuccs_cons, if_pos hc]
    · obtain ⟨s', hs', hcs'⟩ := h
      have hs'' : s' ∈ rest := by
        rcases List.mem_cons.mp hs' with h' | h'
        · rw [h'] at hcs'; exact absurd hcs' hc
        · exact h'
      obtain ⟨t', st', heq⟩ := ih (dfsHandleSucc H W t st s depth).1
        (dfsHandleSucc H W t st s depth).2 depth ⟨s', hs'', hcs'⟩
      refine ⟨t', st', ?_⟩
      rw [dfsProcessSuccs_cons, if_neg hc]
      exact heq

/-- The depth-first move loop on a run with no solved successor: each
successor is pushed when unseen (recorded at depth) or stored strictly
deeper (stored depth overwritten), and dropped otherwise. -/
theorem dfsProcessSuccs_none_spec (H W : Nat) :
    ∀ (ss : List Board) (t : HashTable) (st : List STATE_NODE) (depth : Nat),
      (∀ s ∈ ss, checkGameComplete s = false) →
      (∀ e ∈ t, 0 ≤ e.2) →
      ∃ (t' : HashTable) (NEW : List STATE_NODE) (KS : List HashKey),
        dfsProcessSuccs H W t st depth ss = (none, t', NEW ++ st) ∧
        (∀ e ∈ t', 0 ≤ e.2 ∧ (e ∈ t ∨ e.2 = (depth : Int))) ∧
        keysOf t' = keysOf t ++ KS ∧
        (∀ k ∈ KS, k ∉ keysOf t ∧ (∃ s ∈ ss, k = getStateHashKey H W s) ∧
          ∃ nd ∈ NEW, getStateHashKey H W nd.board_state = k) ∧
        KS.Nodup ∧
        tableWeight t' + NEW.length ≤ tableWeight t + KS.length * (depth + 1) ∧
        (∀ k ∈ keysOf t, getHashTableValue t' k ≤ getHashTableValue t k ∧
          (getHashTableValue t' k = getHashTableValue t k ∨
            (getHashTableValue t' k < getHashTableValue t k ∧
              ∃ nd ∈ NEW, getStateHashKey H W nd.board_state = k))) ∧
        (∀ s ∈ ss, getStateHashKey H W s ∈ keysOf t' ∧
          getHashTableValue t' (getStateHashKey H W s) ≤ (depth : Int)) ∧
        (∀ nd ∈ NEW, nd.path_cost = depth ∧ nd.board_state ∈ ss ∧
          getHashTableValue t' (getStateHashKey H W nd.board_state) = (depth : Int) ∧
          (getStateHashKey H W nd.board_state ∉ keysOf t ∨
            (depth : Int) < getHashTableValue t (getStateHashKey H W nd.board_state))) ∧
        (NEW.map (fun nd => getStateHashKey H W nd.board_state)).Nodup := by
  intro ss
  induction ss with
  | nil =>
    intro t st depth _ h0
    refine ⟨t, [], [], by simp [dfsProcessSuccs], ?_, by simp, ?_, List.nodup_nil,
      by simp, ?_, ?_, ?_, ?_⟩
    · intro e he
      exact ⟨h0 e he, Or.inl he⟩
    · intro k hk
      exact absurd hk (List.not_mem_nil k)
    · intro k hk
      exact ⟨le_refl _, Or.inl rfl⟩
    · intro s hs
      exact absurd hs (List.not_mem_nil s)
    · intro nd hnd
      exact absurd hnd (List.not_mem_nil nd)
    · simp
  | cons s rest ih =>
    intro t st depth hall h0
    have hs0 : checkGameComplete s = false := hall s (List.mem_cons_self s rest)
    have hall' : ∀ x ∈ rest, checkGameComplete x = false :=
      fun x hx => hall x (List.mem_cons_of_mem s hx)
    have hstep : dfsProcessSuccs H W t st depth (s :: rest) =
        dfsProcessSuccs H W (dfsHandleSucc H W t st s depth).1
          (dfsHandleSucc H W t st s depth).2 depth rest := by
      rw [dfsProcessSuccs_cons, if_neg (by rw [hs0]; exact Bool.false_ne_true)]
    by_cases hv0 : getHashTableValue t (getStateHashKey H W s) < 0
    · -- unseen successor: insert and push
      have hhandle : dfsHandleSucc H W t st s depth =
          (t ++ [(getStateHashKey H W s, (depth : Int))], ⟨depth, s⟩ :: st) := by
        unfold dfsHandleSucc insertIntoStateHashTable
        rw [if_pos hv0]
      have hfresh : getStateHashKey H W s ∉ keysOf t := by
        intro hk
        have := (present_iff_nonneg t h0 _).mpr hk
        omega
      have h0' : ∀ e ∈ t ++ [(getStateHashKey H W s, (depth : Int))], 0 ≤ e.2 := by
        intro e he
        rcases List.mem_append.mp he with h | h
        · exact h0 e h
        · rcases List.mem_cons.mp h with h' | h'
          · rw [h']
            exact Int.natCast_nonneg depth
          · exact absurd h' (List.not_mem_nil e)
      obtain ⟨t', NEW', KS', heq', hQ1', hkeys', hKS', hKSnd', hwt', hQ3', hQ4', hQ5', hQ6'⟩ :=
        ih (t ++ [(getStateHashKey H W s, (depth : Int))]) (⟨depth, s⟩ :: st) depth hall' h0'
      have hk1 : getStateHashKey H W s ∈
          keysOf (t ++ [(getStateHashKey H W s, (depth : Int))]) := by
        rw [keysOf_append]
        exact List.mem_append_right _ (List.mem_cons_self _ _)
      have hval1 : getHashTableValue (t ++ [(getStateHashKey H W s, (depth : Int))])
          (getStateHashKey H W s) = (depth : Int) := by
        rw [getHashTableValue_append_right t _ _ hfresh]
        show (if getStateHashKey H W s == getStateHashKey H W s then (depth : Int)
          else getHashTableValue [] (getStateHashKey H W s)) = (depth : Int)
        rw [if_pos (beq_iff_eq.mpr rfl)]
      have hstored_s : getHashTableValue t' (getStateHashKey H W s) = (depth : Int) := by
        rcases (hQ3' _ hk1).2 with h | ⟨hlt, nd', hnd', hkey'⟩
        · rw [h, hval1]
        · exfalso
          rcases (hQ5' nd' hnd').2.2.2 with h' | h'
          · exact h' (hkey' ▸ hk1)
          · rw [hkey', hval1] at h'
            omega
      have hnotin' : ∀ nd' ∈ NEW',
          getStateHashKey H W nd'.board_state ≠ getStateHashKey H W s := by
        intro nd' hnd' hkey'
        rcases (hQ5' nd' hnd').2.2.2 with h' | h'
        · exact h' (hkey' ▸ hk1)
        · rw [hkey', hval1] at h'
          omega
      have hKSnd : (getStateHashKey H W s :: KS').Nodup := by
        refine List.nodup_cons.mpr ⟨?_, hKSnd'⟩
        intro hmem
        exact (hKS' _ hmem).1 hk1
      refine ⟨t', NEW' ++ [⟨depth, s⟩], getStateHashKey H W s :: KS', ?_, ?_, ?_, ?_, hKSnd,
        ?_, ?_, ?_, ?_, ?_⟩
      · rw [hstep, hhandle]
        show dfsProcessSuccs H W (t ++ [(getStateHashKey H W s, (depth : Int))])
          (⟨depth, s⟩ :: st) depth rest = _
        rw [heq']
        rw [List.append_assoc, List.singleton_append]
      · intro e he
        obtain ⟨hnn, hor⟩ := hQ1' e he
        refine ⟨hnn, ?_⟩
        rcases hor with h | h
        · rcases List.mem_append.mp h with h' | h'
          · exact Or.inl h'
          · rcases List.mem_cons.mp h' with h'' | h''
            · rw [h'']
              exact Or.inr rfl
            · exact absurd h'' (List.not_mem_nil e)
        · exact Or.inr h
      · rw [hkeys', keysOf_append]
        show (keysOf t ++ [getStateHashKey H W s]) ++ KS' = _
        rw [List.append_assoc, List.singleton_append]
      · intro k hk
        rcases List.mem_cons.mp hk with h | h
        · subst h
          exact ⟨hfresh, ⟨s, List.mem_cons_self s rest, rfl⟩,
            ⟨⟨depth, s⟩, List.mem_append_right _ (List.mem_cons_self _ _), rfl⟩⟩
        · obtain ⟨hnot1, ⟨x, hx, hxk⟩, nd', hnd', hkey'⟩ := hKS' k h
          refine ⟨?_, ⟨x, List.mem_cons_of_mem s hx, hxk⟩,
            nd', List.mem_append_left _ hnd', hkey'⟩
          intro hkt
          exact hnot1 (by rw [keysOf_append]; exact List.mem_append_left _ hkt)
      · have hw1 : tableWeight (t ++ [(getStateHashKey H W s, (depth : Int))]) =
            tableWeight t + depth := by
          rw [tableWeight_append]
          show tableWeight t + ((depth : Int).toNat + 0) = _
          omega
        rw [hw1] at hwt'
        rw [List.length_append]
        show tableWeight t' + (NEW'.length + 1) ≤
          tableWeight t + (KS'.length + 1) * (depth + 1)
        have hmul : (KS'.length + 1) * (depth + 1) =
            KS'.length * (depth + 1) + (depth + 1) := by ring
        omega
      · intro k hk
        have hk1' : k ∈ keysOf (t ++ [(getStateHashKey H W s, (depth : Int))]) := by
          rw [keysOf_append]
          exact List.mem_append_left _ hk
        obtain ⟨hle, hor⟩ := hQ3' k hk1'
        rw [getHashTableValue_append_left t _ k hk] at hle hor
        refine ⟨hle, ?_⟩
        rcases hor with h | ⟨hlt, nd', hnd', hkey'⟩
        · exact Or.inl h
        · exact Or.inr ⟨hlt, nd', List.mem_append_left _ hnd', hkey'⟩
      · intro x hx
        rcases List.mem_cons.mp hx with h | h
        · subst h
          constructor
          · rw [hkeys']
            exact List.mem_append_left _ hk1
          · rw [hstored_s]
        · exact hQ4' x h
      · intro nd hnd
        rcases List.mem_append.mp hnd with h | h
        · obtain ⟨hc, hb, hst, hfr⟩ := hQ5' nd h
          refine ⟨hc, List.mem_cons_of_mem s hb, hst, ?_⟩
          rcases hfr with h' | h'
          · by_cases hkt : getStateHashKey H W nd.board_state ∈ keysOf t
            · exfalso
              exact h' (by rw [keysOf_append]; exact List.mem_append_left _ hkt)
            · exact Or.inl hkt
          · have hne : getStateHashKey H W nd.board_state ≠ getStateHashKey H W s := by
              intro hkeq
              rw [hkeq, hval1] at h'
              omega
            have hkt : getStateHashKey H W nd.board_state ∈ keysOf t := by
              by_contra hkt
              rw [getHashTableValue_append_right t _ _ hkt] at h'
              show False
              have : getHashTableValue [(getStateHashKey H W s, (depth : Int))]
                  (getStateHashKey H W nd.board_state) = -1 := by
                apply getHashTableValue_absent
                intro hm
                rcases List.mem_cons.mp hm with hm' | hm'
                · exact hne hm'
                · exact absurd hm' (List.not_mem_nil _)
              rw [this] at h'
              omega
            rw [getHashTableValue_append_left t _ _ hkt] at h'
            exact Or.inr h'
        · rcases List.mem_cons.mp h with h' | h'
          · subst h'
            exact ⟨rfl, List.mem_cons_self s rest, hstored_s, Or.inl hfresh⟩
          · exact absurd h' (List.not_mem_nil nd)
      · rw [List.map_append]
        rw [List.nodup_append]
        refine ⟨hQ6', by simp, ?_⟩
        intro k hkm hks
        obtain ⟨nd', hnd', hkey'⟩ := List.mem_map.mp hkm
        rcases List.mem_cons.mp hks with h | h
        · exact hnotin' nd' hnd' (by rw [hkey', h])
        · exact absurd h (List.not_mem_nil k)
    · by_cases hvd : getHashTableValue t (getStateHashKey H W s) > (depth : Int)
      · -- seen strictly deeper: overwrite and push
        have hhandle : dfsHandleSucc H W t st s depth =
            (updateHashTableValue t (getStateHashKey H W s) (depth : Int),
             ⟨depth, s⟩ :: st) := by
          unfold dfsHandleSucc
          rw [if_neg hv0, if_pos hvd]
        have hks : getStateHashKey H W s ∈ keysOf t :=
          (present_iff_nonneg t h0 _).mp (by omega)
        have h0' : ∀ e ∈ updateHashTableValue t (getStateHashKey H W s) (depth : Int),
            0 ≤ e.2 := by
          intro e he
          rcases mem_update t _ _ e he with h | h
          · exact h0 e h
          · rw [h]
            exact Int.natCast_nonneg depth
        obtain ⟨t', NEW', KS', heq', hQ1', hkeys', hKS', hKSnd', hwt', hQ3', hQ4', hQ5', hQ6'⟩ :=
          ih (updateHashTableValue t (getStateHashKey H W s) (depth : Int))
            (⟨depth, s⟩ :: st) depth hall' h0'
        have hkeysu : keysOf (updateHashTableValue t (getStateHashKey H W s)
            (depth : Int)) = keysOf t := keysOf_update t _ _
        have hk1 : getStateHashKey H W s ∈
            keysOf (updateHashTableValue t (getStateHashKey H W s) (depth : Int)) := by
          rw [hkeysu]
          exact hks
        have hval1 : getHashTableValue (updateHashTableValue t (getStateHashKey H W s)
            (depth : Int)) (getStateHashKey H W s) = (depth : Int) :=
          getHashTableValue_update_self t _ _ hks
        have hstored_s : getHashTableValue t' (getStateHashKey H W s) = (depth : Int) := by
          rcases (hQ3' _ hk1).2 with h | ⟨hlt, nd', hnd', hkey'⟩
          · rw [h, hval1]
          · exfalso
            rcases (hQ5' nd' hnd').2.2.2 with h' | h'
            · exact h' (hkey' ▸ hk1)
            · rw [hkey', hval1] at h'
              omega
        have hnotin' : ∀ nd' ∈ NEW',
            getStateHashKey H W nd'.board_state ≠ getStateHashKey H W s := by
          intro nd' hnd' hkey'
          rcases (hQ5' nd' hnd').2.2.2 with h' | h'
          · exact h' (hkey' ▸ hk1)
          · rw [hkey', hval1] at h'
            omega
        refine ⟨t', NEW' ++ [⟨depth, s⟩], KS', ?_, ?_, ?_, ?_, hKSnd', ?_, ?_, ?_, ?_, ?_⟩
        · rw [hstep, hhandle]
          show dfsProcessSuccs H W
            (updateHashTableValue t (getStateHashKey H W s) (depth : Int))
            (⟨depth, s⟩ :: st) depth rest = _
          rw [heq']
          rw [List.append_assoc, List.singleton_append]
        · intro e he
          obtain ⟨hnn, hor⟩ := hQ1' e he
          refine ⟨hnn, ?_⟩
          rcases hor with h | h
          · rcases mem_update t _ _ e h with h' | h'
            · exact Or.inl h'
            · rw [h']
              exact Or.inr rfl
          · exact Or.inr h
        · rw [hkeys', hkeysu]
        · intro k hk
          obtain ⟨hnot1, ⟨x, hx, hxk⟩, nd', hnd', hkey'⟩ := hKS' k hk
          rw [hkeysu] at hnot1
          exact ⟨hnot1, ⟨x, List.mem_cons_of_mem s hx, hxk⟩,
            nd', List.mem_append_left _ hnd', hkey'⟩
        · have hw1 := tableWeight_update t (getStateHashKey H W s) (depth : Int) hks
          have htn : ((depth : Int)).toNat = depth := by omega
          rw [htn] at hw1
          have hvN : (depth : Nat) + 1 ≤
              (getHashTableValue t (getStateHashKey H W s)).toNat := by omega
          rw [List.length_append]
          show tableWeight t' + (NEW'.length + 1) ≤
            tableWeight t + KS'.length * (depth + 1)
          omega
        · intro k hk
          have hk1' : k ∈ keysOf (updateHashTableValue t (getStateHashKey H W s)
              (depth : Int)) := by
            rw [hkeysu]
            exact hk
          obtain ⟨hle, hor⟩ := hQ3' k hk1'
          by_cases hkeq : k = getStateHashKey H W s
          · subst hkeq
            rw [hval1] at hle
            refine ⟨by omega, Or.inr ⟨by omega, ⟨depth, s⟩,
              List.mem_append_right _ (List.mem_cons_self _ _), rfl⟩⟩
          · rw [getHashTableValue_update_other t _ _ k hkeq] at hle hor
            refine ⟨hle, ?_⟩
            rcases hor with h | ⟨hlt, nd', hnd', hkey'⟩
            · exact Or.inl h
            · exact Or.inr ⟨hlt, nd', List.mem_append_left _ hnd', hkey'⟩
        · intro x hx
          rcases List.mem_cons.mp hx with h | h
          · subst h
            constructor
            · rw [hkeys', hkeysu]
              exact List.mem_append_left _ hks
            · rw [hstored_s]
          · exact hQ4' x h
        · intro nd hnd
          rcases List.mem_append.mp hnd with h | h
          · obtain ⟨hc, hb, hst, hfr⟩ := hQ5' nd h
            refine ⟨hc, List.mem_cons_of_mem s hb, hst, ?_⟩
            rcases hfr with h' | h'
            · rw [hkeysu] at h'
              exact Or.inl h'
            · have hne : getStateHashKey H W nd.board_state ≠ getStateHashKey H W s := by
                intro hkeq
                rw [hkeq, hval1] at h'
                omega
              rw [getHashTableValue_update_other t _ _ _ hne] at h'
              exact Or.inr h'
          · rcases List.mem_cons.mp h with h' | h'
            · subst h'
              exact ⟨rfl, List.mem_cons_self s rest, hstored_s, Or.inr hvd⟩
            · exact absurd h' (List.not_mem_nil nd)
        · rw [List.map_append]
          rw [List.nodup_append]
          refine ⟨hQ6', by simp, ?_⟩
          intro k hkm hks'
          obtain ⟨nd', hnd', hkey'⟩ := List.mem_map.mp hkm
          rcases List.mem_cons.mp hks' with h | h
          · exact hnotin' nd' hnd' (by rw [hkey', h])
          · exact absurd h (List.not_mem_nil k)
      · -- seen at most as deep: drop
        have hhandle : dfsHandleSucc H W t st s depth = (t, st) := by
          unfold dfsHandleSucc
          rw [if_neg hv0, if_neg hvd]
        have hks : getStateHashKey H W s ∈ keysOf t :=
          (present_iff_nonneg t h0 _).mp (by omega)
        obtain ⟨t', NEW', KS', heq', hQ1', hkeys', hKS', hKSnd', hwt', hQ3', hQ4', hQ5', hQ6'⟩ :=
          ih t st depth hall' h0
        refine ⟨t', NEW', KS', ?_, hQ1', hkeys', ?_, hKSnd', hwt', hQ3', ?_, ?_, hQ6'⟩
        · rw [hstep, hhandle]
          show dfsProcessSuccs H W t st depth rest = _
          exact heq'
        · intro k hk
          obtain ⟨hnot1, ⟨x, hx, hxk⟩, nd', hnd', hkey'⟩ := hKS' k hk
          exact ⟨hnot1, ⟨x, List.mem_cons_of_mem s hx, hxk⟩, nd', hnd', hkey'⟩
        · intro x hx
          rcases List.mem_cons.mp hx with h | h
          · subst h
            constructor
            · rw [hkeys']
              exact List.mem_append_left _ hks
            · have := (hQ3' _ hks).1
              omega
          · exact hQ4' x h
        · intro nd hnd
          obtain ⟨hc, hb, hst, hfr⟩ := hQ5' nd hnd
          exact ⟨hc, List.mem_cons_of_mem s hb, hst, hfr⟩

/-! ### C2: the depth-limited loop invariant is preserved -/

/-- Dropping a node at the depth limit preserves the invariant. -/
theorem dls_pop_inv {H W maxB md : Nat} {b0 : Board} {t : HashTable}
    {node : STATE_NODE} {st' : List STATE_NODE}
    (hInv : DlsInv H W maxB md b0 t (node :: st'))
    (hguard : md ≤ node.path_cost) :
    DlsInv H W maxB md b0 t st' := by
  obtain ⟨hD0, hD1, hD2, hD3, hD4⟩ := hInv
  refine ⟨hD0, hD1, hD2, ?_, ?_⟩
  · intro nd hnd
    exact hD3 nd (List.mem_cons_of_mem node hnd)
  · intro s hwfs hk
    rcases hD4 s hwfs hk with ⟨pre, nd, post, hdec, hb, hc, hpre⟩ | h | h
    · cases pre with
      | nil =>
        right; right
        rw [List.nil_append] at hdec
        injection hdec with h1 h2
        rw [← h1] at hc
        have hcast : (md : Int) ≤ (node.path_cost : Int) := by exact_mod_cast hguard
        omega
      | cons x pre' =>
        left
        rw [List.cons_append] at hdec
        injection hdec with h1 h2
        exact ⟨pre', nd, post, h2, hb, hc,
          fun y hy => hpre y (List.mem_cons_of_mem x hy)⟩
    · right; left
      exact h
    · right; right
      exact h

/-- Expanding the top node below the depth limit (no successor solved)
preserves the invariant. -/
theorem dls_expand_inv {H W maxB md : Nat} {b0 : Board} {t t' : HashTable}
    {node : STATE_NODE} {st' NEW : List STATE_NODE} {KS : List HashKey}
    (hInv : DlsInv H W maxB md b0 t (node :: st'))
    (hguard : node.path_cost < md)
    (hall : ∀ s' ∈ succsOf H W maxB node.board_state, checkGameComplete s' = false)
    (hQ1 : ∀ e ∈ t', 0 ≤ e.2 ∧ (e ∈ t ∨ e.2 = ((node.path_cost + 1 : Nat) : Int)))
    (hkeys : keysOf t' = keysOf t ++ KS)
    (hKS : ∀ k ∈ KS, k ∉ keysOf t ∧
      (∃ s ∈ succsOf H W maxB node.board_state, k = getStateHashKey H W s) ∧
      ∃ nd ∈ NEW, getStateHashKey H W nd.board_state = k)
    (hKSnd : KS.Nodup)
    (hQ3 : ∀ k ∈ keysOf t, getHashTableValue t' k ≤ getHashTableValue t k ∧
      (getHashTableValue t' k = getHashTableValue t k ∨
        (getHashTableValue t' k < getHashTableValue t k ∧
          ∃ nd ∈ NEW, getStateHashKey H W nd.board_state = k)))
    (hQ4 : ∀ s ∈ succsOf H W maxB node.board_state,
      getStateHashKey H W s ∈ keysOf t' ∧
      getHashTableValue t' (getStateHashKey H W s) ≤ ((node.path_cost + 1 : Nat) : Int))
    (hQ5 : ∀ nd ∈ NEW, nd.path_cost = node.path_cost + 1 ∧
      nd.board_state ∈ succsOf H W maxB node.board_state ∧
      getHashTableValue t' (getStateHashKey H W nd.board_state) =
        ((node.path_cost + 1 : Nat) : Int) ∧
      (getStateHashKey H W nd.board_state ∉ keysOf t ∨
        ((node.path_cost + 1 : Nat) : Int) <
          getHashTableValue t (getStateHashKey H W nd.board_state)))
    (hQ6 : (NEW.map (fun nd => getStateHashKey H W nd.board_state)).Nodup) :
    DlsInv H W maxB md b0 t' (NEW ++ st') := by
  obtain ⟨hD0, hD1, hD2, hD3, hD4⟩ := hInv
  obtain ⟨hwfn, hunsn, hreachn, hkeyn⟩ := hD3 node (List.mem_cons_self node st')
  have hwfNEW : ∀ nd ∈ NEW, wfBoard H W maxB nd.board_state = true :=
    fun nd hnd => wf_succsOf hwfn (hQ5 nd hnd).2.1
  have hpushed : ∀ (s : Board), wfBoard H W maxB s = true →
      (∃ nd ∈ NEW, getStateHashKey H W nd.board_state = getStateHashKey H W s) →
      (∃ pre nd post, NEW ++ st' = pre ++ nd :: post ∧ nd.board_state = s ∧
        (nd.path_cost : Int) ≤ getHashTableValue t' (getStateHashKey H W s) ∧
        ∀ x ∈ pre, x.board_state ≠ s) := by
    intro s hwfs ⟨nd, hnd, hkey⟩
    have hbs : nd.board_state = s := key_inj_wf (hwfNEW nd hnd) hwfs hkey
    obtain ⟨pre, post, hdec⟩ := List.append_of_mem hnd
    refine ⟨pre, nd, post ++ st', by rw [hdec, List.append_assoc, List.cons_append], hbs, ?_, ?_⟩
    · rw [← hkey, (hQ5 nd hnd).2.2.1, (hQ5 nd hnd).1]
    · intro x hx hxb
      have hQ6' := hQ6
      rw [hdec, List.map_append, List.map_cons, List.nodup_append] at hQ6'
      have hdisj := hQ6'.2.2
      have hxm : getStateHashKey H W x.board_state ∈
          pre.map (fun nd => getStateHashKey H W nd.board_state) :=
        List.mem_map.mpr ⟨x, hx, rfl⟩
      have hnotin := hdisj hxm
      apply hnotin
      rw [hxb, ← hbs]
      exact List.mem_cons_self _ _
  refine ⟨?_, ?_, ?_, ?_, ?_⟩
  · intro e he
    obtain ⟨hnn, hor⟩ := hQ1 e he
    refine ⟨hnn, ?_⟩
    rcases hor with h | h
    · exact (hD0 e h).2
    · rw [h]
      have : node.path_cost + 1 ≤ md := by omega
      exact_mod_cast this
  · rw [hkeys]
    rw [List.nodup_append]
    refine ⟨hD1, hKSnd, ?_⟩
    intro k hk hk2
    exact (hKS k hk2).1 hk
  · intro k hk
    rw [hkeys] at hk
    rcases List.mem_append.mp hk with h | h
    · exact hD2 k h
    · obtain ⟨-, ⟨s, hs, hks⟩, -⟩ := hKS k h
      exact ⟨s, wf_succsOf hwfn hs, hks⟩
  · intro nd hnd
    rcases List.mem_append.mp hnd with h | h
    · obtain ⟨hc, hb, hst, -⟩ := hQ5 nd h
      refine ⟨hwfNEW nd h, hall _ hb, ?_, ?_⟩
      · rw [hc]
        exact ⟨node.board_state, hreachn, hb⟩
      · exact (hQ4 _ hb).1
    · obtain ⟨hw, hu, hr, hkk⟩ := hD3 nd (List.mem_cons_of_mem node h)
      refine ⟨hw, hu, hr, ?_⟩
      rw [hkeys]
      exact List.mem_append_left _ hkk
  · intro s hwfs hk
    rw [hkeys] at hk
    rcases List.mem_append.mp hk with hkold | hknew
    · rcases (hQ3 _ hkold).2 with hveq | ⟨hvlt, ndP, hndP, hkeyP⟩
      · -- stored value unchanged
        rcases hD4 s hwfs hkold with ⟨pre, nd, post, hdec, hb, hc, hpre⟩ | hexp | hmd
        · cases pre with
          | nil =>
            -- the popped head was the topmost witness: now expanded
            rw [List.nil_append] at hdec
            injection hdec with h1 h2
            right; left
            intro s'' hs''
            have hsb : s'' ∈ succsOf H W maxB node.board_state := by
              rw [← h1] at hb
              rw [← hb] at hs''
              exact hs''
            refine ⟨hall _ hsb, (hQ4 _ hsb).1, ?_⟩
            have h4 := (hQ4 _ hsb).2
            rw [hveq]
            have hcv : (node.path_cost : Int) ≤
                getHashTableValue t (getStateHashKey H W s) := by
              rw [← h1] at hc
              exact hc
            push_cast at h4
            omega
          | cons x pre' =>
            -- witness deeper in the stack; no fresh push of this board
            rw [List.cons_append] at hdec
            injection hdec with h1 h2
            left
            have hnopush : ∀ ndP ∈ NEW,
                getStateHashKey H W ndP.board_state ≠ getStateHashKey H W s := by
              intro ndP hndP hkeyP
              rcases (hQ5 ndP hndP).2.2.2 with h' | h'
              · exact h' (hkeyP ▸ hkold)
              · have hst := (hQ5 ndP hndP).2.2.1
                rw [hkeyP] at hst h'
                rw [hveq] at hst
                omega
            refine ⟨NEW ++ pre', nd, post, ?_, hb, ?_, ?_⟩
            · rw [h2, List.append_assoc]
            · rw [hveq]
              exact hc
            · intro y hy
              rcases List.mem_append.mp hy with h | h
              · intro hyb
                exact hnopush y h (by rw [hyb])
              · exact hpre y (List.mem_cons_of_mem x h)
        · -- previously expanded: stays expanded
          right; left
          intro s'' hs''
          obtain ⟨hu'', hk'', hv''⟩ := hexp s'' hs''
          refine ⟨hu'', ?_, ?_⟩
          · rw [hkeys]
            exact List.mem_append_left _ hk''
          · have := (hQ3 _ hk'').1
            rw [hveq]
            omega
        · right; right
          rw [hveq]
          exact hmd
      · -- stored value dropped: a fresh node of this board was pushed
        left
        exact hpushed s hwfs ⟨ndP, hndP, hkeyP⟩
    · -- freshly recorded key: its push is the topmost occurrence
      obtain ⟨-, -, ndP, hndP, hkeyP⟩ := hKS _ hknew
      left
      exact hpushed s hwfs ⟨ndP, hndP, hkeyP⟩

/-- Expanding a node strictly decreases the depth-limited measure. -/
theorem dls_measure_step {H W maxB md : Nat} {t t' : HashTable}
    {node : STATE_NODE} {st' NEW : List STATE_NODE} {KS : List HashKey}
    (hkeys : keysOf t' = keysOf t ++ KS)
    (hwt : tableWeight t' + NEW.length ≤
      tableWeight t + KS.length * ((node.path_cost + 1) + 1))
    (hguard : node.path_cost < md)
    (hbound : (keysOf t').length ≤ tableBound H W maxB) :
    dlsMeasure H W maxB md t' (NEW ++ st') < dlsMeasure H W maxB md t (node :: st') := by
  unfold dlsMeasure
  rw [hkeys, List.length_append, List.length_append, List.length_cons]
  rw [hkeys, List.length_append] at hbound
  have hsplit : (tableBound H W maxB - (keysOf t).length) * (md + 1) =
      (tableBound H W maxB - ((keysOf t).length + KS.length)) * (md + 1) +
        KS.length * (md + 1) := by
    have h : tableBound H W maxB - (keysOf t).length =
        (tableBound H W maxB - ((keysOf t).length + KS.length)) + KS.length := by omega
    rw [h, Nat.add_mul]
  rw [hsplit]
  have hm2 : KS.length * ((node.path_cost + 1) + 1) ≤ KS.length * (md + 1) :=
    Nat.mul_le_mul_left _ (by omega)
  omega

/-- Walking down the optimal path inside the depth-limited closed set. -/
theorem dls_walkdown {H W maxB md : Nat} {b0 : Board} {n : Nat} {p : Nat → Board}
    (hpath : BfsPath H W maxB b0 n p)
    (hpwf : ∀ i, i ≤ n → wfBoard H W maxB (p i) = true)
    (hnmd : n ≤ md)
    {t : HashTable} {st : List STATE_NODE}
    (hdich : ∀ s : Board, wfBoard H W maxB s = true →
      getStateHashKey H W s ∈ keysOf t →
      ((∃ pre nd post, st = pre ++ nd :: post ∧ nd.board_state = s ∧
          (nd.path_cost : Int) ≤ getHashTableValue t (getStateHashKey H W s) ∧
          ∀ x ∈ pre, x.board_state ≠ s) ∨
       (∀ s' ∈ succsOf H W maxB s, checkGameComplete s' = false ∧
          getStateHashKey H W s' ∈ keysOf t ∧
          getHashTableValue t (getStateHashKey H W s') ≤
            getHashTableValue t (getStateHashKey H W s) + 1) ∨
       ((md : Int) ≤ getHashTableValue t (getStateHashKey H W s)))) :
    ∀ m j, n - j ≤ m → j < n →
      getStateHashKey H W (p j) ∈ keysOf t →
      getHashTableValue t (getStateHashKey H W (p j)) ≤ (j : Int) →
      BfsOnPath n p st := by
  intro m
  induction m with
  | zero =>
    intro j hm hj _ _
    omega
  | succ m ih =>
    intro j hm hj hkey hval
    rcases hdich (p j) (hpwf j (by omega)) hkey with
      ⟨pre, nd, post, hdec, hb, hc, -⟩ | hexp | hmd
    · refine ⟨j, hj, nd, ?_, hb, ?_⟩
      · rw [hdec]
        exact List.mem_append_right _ (List.mem_cons_self _ _)
      · omega
    · have hstep := hpath.2.1 j hj
      have hj1 : j + 1 < n := by
        by_contra h
        have hjn : j + 1 = n := by omega
        have hc := (hexp (p (j+1)) hstep).1
        rw [hjn, hpath.2.2] at hc
        simp at hc
      refine ih (j+1) (by omega) hj1 (hexp (p (j+1)) hstep).2.1 ?_
      have := (hexp (p (j+1)) hstep).2.2
      push_cast
      omega
    · have hcast : (n : Int) ≤ (md : Int) := by exact_mod_cast hnmd
      have hjn : (j : Int) < (n : Int) := by exact_mod_cast hj
      omega

/-- Below the minimal solve length, the depth-limited loop terminates
with the no-solution sentinel. -/
theorem dls_fail {H W maxB md : Nat} {b0 : Board} {n : Nat}
    (hwf0 : wfBoard H W maxB b0 = true)
    (hmin : IsMinSolve H W maxB b0 n)
    (hmd : md < n) :
    ∀ (fuel : Nat) (t : HashTable) (st : List STATE_NODE),
      DlsInv H W maxB md b0 t st →
      dlsMeasure H W maxB md t st < fuel →
      dfsLoop H W maxB true md fuel t st = some (-1) := by
  intro fuel
  induction fuel with
  | zero =>
    intro t st _ hμ
    omega
  | succ f ih =>
    intro t st hInv hμ
    cases st with
    | nil => exact dfsLoop_nil H W maxB true md f t
    | cons node st' =>
    by_cases hguard : node.path_cost < md
    · have hcond : (!true || decide (node.path_cost < md)) = true := by
        simp [hguard]
      rw [dfsLoop_cons, if_pos hcond]
      by_cases hsol : ∃ s' ∈ succsOf H W maxB node.board_state,
          checkGameComplete s' = true
      · exfalso
        obtain ⟨s', hs', hcs'⟩ := hsol
        obtain ⟨hwfn, -, hreachn, -⟩ :=
          hInv.2.2.2.1 node (List.mem_cons_self node st')
        have hg1 : SGoal H W maxB 1 node.board_state := ⟨s', hs', hcs'⟩
        have hg := reach_sgoal hreachn hg1
        exact hmin.2 (node.path_cost + 1) (by omega)
          ((sgoal_iff_solvable _ b0 hwf0).mp hg)
      · have hall : ∀ s' ∈ succsOf H W maxB node.board_state,
            checkGameComplete s' = false := by
          intro s' hs'
          cases hcg : checkGameComplete s' with
          | false => rfl
          | true => exact absurd ⟨s', hs', hcg⟩ hsol
        obtain ⟨t', NEW, KS, heqp, hQ1, hkeys, hKS, hKSnd, hwt, hQ3, hQ4, hQ5, hQ6⟩ :=
          dfsProcessSuccs_none_spec H W _ t st' (node.path_cost + 1) hall
            (fun e he => (hInv.1 e he).1)
        rw [heqp]
        show dfsLoop H W maxB true md f t' (NEW ++ st') = some (-1)
        have hInv' := dls_expand_inv hInv hguard hall hQ1 hkeys hKS hKSnd hQ3 hQ4 hQ5 hQ6
        have hbound : (keysOf t').length ≤ tableBound H W maxB := by
          apply @keys_length_le H W maxB _ hInv'.2.1
          intro k hk
          obtain ⟨s, hws, hks⟩ := hInv'.2.2.1 k hk
          rw [hks]
          exact key_bounds_wf hws
        have hμ' : dlsMeasure H W maxB md t' (NEW ++ st') <
            dlsMeasure H W maxB md t (node :: st') :=
          dls_measure_step hkeys hwt hguard hbound
        exact ih t' (NEW ++ st') hInv' (by omega)
    · have hcond : (!true || decide (node.path_cost < md)) = false := by
        simp [hguard]
      rw [dfsLoop_cons, if_neg (by rw [hcond]; exact Bool.false_ne_true)]
      have hInv' := dls_pop_inv hInv (by omega)
      have hμ' : dlsMeasure H W maxB md t st' <
          dlsMeasure H W maxB md t (node :: st') := by
        unfold dlsMeasure
        rw [List.length_cons]
        omega
      exact ih t st' hInv' (by omega)

/-- At or above the minimal solve length, the depth-limited loop finds
some solution and reports a positive depth. -/
theorem dls_succeed {H W maxB md : Nat} {b0 : Board} {n : Nat} {p : Nat → Board}
    (hwf0 : wfBoard H W maxB b0 = true)
    (hpath : BfsPath H W maxB b0 n p)
    (hnmd : n ≤ md) :
    ∀ (fuel : Nat) (t : HashTable) (st : List STATE_NODE),
      DlsInv H W maxB md b0 t st →
      BfsOnPath n p st →
      dlsMeasure H W maxB md t st < fuel →
      ∃ r : Int, dfsLoop H W maxB true md fuel t st = some r ∧ 0 < r := by
  have hpwf := path_wf hwf0 hpath
  intro fuel
  induction fuel with
  | zero =>
    intro t st _ _ hμ
    omega
  | succ f ih =>
    intro t st hInv hJ hμ
    obtain ⟨iJ, hiJ, ndJ, hndJ, hbJ, hcJ⟩ := hJ
    cases st with
    | nil => exact absurd hndJ (List.not_mem_nil ndJ)
    | cons node st' =>
    by_cases hguard : node.path_cost < md
    · have hcond : (!true || decide (node.path_cost < md)) = true := by
        simp [hguard]
      rw [dfsLoop_cons, if_pos hcond]
      by_cases hsol : ∃ s' ∈ succsOf H W maxB node.board_state,
          checkGameComplete s' = true
      · obtain ⟨t'', st'', heq⟩ :=
          dfsProcessSuccs_some_of_solved H W _ t st' (node.path_cost + 1) hsol
        rw [heq]
        refine ⟨((node.path_cost + 1 : Nat) : Int), rfl, ?_⟩
        exact_mod_cast Nat.succ_pos node.path_cost
      · have hall : ∀ s' ∈ succsOf H W maxB node.board_state,
            checkGameComplete s' = false := by
          intro s' hs'
          cases hcg : checkGameComplete s' with
          | false => rfl
          | true => exact absurd ⟨s', hs', hcg⟩ hsol
        obtain ⟨t', NEW, KS, heqp, hQ1, hkeys, hKS, hKSnd, hwt, hQ3, hQ4, hQ5, hQ6⟩ :=
          dfsProcessSuccs_none_spec H W _ t st' (node.path_cost + 1) hall
            (fun e he => (hInv.1 e he).1)
        rw [heqp]
        show ∃ r : Int, dfsLoop H W maxB true md f t' (NEW ++ st') = some r ∧ 0 < r
        have hInv' := dls_expand_inv hInv hguard hall hQ1 hkeys hKS hKSnd hQ3 hQ4 hQ5 hQ6
        have hJ' : BfsOnPath n p (NEW ++ st') := by
          rcases List.mem_cons.mp hndJ with hh | hh
          · have hbn : node.board_state = p iJ := by
              rw [← hh]
              exact hbJ
            have hstep := hpath.2.1 iJ hiJ
            have hstep' : p (iJ + 1) ∈ succsOf H W maxB node.board_state := by
              rw [hbn]
              exact hstep
            have hiJ1 : iJ + 1 < n := by
              by_contra hcon
              have hjn : iJ + 1 = n := by omega
              have hc := hall (p (iJ + 1)) hstep'
              rw [hjn, hpath.2.2] at hc
              simp at hc
            have hcJn : node.path_cost ≤ iJ := by
              rw [hh] at hcJ
              exact hcJ
            apply dls_walkdown hpath hpwf hnmd hInv'.2.2.2.2 n (iJ + 1) (by omega)
              hiJ1 (hQ4 (p (iJ + 1)) hstep').1
            have := (hQ4 (p (iJ + 1)) hstep').2
            push_cast at this ⊢
            omega
          · exact ⟨iJ, hiJ, ndJ, List.mem_append_right _ hh, hbJ, hcJ⟩
        have hbound : (keysOf t').length ≤ tableBound H W maxB := by
          apply @keys_length_le H W maxB _ hInv'.2.1
          intro k hk
          obtain ⟨s, hws, hks⟩ := hInv'.2.2.1 k hk
          rw [hks]
          exact key_bounds_wf hws
        have hμ' : dlsMeasure H W maxB md t' (NEW ++ st') <
            dlsMeasure H W maxB md t (node :: st') :=
          dls_measure_step hkeys hwt hguard hbound
        exact ih t' (NEW ++ st') hInv' hJ' (by omega)
    · have hcond : (!true || decide (node.path_cost < md)) = false := by
        simp [hguard]
      rw [dfsLoop_cons, if_neg (by rw [hcond]; exact Bool.false_ne_true)]
      have hndJ' : ndJ ∈ st' := by
        rcases List.mem_cons.mp hndJ with hh | hh
        · exfalso
          rw [hh] at hcJ
          omega
        · exact hh
      have hInv' := dls_pop_inv hInv (by omega)
      have hμ' : dlsMeasure H W maxB md t st' <
          dlsMeasure H W maxB md t (node :: st') := by
        unfold dlsMeasure
        rw [List.length_cons]
        omega
      exact ih t st' hInv' ⟨iJ, hiJ, ndJ, hndJ', hbJ, hcJ⟩ (by omega)

/-! ### C2: running the searches from the root -/

theorem dls_init_inv {H W maxB md : Nat} {b : Board}
    (hwf : wfBoard H W maxB b = true) (hns : checkGameComplete b = false) :
    DlsInv H W maxB md b [(getStateHashKey H W b, 0)] [⟨0, b⟩] := by
  refine ⟨?_, ?_, ?_, ?_, ?_⟩
  · intro e he
    rcases List.mem_cons.mp he with h | h
    · subst h
      constructor
      · norm_num
      · show (0 : Int) ≤ (md : Int)
        exact_mod_cast Nat.zero_le md
    · exact absurd h (List.not_mem_nil e)
  · show ([getStateHashKey H W b]).Nodup
    exact List.nodup_singleton _
  · intro k hk
    rcases List.mem_cons.mp hk with h | h
    · exact ⟨b, hwf, h⟩
    · exact absurd h (List.not_mem_nil k)
  · intro nd hnd
    rcases List.mem_cons.mp hnd with h | h
    · rw [h]
      exact ⟨hwf, hns, rfl, List.mem_cons_self _ _⟩
    · exact absurd h (List.not_mem_nil nd)
  · intro s hwfs hk
    rcases List.mem_cons.mp hk with h | h
    · have hsb : b = s := key_inj_wf hwf hwfs h.symm
      left
      refine ⟨[], ⟨0, b⟩, [], rfl, hsb, ?_, ?_⟩
      · rw [h]
        simp [getHashTableValue]
      · intro x hx
        exact absurd hx (List.not_mem_nil x)
    · exact absurd h (List.not_mem_nil _)

theorem dls_measure_init {H W maxB md : Nat} {b : Board} :
    dlsMeasure H W maxB md [(getStateHashKey H W b, 0)] [⟨0, b⟩] <
      tableBound H W maxB * (md + 1) + 2 := by
  show 0 + (tableBound H W maxB - 1) * (md + 1) + 1 < tableBound H W maxB * (md + 1) + 2
  have hmul : (tableBound H W maxB - 1) * (md + 1) ≤ tableBound H W maxB * (md + 1) :=
    Nat.mul_le_mul_right _ (by omega)
  omega

/-- `depthLimitedSearch` below the minimal solve length reports the
no-solution sentinel. -/
theorem dls_fail_run {H W maxB : Nat} {b : Board} {n ℓ : Nat}
    (hwf : wfBoard H W maxB b = true)
    (hns : checkGameComplete b = false)
    (hmin : IsMinSolve H W maxB b n) (hℓ : ℓ < n) :
    ∀ fuel, tableBound H W maxB * (ℓ + 1) + 2 ≤ fuel →
      depthLimitedSearch fuel H W maxB b ℓ = some (-1) := by
  intro fuel hfuel
  unfold depthLimitedSearch generalDepthFirstSearch
  apply dls_fail hwf hmin hℓ fuel _ _ (dls_init_inv hwf hns)
  have := @dls_measure_init H W maxB ℓ b
  omega

/-- `depthLimitedSearch` at or above the minimal solve length reports a
positive depth. -/
theorem dls_succeed_run {H W maxB : Nat} {b : Board} {n ℓ : Nat}
    (hwf : wfBoard H W maxB b = true)
    (hns : checkGameComplete b = false)
    (hmin : IsMinSolve H W maxB b n) (hℓ : n ≤ ℓ) :
    ∀ fuel, tableBound H W maxB * (ℓ + 1) + 2 ≤ fuel →
      ∃ r : Int, depthLimitedSearch fuel H W maxB b ℓ = some r ∧ 0 < r := by
  intro fuel hfuel
  have hn1 : 1 ≤ n := minsolve_pos hns hmin
  have hg : SGoal H W maxB n b := (sgoal_iff_solvable n b hwf).mpr hmin.1
  obtain ⟨p, hpath⟩ := sgoal_path hg
  unfold depthLimitedSearch generalDepthFirstSearch
  apply dls_succeed hwf hpath hℓ fuel _ _ (dls_init_inv hwf hns)
  · exact ⟨0, by omega, ⟨0, b⟩, List.mem_cons_self _ _, hpath.1.symm, Nat.le_refl 0⟩
  · have := @dls_measure_init H W maxB ℓ b
    omega

theorem idsLoop_cons (innerFuel H W maxB fuel k : Nat) (b : Board) :
    idsLoop innerFuel H W maxB b (fuel+1) k =
      match depthLimitedSearch innerFuel H W maxB b (k + 1) with
      | none => none
      | some r => if r > 0 then some (k + 1)
                  else idsLoop innerFuel H W maxB b fuel (k+1) := rfl

/-- The iterative-deepening round loop: failing rounds up to the minimal
solve length, then a succeeding round, return exactly that length. -/
theorem ids_rounds {H W maxB : Nat} {b : Board} {n innerFuel : Nat}
    (hfail : ∀ ℓ, ℓ < n → depthLimitedSearch innerFuel H W maxB b ℓ = some (-1))
    (hsucc : ∃ r : Int, depthLimitedSearch innerFuel H W maxB b n = some r ∧ 0 < r) :
    ∀ fuel k, k < n → n - k ≤ fuel → idsLoop innerFuel H W maxB b fuel k = some n := by
  intro fuel
  induction fuel with
  | zero =>
    intro k hk hm
    omega
  | succ f ih =>
    intro k hk hm
    rw [idsLoop_cons]
    by_cases hkn : k + 1 < n
    · rw [hfail (k+1) hkn]
      show (if (-1 : Int) > 0 then some (k+1)
        else idsLoop innerFuel H W maxB b f (k+1)) = some n
      rw [if_neg (by norm_num)]
      exact ih (k+1) hkn (by omega)
    · have hkn' : k + 1 = n := by omega
      obtain ⟨r, heq, hr⟩ := hsucc
      rw [hkn', heq]
      show (if r > 0 then some n else idsLoop innerFuel H W maxB b f n) = some n
      rw [if_pos hr]

/-- `interativeDeepeningSearch` returns exactly the minimal number of
moves on a well-formed, unsolved, solvable board, for sufficient fuels. -/
theorem ids_finds_min {H W maxB : Nat} {b : Board} {n : Nat}
    (hwf : wfBoard H W maxB b = true)
    (hns : checkGameComplete b = false)
    (hmin : IsMinSolve H W maxB b n) :
    ∀ fuel innerFuel, n ≤ fuel → tableBound H W maxB * (n + 1) + 2 ≤ innerFuel →
      interativeDeepeningSearch fuel innerFuel H W maxB b = some n := by
  intro fuel innerFuel hfo hfi
  have hn1 : 1 ≤ n := minsolve_pos hns hmin
  unfold interativeDeepeningSearch
  apply ids_rounds ?_ ?_ fuel 0 (by omega) (by omega)
  · intro ℓ hℓ
    apply dls_fail_run hwf hns hmin hℓ innerFuel
    have hmono : tableBound H W maxB * (ℓ + 1) ≤ tableBound H W maxB * (n + 1) :=
      Nat.mul_le_mul_left _ (by omega)
    omega
  · exact dls_succeed_run hwf hns hmin (Nat.le_refl n) innerFuel hfi

/-- C2 (amended): for every well-formed solvable board that is not
already solved, with minimal solve length `n`, both `breadthFirstSearch`
and `interativeDeepeningSearch` (its reported first successful depth
limit) return exactly `n` once given sufficient fuel; in particular the
two drivers agree. On an already-solved board the claim fails: the
minimum is 0 moves but both drivers report 1 (see the counterexample). -/
theorem c2_ids_bfs_min_equal (H W maxB : Nat) (b : Board) (n : Nat)
    (hwf : wfBoard H W maxB b = true)
    (hns : checkGameComplete b = false)
    (hmin : IsMinSolve H W maxB b n) :
    ∃ F : Nat, ∀ fuel, F ≤ fuel →
      breadthFirstSearch fuel H W maxB b = some ((n : Nat) : Int) ∧
      interativeDeepeningSearch fuel fuel H W maxB b = some n := by
  refine ⟨bfsMeasure H W maxB (insertIntoStateHashTable [] (getStateHashKey H W b) 0)
      [⟨0, b⟩] + tableBound H W maxB * (n + 1) + n + 3, ?_⟩
  intro fuel hfuel
  constructor
  · exact bfs_finds_min hwf hns hmin fuel (by omega)
  · exact ids_finds_min hwf hns hmin fuel fuel (by omega) (by omega)

/-- C2, counterexample to the original claim: `bSolved` is well-formed
and already solved, so its minimal number of moves to a solved state is
0, yet breadth-first search and iterative deepening both report 1. -/
theorem c2_min_zero_counterexample :
    wfBoard 3 4 2 bSolved = true ∧
    IsMinSolve 3 4 2 bSolved 0 ∧
    breadthFirstSearch 5 3 4 2 bSolved = some 1 ∧
    interativeDeepeningSearch 5 5 3 4 2 bSolved = some 1 ∧
    (1 : Int) ≠ ((0 : Nat) : Int) := by
  refine ⟨by decide, by decide, by decide, by decide, by decide⟩

theorem c2_ids_bfs_min_equal_witness :
    wfBoard 3 4 2 bOne = true ∧ checkGameComplete bOne = false ∧
    IsMinSolve 3 4 2 bOne 1 ∧
    ∃ F : Nat, ∀ fuel, F ≤ fuel →
      breadthFirstSearch fuel 3 4 2 bOne = some ((1 : Nat) : Int) ∧
      interativeDeepeningSearch fuel fuel 3 4 2 bOne = some 1 :=
  ⟨by decide, by decide, by decide,
    c2_ids_bfs_min_equal 3 4 2 bOne 1 (by decide) (by decide) (by decide)⟩

end SBP
